import Mathlib

/-!
Verification of the cooperative scheduler / event loop of `src/core/src/trezor/loop.py`.

The scheduler is embedded as a small-step machine.  Python's nested calls
(`close` calling `task.close()` which unwinds a `spawn` and closes children,
finalizers scheduling the parent, ...) are flattened into a LIFO stack of
pending micro-operations processed one at a time; one source-level entry point
(`schedule`, `pause`, `close`, or one iteration of `run`'s while-loop) pushes
its micro-operations and the machine drains them.  Every externally observable
action is recorded in an event trace.

Tasks (Python coroutines) are modelled as first-order programs: a task either
returns a value, raises, or yields a scheduler request and continues.  A task
suspended by awaiting a `spawn` sits inside `spawn.__iter__`'s `try/except`,
so an exception thrown into it runs `spawn.exit()` before re-raising; this is
captured by the task's suspension kind.  A plain task's reaction to a thrown
exception (propagate it, or unwind raising another exception) is the task's
`onThrow` behaviour.

The timer queue (`utimeq`) and tick arithmetic (`utime.ticks_add` /
`ticks_diff`) are imported C modules, not present under `src/`; they are
modelled from the spec (Sections 4.A and 3 of `spec.md`).
-/

namespace TrezorLoop

/-- Modelled from the spec: the monotonic microsecond clock is 32-bit and
wrap-aware ("wraps roughly every 71 minutes", "signed 32-bit difference"). -/
def TICKS : Nat := 4294967296

/-- Modelled from the spec: `utime.ticks_add`, wrap-aware addition modulo 2^32. -/
def wrapAdd (a d : Nat) : Nat := (a + d) % TICKS

/-- Modelled from the spec: `utime.ticks_diff`, the signed 32-bit wrap-aware
difference of two tick values. -/
def wrapDiff (a b : Nat) : Int :=
  let d := (a % TICKS + TICKS - b % TICKS) % TICKS
  if d < TICKS / 2 then (d : Int) else (d : Int) - (TICKS : Int)

/-- Exceptions: `GeneratorExit` (the cancellation marker) or an ordinary
`Exception` identified by a code. -/
inductive Exc
  | genExit
  | err (n : Nat)
deriving DecidableEq, Repr

/-- Values delivered to / returned by tasks.  `unit` is Python's `None`;
`exc` is an exception object used as a value (the `isinstance(value,
BaseException)` test in `_step`). -/
inductive Val
  | unit
  | nat (n : Nat)
  | exc (e : Exc)
deriving DecidableEq, Repr

def Val.isExc : Val → Bool
  | .exc _ => true
  | _ => false

/-- A finalizer callback: either an ordinary application callback (identified
by a code, no scheduler side effects) or `spawn._finish` of the spawn object
with the given id. -/
inductive Finalizer
  | plainFin (fid : Nat)
  | spawnFin (sid : Nat)
deriving DecidableEq, Repr

/-- The requests (syscalls) a task may yield: `sleep(delay_us)`,
`wait(msg_iface)`, a `spawn` object (awaited), the bare `None` sentinel, or an
object the stepper does not recognize. -/
inductive Req
  | sleepR (delayUs : Nat)
  | waitR (iface : Nat)
  | raceR (sid : Nat)
  | noneR
  | unknownR
deriving DecidableEq, Repr

/-- A task body: return a value (`StopIteration`), raise, or yield a request
and continue. -/
inductive Prog
  | ret (v : Val)
  | fail (e : Exc)
  | yieldR (r : Req) (k : Prog)
deriving DecidableEq, Repr

/-- How a plain suspension point reacts to a thrown exception: let it
propagate, or unwind raising a different exception (a failing cancel hook). -/
inductive ThrowBhv
  | propagate
  | raiseOther (e : Exc)
deriving DecidableEq, Repr

/-- Where a live task is suspended: at a plain yield, inside
`spawn.__iter__`'s `yield self` (so its unwind runs `spawn.exit()`), or the
generator is already finished/closed. -/
inductive Susp
  | atYield
  | inSpawn (sid : Nat)
  | closedS
deriving DecidableEq, Repr

structure TaskObj where
  prog : Prog
  susp : Susp
  onThrow : ThrowBhv
deriving DecidableEq, Repr

/-- A `spawn` object: children (task ids; a generator child is used as-is),
the `exit_others` flag, and the `callback` / `scheduled` / `finished` fields
of `spawn.handle` / `spawn._finish`. -/
structure SpawnObj where
  children : List Nat
  exitOthers : Bool
  callback : Option Nat
  scheduled : List Nat
  finished : List Nat
deriving DecidableEq, Repr

/-- A timer-queue entry `(deadline, task, value)`; `seq` is the insertion
counter that breaks deadline ties (spec 4.A: "ties broken by insertion
order"). -/
structure QEntry where
  deadline : Nat
  seq : Nat
  task : Nat
  value : Val
deriving DecidableEq, Repr

/-- What `io.poll` reports on one loop turn: a message on an interface, or a
timeout.  The I/O driver is external (spec Section 6). -/
inductive PollOutcome
  | msg (iface : Nat) (payload : Val)
  | timeout
deriving DecidableEq, Repr

/-- Observable events, in program order. -/
inductive Ev
  | stepEv (t : Nat) (v : Val)            -- `_step(task, value)` invoked
  | fireEv (t : Nat) (f : Finalizer) (v : Val)  -- finalizer invoked by `finalize`
  | installEv (t : Nat) (f : Finalizer)         -- finalizer installed by `schedule`
  | schedEv (t : Nat) (deadline : Nat) (v : Val)  -- `_queue.push`
  | pollEv (budget : Int) (out : PollOutcome)     -- `io.poll` called
  | hookEv                                 -- `after_step_hook()` invoked
  | unknownEv (t : Nat)                    -- "unknown syscall" logged
  | uncaughtEv (e : Exc)                   -- exception propagates out of the entry point
deriving DecidableEq, Repr

/-- Pending micro-operations (the flattened Python call stack). -/
inductive Micro
  | mStep (t : Nat) (v : Val)                                  -- `_step(task, value)`
  | mFire (t : Nat) (v : Val)                                  -- `finalize(task, value)`
  | mClose (t : Nat)                                           -- `close(task)`
  | mSchedule (t : Nat) (v : Val) (dl : Option Nat) (f : Option Finalizer)  -- `schedule(...)`
  | mRaise (t : Nat) (e : Exc)                                 -- re-raise after spawn unwind in `_step`
  | mTurn (out : PollOutcome)                                  -- one iteration of `run`'s loop
deriving DecidableEq, Repr

structure St where
  tasks : List (Nat × TaskObj)
  queue : List QEntry
  seqCtr : Nat
  paused : List (Nat × List Nat)
  finalizers : List (Nat × Finalizer)
  spawns : List (Nat × SpawnObj)
  now : Nat
  hook : Bool
  stack : List Micro
  trace : List Ev
deriving DecidableEq, Repr

/-! ### State primitives -/
def appendEv (e : Ev) (s : St) : St := { s with trace := s.trace ++ [e] }

def pushMicros (ms : List Micro) (s : St) : St := { s with stack := ms ++ s.stack }

/-- Key lookup in an association list (`dict` access keyed by `id(task)` /
interface id / spawn identity). -/
def alookup {α : Type} (k : Nat) : List (Nat × α) → Option α
  | [] => none
  | pr :: m => if k = pr.1 then some pr.2 else alookup k m

/-- Modelled from the spec: stable insertion into the timer queue — the new
entry goes before the first entry with a strictly later wrap-aware deadline
(spec 4.A: min-heap on wrap-aware deadline, "ties broken by insertion
order"; `utimeq` is an imported C module). -/
def qinsert (e : QEntry) : List QEntry → List QEntry
  | [] => [e]
  | x :: xs => if wrapDiff e.deadline x.deadline < 0 then e :: x :: xs else x :: qinsert e xs

/-- Modelled from the spec: `utimeq.discard(task)` drops any entry for the
task (spec 4.A "remove(task): locate and drop any entry for task"). -/
def qdiscard (t : Nat) (q : List QEntry) : List QEntry := q.filter (fun e => e.task ≠ t)

def queueTasks (q : List QEntry) : List Nat := q.map (fun e => e.task)

/-- `_paused[iface].discard(task)` for every iface: the sets shrink but the
dict keys remain (as in `close`). -/
def pdiscard (t : Nat) (p : List (Nat × List Nat)) : List (Nat × List Nat) :=
  p.map (fun pr => (pr.1, pr.2.filter (fun u => u ≠ t)))

/-- `pause(task, iface)`: add to the set for `iface`, creating it if absent. -/
def pAdd (t : Nat) (i : Nat) (p : List (Nat × List Nat)) : List (Nat × List Nat) :=
  match alookup i p with
  | some ws => if t ∈ ws then p else p.map (fun pr => if pr.1 = i then (pr.1, pr.2 ++ [t]) else pr)
  | none => p ++ [(i, [t])]

def pausedTasks (p : List (Nat × List Nat)) : List Nat := p.flatMap (fun pr => pr.2)

/-- Overwrite the finalizer table entry for `t` (`_finalizers[id(task)] = finalizer`). -/
def finSet (t : Nat) (f : Finalizer) (m : List (Nat × Finalizer)) : List (Nat × Finalizer) :=
  (t, f) :: m.filter (fun pr => pr.1 ≠ t)

/-- Remove the finalizer table entry for `t` (`_finalizers.pop(id(task), None)`). -/
def finErase (t : Nat) (m : List (Nat × Finalizer)) : List (Nat × Finalizer) :=
  m.filter (fun pr => pr.1 ≠ t)

def tset (t : Nat) (o : TaskObj) (m : List (Nat × TaskObj)) : List (Nat × TaskObj) :=
  (t, o) :: m.filter (fun pr => pr.1 ≠ t)

def sset (sid : Nat) (sp : SpawnObj) (m : List (Nat × SpawnObj)) : List (Nat × SpawnObj) :=
  (sid, sp) :: m.filter (fun pr => pr.1 ≠ sid)

/-! ### The scheduler operations, translated from `loop.py` -/
/-- `schedule(task, value, deadline, finalizer)`: default deadline is
`utime.ticks_us()` (the current time); install the finalizer if given; push
`(deadline, task, value)` onto the timer queue. -/
def scheduleSt (t : Nat) (v : Val) (dl? : Option Nat) (f? : Option Finalizer) (s : St) : St :=
  let dl := dl?.getD s.now
  let s1 := match f? with
    | some f => appendEv (.installEv t f) { s with finalizers := finSet t f s.finalizers }
    | none => s
  appendEv (.schedEv t dl v)
    { s1 with queue := qinsert ⟨dl, s1.seqCtr, t, v⟩ s1.queue, seqCtr := s1.seqCtr + 1 }

/-- An exception propagating out of the current entry point (out of `run` or
out of `close`): the pending call stack unwinds. -/
def doUncaught (e : Exc) (s : St) : St :=
  { appendEv (.uncaughtEv e) s with stack := [] }

/-- `spawn.handle(task)`: record the parent as callback, clear
`scheduled`/`finished`, and `schedule(child, None, None, self._finish)` each
child (children are tasks and are used as-is). -/
def spawnHandle (sid : Nat) (t : Nat) (s : St) : St :=
  match alookup sid s.spawns with
  | none => s
  | some sp =>
    let s1 := { s with spawns := sset sid { sp with callback := some t, scheduled := sp.children, finished := [] } s.spawns }
    sp.children.foldl (fun st c => scheduleSt c .unit none (some (.spawnFin sid)) st) s1

/-- Dispatch of a yielded request in `_step`'s `else:` branch:
`Syscall.handle` for `sleep`/`wait`/`spawn`, reschedule on the bare `None`,
log "unknown syscall" otherwise. -/
def dispatchReq (t : Nat) (r : Req) (s : St) : St :=
  match r with
  | .sleepR d => scheduleSt t (.nat (wrapAdd s.now d)) (some (wrapAdd s.now d)) none s
  | .waitR i => { s with paused := pAdd t i s.paused }
  | .noneR => scheduleSt t .unit none none s
  | .unknownR => appendEv (.unknownEv t) s
  | .raceR sid => spawnHandle sid t s

/-- `after_step_hook()` — invoked at the end of `_step`'s `else:` branch only. -/
def doHook (s : St) : St := if s.hook then appendEv .hookEv s else s

def suspAfter : Req → Susp
  | .raceR sid => .inSpawn sid
  | _ => .atYield

/-- `task.send(value)` on a live suspension: run the body to its next yield,
return, or raise; `_step` then finalizes, dispatches, and runs the hook. -/
def doResume (t : Nat) (obj : TaskObj) (s : St) : St :=
  match obj.prog with
  | .ret rv => pushMicros [.mFire t rv] { s with tasks := tset t { obj with susp := .closedS } s.tasks }
  | .fail e =>
    let s1 := { s with tasks := tset t { obj with susp := .closedS } s.tasks }
    if e = .genExit then doUncaught e s1 else pushMicros [.mFire t (.exc e)] s1
  | .yieldR r k =>
    let s1 := { s with tasks := tset t { obj with prog := k, susp := suspAfter r } s.tasks }
    doHook (dispatchReq t r s1)

/-- `task.throw(value)`: at a plain yield the task's `onThrow` behaviour
decides; inside `spawn.__iter__` the except-clause runs `self.exit()` (close
every scheduled child) and re-raises; on a finished generator the exception
is raised back.  An `Exception` is then caught by `_step` and finalized; a
`GeneratorExit` is not (`except Exception` does not match it) and propagates
out of `run`. -/
def doThrow (t : Nat) (e : Exc) (obj : TaskObj) (s : St) : St :=
  match obj.susp with
  | .closedS =>
    if e = .genExit then doUncaught e s else pushMicros [.mFire t (.exc e)] s
  | .inSpawn sid =>
    let s1 := { s with tasks := tset t { obj with susp := .closedS } s.tasks }
    let sch := ((alookup sid s1.spawns).map SpawnObj.scheduled).getD []
    pushMicros (sch.map .mClose ++ [.mRaise t e]) s1
  | .atYield =>
    let s1 := { s with tasks := tset t { obj with susp := .closedS } s.tasks }
    match obj.onThrow with
    | .propagate => if e = .genExit then doUncaught e s1 else pushMicros [.mFire t (.exc e)] s1
    | .raiseOther e2 => if e2 = .genExit then doUncaught e2 s1 else pushMicros [.mFire t (.exc e2)] s1

/-- The re-raise at the end of `spawn.__iter__`'s except clause, back in
`_step`: `except Exception` finalizes, `GeneratorExit` propagates. -/
def doRaise (t : Nat) (e : Exc) (s : St) : St :=
  if e = .genExit then doUncaught e s else pushMicros [.mFire t (.exc e)] s

/-- `_step(task, value)`: throw if the value is an exception object, else
send.  Sending into a finished generator raises `StopIteration` (value
`None`), which `_step` finalizes. -/
def doStep (t : Nat) (v : Val) (s : St) : St :=
  let s0 := appendEv (.stepEv t v) s
  match alookup t s0.tasks with
  | none => s0
  | some obj =>
    match v with
    | .exc e => doThrow t e obj s0
    | _ =>
      match obj.susp with
      | .closedS => pushMicros [.mFire t .unit] s0
      | _ => doResume t obj s0

/-- `finalize(task, value)`: pop the finalizer and invoke it.  `spawn._finish`
records the first finished child, closes the competing children when
`exit_others`, and schedules the callback with the result; if the finished
task is not among `scheduled`, the source's `child` variable is unbound
(`NameError`, modelled as error 999) and propagates. -/
def doFire (t : Nat) (v : Val) (s : St) : St :=
  match alookup t s.finalizers with
  | none => s
  | some f =>
    let s1 := appendEv (.fireEv t f v) { s with finalizers := finErase t s.finalizers }
    match f with
    | .plainFin _ => s1
    | .spawnFin sid =>
      match alookup sid s1.spawns with
      | none => s1
      | some sp =>
        if sp.finished ≠ [] then s1
        else if sp.scheduled.contains t then
          let s2 := { s1 with spawns := sset sid { sp with finished := [t] } s1.spawns }
          let closes := if sp.exitOthers then (sp.scheduled.filter (fun c => c ≠ t)).map .mClose else []
          let scheds := match sp.callback with
            | some cb => [Micro.mSchedule cb v none none]
            | none => []
          pushMicros (closes ++ scheds) s2
        else doUncaught (.err 999) s1

/-- `close(task)`: discard from every paused set and from the timer queue,
then `task.close()` (throw `GeneratorExit` into it; a clean unwind — or a
generator that was already finished — is fine, any other exception
propagates out of `close`), then `finalize(task, GeneratorExit())`. -/
def doClose (t : Nat) (s : St) : St :=
  let s0 := { s with queue := qdiscard t s.queue, paused := pdiscard t s.paused }
  match alookup t s0.tasks with
  | none => s0
  | some obj =>
    match obj.susp with
    | .closedS => pushMicros [.mFire t (.exc .genExit)] s0
    | .inSpawn sid =>
      let s1 := { s0 with tasks := tset t { obj with susp := .closedS } s0.tasks }
      let sch := ((alookup sid s1.spawns).map SpawnObj.scheduled).getD []
      pushMicros (sch.map .mClose ++ [.mFire t (.exc .genExit)]) s1
    | .atYield =>
      let s1 := { s0 with tasks := tset t { obj with susp := .closedS } s0.tasks }
      match obj.onThrow with
      | .propagate => pushMicros [.mFire t (.exc .genExit)] s1
      | .raiseOther e2 =>
        if e2 = .genExit then pushMicros [.mFire t (.exc .genExit)] s1 else doUncaught e2 s1

def maxDelay : Int := 1000000

/-- One iteration of `run`'s while-loop: if both structures are empty the
loop has exited; otherwise compute the poll budget (wrap-aware difference of
the earliest deadline and now, or `max_delay` if the queue is empty), call
`io.poll`, and either wake the entire waiter set of the reported interface or
pop and step the earliest scheduled task. -/
def doTurn (out : PollOutcome) (s : St) : St :=
  match s.queue, s.paused with
  | [], [] => s
  | _, _ =>
    let budget : Int := match s.queue with
      | [] => maxDelay
      | e :: _ => wrapDiff e.deadline s.now
    let s1 := appendEv (.pollEv budget out) s
    match out with
    | .msg i payload =>
      let ws := (alookup i s1.paused).getD []
      pushMicros (ws.map (fun w => .mStep w payload))
        { s1 with paused := s1.paused.filter (fun pr => pr.1 ≠ i) }
    | .timeout =>
      match s1.queue with
      | [] => s1
      | e :: rest => pushMicros [.mStep e.task e.value] { s1 with queue := rest }

def processMicro : Micro → St → St
  | .mStep t v, s => doStep t v s
  | .mFire t v, s => doFire t v s
  | .mClose t, s => doClose t s
  | .mSchedule t v dl f, s => scheduleSt t v dl f s
  | .mRaise t e, s => doRaise t e s
  | .mTurn out, s => doTurn out s

def microStep (s : St) : St :=
  match s.stack with
  | [] => s
  | m :: rest => processMicro m { s with stack := rest }

def drain : Nat → St → St
  | 0, s => s
  | n + 1, s => match s.stack with
    | [] => s
    | _ => drain n (microStep s)

/-- The public entry points (spec Section 6) and the environment's actions:
each pushes its work and the machine drains it. -/
inductive Op
  | opSchedule (t : Nat) (v : Val) (dl : Option Nat) (f : Option Finalizer)
  | opPause (t : Nat) (iface : Nat)
  | opClose (t : Nat)
  | opTurn (out : PollOutcome)
  | opSetNow (n : Nat)
deriving DecidableEq, Repr

def pushOp : Op → St → St
  | .opSchedule t v dl f, s => scheduleSt t v dl f s
  | .opPause t i, s => { s with paused := pAdd t i s.paused }
  | .opSetNow n, s => { s with now := n % TICKS }
  | .opClose t, s => { s with stack := s.stack ++ [.mClose t] }
  | .opTurn out, s => { s with stack := s.stack ++ [.mTurn out] }

def execOp (fuel : Nat) (op : Op) (s : St) : St := drain fuel (pushOp op s)

def execOps (fuel : Nat) (ops : List Op) (s : St) : St :=
  ops.foldl (fun st op => execOp fuel op st) s

/-- The initial scheduler state: empty queue, paused index, finalizer table
and stack; the task and spawn heaps describe the application's coroutines. -/
def initSt (tasks : List (Nat × TaskObj)) (spawns : List (Nat × SpawnObj))
    (now : Nat) (hook : Bool) : St :=
  ⟨tasks, [], 0, [], [], spawns, now % TICKS, hook, [], []⟩

/-! ### Trace observations -/
def isStepOf (t : Nat) : Ev → Bool
  | .stepEv u _ => u = t
  | _ => false

def countStep (t : Nat) (tr : List Ev) : Nat := tr.countP (isStepOf t)

def isStepOfV (t : Nat) (v : Val) : Ev → Bool
  | .stepEv u w => u = t && w = v
  | _ => false

def countStepV (t : Nat) (v : Val) (tr : List Ev) : Nat := tr.countP (isStepOfV t v)

def isFireOf (t : Nat) : Ev → Bool
  | .fireEv u _ _ => u = t
  | _ => false

def countFire (t : Nat) (tr : List Ev) : Nat := tr.countP (isFireOf t)

def isFireWith (f : Finalizer) : Ev → Bool
  | .fireEv _ g _ => g = f
  | _ => false

def countFireWith (f : Finalizer) (tr : List Ev) : Nat := tr.countP (isFireWith f)

def isInstallOf (t : Nat) : Ev → Bool
  | .installEv u _ => u = t
  | _ => false

def countInstall (t : Nat) (tr : List Ev) : Nat := tr.countP (isInstallOf t)

def isHook : Ev → Bool
  | .hookEv => true
  | _ => false

def countHook (tr : List Ev) : Nat := tr.countP isHook

def isUncaught : Ev → Bool
  | .uncaughtEv _ => true
  | _ => false

def countUncaught (tr : List Ev) : Nat := tr.countP isUncaught

/-- The first task among `a` and `b` to be stepped in the trace, if any. -/
def firstOf (a b : Nat) : List Ev → Option Nat
  | [] => none
  | .stepEv u _ :: es => if u = a ∨ u = b then some u else firstOf a b es
  | _ :: es => firstOf a b es

/-! ### Concrete scenario states used to refute claims -/
/-- A task that yields an unrecognized object and would then return. -/
def unkTask : TaskObj := ⟨.yieldR .unknownR (.ret .unit), .atYield, .propagate⟩

/-- C1 scenario: task 1 is scheduled with a finalizer installed and yields an
unrecognized request on its first step; the loop then runs dry. -/
def c1Final : St :=
  execOps 10
    [.opSchedule 1 .unit none (some (.plainFin 5)), .opTurn .timeout, .opTurn .timeout]
    (initSt [(1, unkTask)] [] 0 false)

/-- C2 scenario: parent task 0 awaits spawn group 0 whose only child is task 2
(a sleeping task); after one loop turn the parent is suspended on the group
and the child is scheduled; then the parent is closed. -/
def c2Tasks : List (Nat × TaskObj) :=
  [(0, ⟨.yieldR (.raceR 0) (.ret .unit), .atYield, .propagate⟩),
   (2, ⟨.yieldR (.sleepR 500000) (.ret .unit), .atYield, .propagate⟩)]

def c2AfterClose : St :=
  execOps 10 [.opSchedule 0 .unit none none, .opTurn .timeout, .opClose 0]
    (initSt c2Tasks [(0, ⟨[2], true, none, [], []⟩)] 0 false)

def c2AfterTurn : St := execOps 10 [.opTurn .timeout] c2AfterClose

/-- C4 scenario: the after-step hook is installed and task 3 returns normally
on its first step. -/
def c4Final : St :=
  execOps 10 [.opSchedule 3 .unit none none, .opTurn .timeout]
    (initSt [(3, ⟨.ret .unit, .atYield, .propagate⟩)] [] 0 true)

/-- C5 scenario: task 4 is scheduled at deadline 0, the clock advances to
1000, and a loop turn runs: the earliest deadline is 1000 µs in the past. -/
def c5Final : St :=
  execOps 10 [.opSchedule 4 .unit (some 0) none, .opSetNow 1000, .opTurn .timeout]
    (initSt [(4, ⟨.ret .unit, .atYield, .propagate⟩)] [] 0 false)

/-- C6 scenario: task 5 has a finalizer installed and an unwind behaviour that
raises `err 7` when `GeneratorExit` is thrown into it; it is closed. -/
def c6Final : St :=
  execOps 10 [.opSchedule 5 .unit (some 9999) (some (.plainFin 1)), .opClose 5]
    (initSt [(5, ⟨.yieldR (.waitR 1) (.ret .unit), .atYield, .raiseOther (.err 7)⟩)] [] 0 false)

/-- C7 scenario: task 6 awaits spawn group 1 which has zero children; three
further loop turns are attempted. -/
def c7Final : St :=
  execOps 10 [.opSchedule 6 .unit none none, .opTurn .timeout, .opTurn .timeout, .opTurn .timeout]
    (initSt [(6, ⟨.yieldR (.raceR 1) (.ret .unit), .atYield, .propagate⟩)]
      [(1, ⟨[], true, none, [], []⟩)] 0 false)

/-- Concrete state used to witness C5: one timer entry with deadline 0 while
the clock reads 1000. -/
def c5WitSt : St := { initSt [] [] 1000 false with queue := [⟨0, 0, 4, .unit⟩] }

/-- Concrete state used to witness C6: task 5 waits on an interface, its
unwind raises `err 7`, and a finalizer is installed for it. -/
def c6WitSt : St :=
  { initSt [(5, ⟨.yieldR (.waitR 1) (.ret .unit), .atYield, .raiseOther (.err 7)⟩)] [] 0 false
    with finalizers := [(5, .plainFin 1)] }

/-! ### C4: the after-step hook runs only on the yield path -/
def yieldsB : Prog → Bool
  | .yieldR _ _ => true
  | _ => false

/-- Concrete state used to witness C4: the hook is installed and task 3's
body immediately returns. -/
def c4WitSt : St :=
  { initSt [(3, ⟨.ret .unit, .atYield, .propagate⟩)] [] 0 true
    with stack := [.mStep 3 .unit] }

/-! ### C7: a race with zero children leaves the loop with no work -/
def allTurns (stk : List Micro) : Bool :=
  stk.all fun m => match m with
    | .mTurn _ => true
    | _ => false

def deadSt (s : St) : Prop := s.queue = [] ∧ s.paused = [] ∧ allTurns s.stack = true

/-- Concrete state used to witness C7: parent 6 is about to resume and await
spawn group 1, which has no children. -/
def c7WitSt : St :=
  { initSt [(6, ⟨.yieldR (.raceR 1) (.ret .unit), .atYield, .propagate⟩)]
      [(1, ⟨[], true, none, [], []⟩)] 0 false
    with queue := [⟨0, 0, 6, .unit⟩] }

/-! ### Conservation of step events: a drained non-turn stack steps exactly
the tasks that were pending on it -/
def isMStepP (p : Nat → Val → Bool) : Micro → Bool
  | .mStep u w => p u w
  | _ => false

def pendP (p : Nat → Val → Bool) (stk : List Micro) : Nat := stk.countP (isMStepP p)

def stepEvP (p : Nat → Val → Bool) : Ev → Bool
  | .stepEv u w => p u w
  | _ => false

def countStepP (p : Nat → Val → Bool) (tr : List Ev) : Nat := tr.countP (stepEvP p)

def notMTurn : Micro → Bool
  | .mTurn _ => false
  | _ => true

def mTurnFree (stk : List Micro) : Bool := stk.all notMTurn

/-- The bookkeeping obligations a scheduler-internal action satisfies: it
appends exactly `d` matching step events, pushes no step micro-operation and
no turn micro-operation, and only loses pending micro-operations when an
exception propagates (recorded as uncaught). -/
def StepObl (p : Nat → Val → Bool) (d : Nat) (s s' : St) : Prop :=
  countStepP p s'.trace = countStepP p s.trace + d ∧
  pendP p s'.stack ≤ pendP p s.stack ∧
  (countUncaught s'.trace = countUncaught s.trace → pendP p s'.stack = pendP p s.stack) ∧
  (mTurnFree s.stack = true → mTurnFree s'.stack = true) ∧
  countUncaught s.trace ≤ countUncaught s'.trace

/-! ### C10: an I/O message removes the whole waiter set, then steps each
waiter exactly once -/
def pollBudget (s : St) : Int :=
  match s.queue with
  | [] => maxDelay
  | e :: _ => wrapDiff e.deadline s.now

/-- Concrete state used to witness C10: tasks 8 and 9 wait on interface 3;
task 8 will pause on interface 3 again when resumed. -/
def c10WitSt : St :=
  { initSt [(8, ⟨.yieldR (.waitR 3) (.ret .unit), .atYield, .propagate⟩),
            (9, ⟨.ret .unit, .atYield, .propagate⟩)] [] 0 false
    with paused := [(3, [8, 9])] }

/-- Concrete state used to witness C8: task 7 is due at deadline 100 (clock
reads 100) and will yield `sleep(2000)`. -/
def c8WitSt : St :=
  { initSt [(7, ⟨.yieldR (.sleepR 2000) (.ret .unit), .atYield, .propagate⟩)] [] 100 false
    with queue := [⟨100, 0, 7, .unit⟩] }

/-! ### C1: a finalizer fires at most once per installation -/
/-- 1 when a finalizer is currently installed for `t` in the table, else 0. -/
def finBit (t : Nat) (s : St) : Nat :=
  if (alookup t s.finalizers).isSome then 1 else 0

/-- The at-most-once bookkeeping invariant: fires so far plus the currently
installed table entry never exceed the installations so far.  Every table
write is preceded by an install event and every table pop that invokes the
finalizer is recorded as a fire event, so the inequality is preserved by
every scheduler operation. -/
def inv1 (t : Nat) (s : St) : Prop :=
  countFire t s.trace + finBit t s ≤ countInstall t s.trace

/-! ### C9: re-scheduling with a new finalizer replaces the old one, which is
then never invoked -/
/-- A pending micro-operation that cannot install the finalizer `f`: every
micro except an `mSchedule` carrying exactly `f`. -/
def noFinMicro (f : Finalizer) : Micro → Bool
  | .mSchedule _ _ _ (some g) => g ≠ f
  | _ => true

/-- Public operations that do not re-install the plain finalizer `fid`. -/
def avoids9 (fid : Nat) : Op → Bool
  | .opSchedule _ _ _ (some g) => g ≠ .plainFin fid
  | _ => true

/-- `f` is absent from the table, absent from the pending stack, and the fire
count for `f` is unchanged from `s` to `s'`. -/
def Keep9 (fid : Nat) (s s' : St) : Prop :=
  s'.finalizers.all (fun pr => pr.2 ≠ Finalizer.plainFin fid) = true ∧
  s'.stack.all (noFinMicro (.plainFin fid)) = true ∧
  countFireWith (.plainFin fid) s'.trace = countFireWith (.plainFin fid) s.trace

/-- Concrete state used to witness C9: task 1 finishes immediately and has the
plain finalizer 5 installed. -/
def c9WitSt : St :=
  { initSt [(1, ⟨.ret .unit, .atYield, .propagate⟩)] [] 0 false
    with finalizers := [(1, .plainFin 5)] }

/-! ### C2 (amended): after close(t), t is never stepped again, absent spawn
references to t and re-scheduling operations -/
/-- A pending micro-operation that cannot lead directly to stepping `t` or
re-queueing `t`. -/
def clean2Micro (t : Nat) : Micro → Bool
  | .mStep u _ => u ≠ t
  | .mSchedule u _ _ _ => u ≠ t
  | _ => true

/-- The spawn object does not reference `t` as callback, child, or scheduled
wrapper. -/
def spClean (t : Nat) (sp : SpawnObj) : Bool :=
  decide (sp.callback ≠ some t) && sp.children.all (fun c => c ≠ t)
    && sp.scheduled.all (fun c => c ≠ t)

/-- Public operations that do not explicitly re-schedule or re-pause `t`. -/
def avoids2 (t : Nat) : Op → Bool
  | .opSchedule u _ _ _ => u ≠ t
  | .opPause u _ => u ≠ t
  | _ => true

/-- No queue entry, paused waiter, spawn reference, or pending micro mentions
`t` in a way that could step it. -/
def Clean2 (t : Nat) (s : St) : Prop :=
  s.queue.all (fun e => e.task ≠ t) = true ∧
  s.paused.all (fun pr => pr.2.all (fun w => w ≠ t)) = true ∧
  s.spawns.all (fun pr => spClean t pr.2) = true ∧
  s.stack.all (clean2Micro t) = true

/-- Cleanliness of the target state plus no new step events for `t`. -/
def Keep2 (t : Nat) (s s' : St) : Prop :=
  Clean2 t s' ∧ countStep t s'.trace = countStep t s.trace

/-- Concrete state used to witness C2: task 4 waits on interface 2; no spawn
groups exist. -/
def c2WitSt : St :=
  { initSt [(4, ⟨.yieldR (.waitR 2) (.ret .unit), .atYield, .propagate⟩)] [] 0 false
    with paused := [(2, [4])] }

/-! ### C3: FIFO at equal deadlines (timer queue modelled from the spec) -/
/-- A pending micro-operation that cannot step `b`, remove `a`'s timer entry,
or enqueue a fresh entry for `a` or `b`. -/
def clean3Micro (a b : Nat) : Micro → Bool
  | .mStep u _ => decide (u ≠ a) && decide (u ≠ b)
  | .mSchedule u _ _ _ => decide (u ≠ a) && decide (u ≠ b)
  | .mClose u => decide (u ≠ a) && decide (u ≠ b)
  | _ => true

/-- Queue discipline: any entry for task `b` is the one with sequence number
`sb`, and the entry with sequence number `sa` belongs to task `a`. -/
def qOk3 (a b sa sb : Nat) (e : QEntry) : Bool :=
  (if e.task = b then decide (e.seq = sb) else true) &&
  (if e.seq = sa then decide (e.task = a) else true)

/-- Scanning the timer queue front to back, the entry with sequence `sa`
appears strictly before the entry with sequence `sb` (or neither appears
before the other is ever reached). -/
def aBeforeB (sa sb : Nat) : List QEntry → Bool
  | [] => true
  | e :: q => if e.seq = sb then false else if e.seq = sa then true else aBeforeB sa sb q

/-- An event that is not a step of `a` or of `b`. -/
def notStepAB (a b : Nat) : Ev → Bool
  | .stepEv u _ => decide (u ≠ a) && decide (u ≠ b)
  | _ => true

/-- Public operations that neither enqueue, pause, nor close `a` or `b`. -/
def avoids3 (a b : Nat) : Op → Bool
  | .opSchedule u _ _ _ => decide (u ≠ a) && decide (u ≠ b)
  | .opPause u _ => decide (u ≠ a) && decide (u ≠ b)
  | .opClose u => decide (u ≠ a) && decide (u ≠ b)
  | _ => true

/-- The stable configuration: `a`'s timer entry precedes `b`'s, queue
discipline holds, both sequence numbers are in the past of the counter, `b`
is not paused, no spawn group references `a` or `b`, and the pending stack is
harmless. -/
def DisjC (a b sa sb : Nat) (s : St) : Prop :=
  aBeforeB sa sb s.queue = true ∧
  s.queue.all (qOk3 a b sa sb) = true ∧
  sa < s.seqCtr ∧ sb < s.seqCtr ∧
  s.paused.all (fun pr => pr.2.all (fun w => decide (w ≠ a) && decide (w ≠ b))) = true ∧
  s.spawns.all (fun pr => spClean a pr.2 && spClean b pr.2) = true ∧
  s.stack.all (clean3Micro a b) = true

/-- The FIFO invariant: either `a` has already been stepped first, or `a`'s
step is the next micro-operation, or the stable configuration holds with
neither task stepped yet. -/
def Inv3 (a b sa sb : Nat) (s : St) : Prop :=
  firstOf a b s.trace = some a
  ∨ (firstOf a b s.trace = none ∧ ∃ v rest, s.stack = Micro.mStep a v :: rest)
  ∨ (firstOf a b s.trace = none ∧ DisjC a b sa sb s)

/-- The trace is append-only: `s'` extends the trace of `s`. -/
def grows (s s' : St) : Prop := ∃ ext, s'.trace = s.trace ++ ext

/-- Preservation obligation for the stable configuration: the target state is
again stable and the trace grew only by events that step neither task. -/
def Keep3 (a b sa sb : Nat) (s s' : St) : Prop :=
  DisjC a b sa sb s' ∧ ∃ ext, s'.trace = s.trace ++ ext ∧ ext.all (notStepAB a b) = true

/-- Concrete state used to witness C3: two ready tasks 1 and 2 and an empty
scheduler. -/
def c3WitSt : St :=
  initSt [(1, ⟨.ret .unit, .atYield, .propagate⟩), (2, ⟨.ret .unit, .atYield, .propagate⟩)]
    [] 0 false

/-! ### Basic lemmas about the primitives -/
theorem foldl_pres {σ α : Type} (g : σ → α → σ) (P : σ → Prop)
    (h : ∀ st a, P st → P (g st a)) :
    ∀ (l : List α) (st : σ), P st → P (l.foldl g st) := by
  intro l
  induction l with
  | nil => intro st hst; exact hst
  | cons a l ih => intro st hst; exact ih _ (h st a hst)

theorem drain_nil (n : Nat) (s : St) (h : s.stack = []) : drain n s = s := by
  cases n with
  | zero => rfl
  | succ m => simp [drain, h]

theorem countP_snoc (p : Ev → Bool) (tr : List Ev) (e : Ev) :
    (tr ++ [e]).countP p = tr.countP p + (if p e then 1 else 0) := by
  simp [List.countP_append, List.countP_cons]

@[simp] theorem appendEv_tasks (e : Ev) (s : St) : (appendEv e s).tasks = s.tasks := rfl

@[simp] theorem appendEv_queue (e : Ev) (s : St) : (appendEv e s).queue = s.queue := rfl

@[simp] theorem appendEv_seqCtr (e : Ev) (s : St) : (appendEv e s).seqCtr = s.seqCtr := rfl

@[simp] theorem appendEv_paused (e : Ev) (s : St) : (appendEv e s).paused = s.paused := rfl

@[simp] theorem appendEv_finalizers (e : Ev) (s : St) :
    (appendEv e s).finalizers = s.finalizers := rfl

@[simp] theorem appendEv_spawns (e : Ev) (s : St) : (appendEv e s).spawns = s.spawns := rfl

@[simp] theorem appendEv_now (e : Ev) (s : St) : (appendEv e s).now = s.now := rfl

@[simp] theorem appendEv_hook (e : Ev) (s : St) : (appendEv e s).hook = s.hook := rfl

@[simp] theorem appendEv_stack (e : Ev) (s : St) : (appendEv e s).stack = s.stack := rfl

@[simp] theorem appendEv_trace (e : Ev) (s : St) : (appendEv e s).trace = s.trace ++ [e] := rfl

@[simp] theorem pushMicros_tasks (ms : List Micro) (s : St) :
    (pushMicros ms s).tasks = s.tasks := rfl

@[simp] theorem pushMicros_queue (ms : List Micro) (s : St) :
    (pushMicros ms s).queue = s.queue := rfl

@[simp] theorem pushMicros_seqCtr (ms : List Micro) (s : St) :
    (pushMicros ms s).seqCtr = s.seqCtr := rfl

@[simp] theorem pushMicros_paused (ms : List Micro) (s : St) :
    (pushMicros ms s).paused = s.paused := rfl

@[simp] theorem pushMicros_finalizers (ms : List Micro) (s : St) :
    (pushMicros ms s).finalizers = s.finalizers := rfl

@[simp] theorem pushMicros_spawns (ms : List Micro) (s : St) :
    (pushMicros ms s).spawns = s.spawns := rfl

@[simp] theorem pushMicros_now (ms : List Micro) (s : St) : (pushMicros ms s).now = s.now := rfl

@[simp] theorem pushMicros_hook (ms : List Micro) (s : St) :
    (pushMicros ms s).hook = s.hook := rfl

@[simp] theorem pushMicros_stack (ms : List Micro) (s : St) :
    (pushMicros ms s).stack = ms ++ s.stack := rfl

@[simp] theorem pushMicros_trace (ms : List Micro) (s : St) :
    (pushMicros ms s).trace = s.trace := rfl

@[simp] theorem doUncaught_tasks (e : Exc) (s : St) : (doUncaught e s).tasks = s.tasks := rfl

@[simp] theorem doUncaught_queue (e : Exc) (s : St) : (doUncaught e s).queue = s.queue := rfl

@[simp] theorem doUncaught_paused (e : Exc) (s : St) : (doUncaught e s).paused = s.paused := rfl

@[simp] theorem doUncaught_finalizers (e : Exc) (s : St) :
    (doUncaught e s).finalizers = s.finalizers := rfl

@[simp] theorem doUncaught_spawns (e : Exc) (s : St) : (doUncaught e s).spawns = s.spawns := rfl

@[simp] theorem doUncaught_hook (e : Exc) (s : St) : (doUncaught e s).hook = s.hook := rfl

@[simp] theorem doUncaught_stack (e : Exc) (s : St) : (doUncaught e s).stack = [] := rfl

@[simp] theorem doUncaught_trace (e : Exc) (s : St) :
    (doUncaught e s).trace = s.trace ++ [.uncaughtEv e] := rfl

@[simp] theorem scheduleSt_tasks (t : Nat) (v : Val) (dl : Option Nat) (f : Option Finalizer)
    (s : St) : (scheduleSt t v dl f s).tasks = s.tasks := by
  cases f <;> rfl

@[simp] theorem scheduleSt_paused (t : Nat) (v : Val) (dl : Option Nat) (f : Option Finalizer)
    (s : St) : (scheduleSt t v dl f s).paused = s.paused := by
  cases f <;> rfl

@[simp] theorem scheduleSt_spawns (t : Nat) (v : Val) (dl : Option Nat) (f : Option Finalizer)
    (s : St) : (scheduleSt t v dl f s).spawns = s.spawns := by
  cases f <;> rfl

@[simp] theorem scheduleSt_now (t : Nat) (v : Val) (dl : Option Nat) (f : Option Finalizer)
    (s : St) : (scheduleSt t v dl f s).now = s.now := by
  cases f <;> rfl

@[simp] theorem scheduleSt_hook (t : Nat) (v : Val) (dl : Option Nat) (f : Option Finalizer)
    (s : St) : (scheduleSt t v dl f s).hook = s.hook := by
  cases f <;> rfl

@[simp] theorem scheduleSt_stack (t : Nat) (v : Val) (dl : Option Nat) (f : Option Finalizer)
    (s : St) : (scheduleSt t v dl f s).stack = s.stack := by
  cases f <;> rfl

theorem scheduleSt_queue (t : Nat) (v : Val) (dl : Option Nat) (f : Option Finalizer)
    (s : St) : (scheduleSt t v dl f s).queue
      = qinsert ⟨dl.getD s.now, s.seqCtr, t, v⟩ s.queue := by
  cases f <;> rfl

theorem scheduleSt_seqCtr (t : Nat) (v : Val) (dl : Option Nat) (f : Option Finalizer)
    (s : St) : (scheduleSt t v dl f s).seqCtr = s.seqCtr + 1 := by
  cases f <;> rfl

theorem scheduleSt_finalizers_none (t : Nat) (v : Val) (dl : Option Nat) (s : St) :
    (scheduleSt t v dl none s).finalizers = s.finalizers := rfl

theorem scheduleSt_finalizers_some (t : Nat) (v : Val) (dl : Option Nat) (g : Finalizer)
    (s : St) : (scheduleSt t v dl (some g) s).finalizers = finSet t g s.finalizers := rfl

theorem scheduleSt_trace_none (t : Nat) (v : Val) (dl : Option Nat) (s : St) :
    (scheduleSt t v dl none s).trace = s.trace ++ [.schedEv t (dl.getD s.now) v] := rfl

theorem scheduleSt_trace_some (t : Nat) (v : Val) (dl : Option Nat) (g : Finalizer) (s : St) :
    (scheduleSt t v dl (some g) s).trace
      = s.trace ++ [.installEv t g, .schedEv t (dl.getD s.now) v] := by
  show (s.trace ++ [.installEv t g]) ++ [.schedEv t (dl.getD s.now) v] = _
  simp

theorem scheduleSt_countP (p : Ev → Bool) (t : Nat) (v : Val) (dl : Option Nat)
    (f : Option Finalizer) (s : St)
    (hi : ∀ u g, p (.installEv u g) = false)
    (hs : ∀ u d w, p (.schedEv u d w) = false) :
    ((scheduleSt t v dl f s).trace).countP p = s.trace.countP p := by
  cases f with
  | none => simp [scheduleSt_trace_none, countP_snoc, hs]
  | some g => simp [scheduleSt_trace_some, List.countP_append, List.countP_cons, hi, hs]

@[simp] theorem spawnHandle_tasks (sid t : Nat) (s : St) :
    (spawnHandle sid t s).tasks = s.tasks := by
  unfold spawnHandle
  split
  · rfl
  · exact foldl_pres _ (fun st : St => st.tasks = s.tasks)
      (fun st c hst => by simpa using hst) _ _ rfl

@[simp] theorem spawnHandle_paused (sid t : Nat) (s : St) :
    (spawnHandle sid t s).paused = s.paused := by
  unfold spawnHandle
  split
  · rfl
  · exact foldl_pres _ (fun st : St => st.paused = s.paused)
      (fun st c hst => by simpa using hst) _ _ rfl

@[simp] theorem spawnHandle_now (sid t : Nat) (s : St) :
    (spawnHandle sid t s).now = s.now := by
  unfold spawnHandle
  split
  · rfl
  · exact foldl_pres _ (fun st : St => st.now = s.now)
      (fun st c hst => by simpa using hst) _ _ rfl

@[simp] theorem spawnHandle_hook (sid t : Nat) (s : St) :
    (spawnHandle sid t s).hook = s.hook := by
  unfold spawnHandle
  split
  · rfl
  · exact foldl_pres _ (fun st : St => st.hook = s.hook)
      (fun st c hst => by simpa using hst) _ _ rfl

@[simp] theorem spawnHandle_stack (sid t : Nat) (s : St) :
    (spawnHandle sid t s).stack = s.stack := by
  unfold spawnHandle
  split
  · rfl
  · exact foldl_pres _ (fun st : St => st.stack = s.stack)
      (fun st c hst => by simpa using hst) _ _ rfl

theorem spawnHandle_countP (p : Ev → Bool) (sid t : Nat) (s : St)
    (hi : ∀ u g, p (.installEv u g) = false)
    (hs : ∀ u d w, p (.schedEv u d w) = false) :
    ((spawnHandle sid t s).trace).countP p = s.trace.countP p := by
  unfold spawnHandle
  split
  · rfl
  · exact foldl_pres _ (fun st : St => st.trace.countP p = s.trace.countP p)
      (fun st c hst => by simpa [scheduleSt_countP p _ _ _ _ _ hi hs] using hst) _ _ rfl

theorem dispatchReq_countP (p : Ev → Bool) (t : Nat) (r : Req) (s : St)
    (hi : ∀ u g, p (.installEv u g) = false)
    (hs : ∀ u d w, p (.schedEv u d w) = false)
    (hu : ∀ u, p (.unknownEv u) = false) :
    ((dispatchReq t r s).trace).countP p = s.trace.countP p := by
  cases r with
  | sleepR d => exact scheduleSt_countP p _ _ _ _ _ hi hs
  | waitR i => rfl
  | noneR => exact scheduleSt_countP p _ _ _ _ _ hi hs
  | unknownR => simp [dispatchReq, countP_snoc, hu]
  | raceR sid => exact spawnHandle_countP p _ _ _ hi hs

@[simp] theorem dispatchReq_hook (t : Nat) (r : Req) (s : St) :
    (dispatchReq t r s).hook = s.hook := by
  cases r <;> simp [dispatchReq]

@[simp] theorem dispatchReq_stack (t : Nat) (r : Req) (s : St) :
    (dispatchReq t r s).stack = s.stack := by
  cases r <;> simp [dispatchReq]

@[simp] theorem doHook_stack (s : St) : (doHook s).stack = s.stack := by
  unfold doHook; split <;> simp

theorem doHook_countP (p : Ev → Bool) (s : St) (hh : p .hookEv = false) :
    ((doHook s).trace).countP p = s.trace.countP p := by
  unfold doHook; split <;> simp [countP_snoc, hh]

/-- C1 counterexample: the claim "the finalizer is invoked exactly once ...
in particular a task that yields an unrecognized request still gets its
installed finalizer invoked exactly once" is false on the code.  Task 1 has a
finalizer installed (one install event) and yields an unrecognized request;
the loop runs to completion (queue, paused index and pending work all empty)
with the finalizer never invoked. -/
theorem C1_counterexample :
    countInstall 1 c1Final.trace = 1 ∧ countFire 1 c1Final.trace = 0 ∧
    c1Final.queue = [] ∧ c1Final.paused = [] ∧ c1Final.stack = [] ∧
    alookup 1 c1Final.finalizers = some (.plainFin 5) := by
  decide

/-- C2 counterexample: the claim "after close(t) returns, t is never resumed
... in particular when t is a parent task awaiting a spawn/Race group" is
false on the code.  Parent task 0 awaits spawn group 0; it is stepped once
before `close(0)`; `close(0)` unwinds the group, which closes child 2, whose
group finalizer re-schedules the parent; the next loop turn passes the parent
to the stepper again (with the injected `GeneratorExit`). -/
theorem C2_counterexample :
    countStep 0 c2AfterClose.trace = 1 ∧ c2AfterClose.stack = [] ∧
    queueTasks c2AfterClose.queue = [0] ∧
    countStep 0 c2AfterTurn.trace = 2 := by
  decide

/-- C4 counterexample: the claim "the after-step hook is invoked after the
step completes regardless of whether the task ... returned normally or raised
a failure" is false on the code.  The hook is installed, task 3's step
returns normally, and no hook invocation is recorded. -/
theorem C4_counterexample :
    c4Final.hook = true ∧ countStep 3 c4Final.trace = 1 ∧
    countHook c4Final.trace = 0 := by
  decide

/-- C5 counterexample: the claim "the budget passed to io.poll is clamped to
0; the loop never calls io.poll with a negative budget" is false on the code.
With the earliest deadline 1000 µs in the past, `io.poll` is called with
budget −1000. -/
theorem C5_counterexample : Ev.pollEv (-1000) .timeout ∈ c5Final.trace := by
  decide

/-- C6 counterexample: the claim "close(t) swallows a failure raised by the
cancel hook and still fires t's finalizer" is false on the code.  Task 5's
unwind raises `err 7`: the failure propagates out of `close` (uncaught) and
the finalizer is not fired (it stays installed). -/
theorem C6_counterexample :
    Ev.uncaughtEv (.err 7) ∈ c6Final.trace ∧ countFire 5 c6Final.trace = 0 ∧
    alookup 5 c6Final.finalizers = some (.plainFin 1) := by
  decide

/-- C7 counterexample: the claim "a Race/spawn constructed with zero children
... signals an error" is false on the code.  Handling the zero-children group
signals nothing: no error is raised, no child is scheduled, the parent is
stepped exactly once (its initial resume) and never again, and the loop runs
dry with the parent still suspended on the group. -/
theorem C7_counterexample :
    countUncaught c7Final.trace = 0 ∧ countStep 6 c7Final.trace = 1 ∧
    countFire 6 c7Final.trace = 0 ∧
    c7Final.queue = [] ∧ c7Final.paused = [] ∧ c7Final.stack = [] ∧
    alookup 1 c7Final.spawns = some ⟨[], true, some 6, [], []⟩ := by
  decide

/-! ### Association list and membership helpers -/
theorem alookup_filter_ne {α : Type} (t u : Nat) (h : t ≠ u) (m : List (Nat × α)) :
    alookup t (m.filter (fun pr => pr.1 ≠ u)) = alookup t m := by
  simp only [ne_eq, decide_not]
  induction m with
  | nil => rfl
  | cons a m ih =>
    by_cases ha : a.1 = u
    · have h2 : ¬ t = a.1 := by rw [ha]; exact h
      simp [List.filter_cons, ha, alookup, h2, ih, h]
    · by_cases hta : t = a.1
      · simp [List.filter_cons, ha, alookup, hta]
      · simp [List.filter_cons, ha, alookup, hta, ih]

theorem alookup_filter_self {α : Type} (t : Nat) (m : List (Nat × α)) :
    alookup t (m.filter (fun pr => pr.1 ≠ t)) = none := by
  simp only [ne_eq, decide_not]
  induction m with
  | nil => rfl
  | cons a m ih =>
    by_cases ha : a.1 = t
    · simp [List.filter_cons, ha, ih]
    · have h2 : ¬ t = a.1 := fun hh => ha hh.symm
      simp [List.filter_cons, ha, alookup, h2, ih]

theorem finSet_alookup (t u : Nat) (g : Finalizer) (m : List (Nat × Finalizer)) :
    alookup t (finSet u g m) = if t = u then some g else alookup t m := by
  unfold finSet
  by_cases h : t = u
  · simp [alookup, h]
  · simp only [alookup, h, if_false]
    exact alookup_filter_ne t u h m

theorem finErase_alookup (t u : Nat) (m : List (Nat × Finalizer)) :
    alookup t (finErase u m) = if t = u then none else alookup t m := by
  unfold finErase
  by_cases h : t = u
  · subst h; simpa using alookup_filter_self t m
  · simp only [h, if_false]
    exact alookup_filter_ne t u h m

theorem tset_alookup (t u : Nat) (o : TaskObj) (m : List (Nat × TaskObj)) :
    alookup t (tset u o m) = if t = u then some o else alookup t m := by
  unfold tset
  by_cases h : t = u
  · simp [alookup, h]
  · simp only [alookup, h, if_false]
    exact alookup_filter_ne t u h m

theorem sset_alookup (t u : Nat) (o : SpawnObj) (m : List (Nat × SpawnObj)) :
    alookup t (sset u o m) = if t = u then some o else alookup t m := by
  unfold sset
  by_cases h : t = u
  · simp [alookup, h]
  · simp only [alookup, h, if_false]
    exact alookup_filter_ne t u h m

/-! ### C5: poll budget is the raw wrap-aware difference (no clamping) -/
/-- C5 amended: on a loop turn with a nonempty timer queue, `io.poll` is
called with budget exactly `wrapDiff earliest_deadline now` — the raw
wrap-aware signed difference, which is negative when the earliest deadline is
already past; `run` does not clamp the budget to 0 before calling `io.poll`. -/
theorem C5_amended (s : St) (e : QEntry) (q' : List QEntry) (out : PollOutcome)
    (hstk : s.stack = []) (hq : s.queue = e :: q') :
    (microStep (pushOp (.opTurn out) s)).trace
      = s.trace ++ [.pollEv (wrapDiff e.deadline s.now) out] := by
  have h1 : (pushOp (.opTurn out) s).stack = [.mTurn out] := by
    simp [pushOp, hstk]
  unfold microStep
  rw [h1]
  show (doTurn out { s with stack := ([] : List Micro) }).trace = _
  unfold doTurn
  cases out <;> simp [hq, appendEv, pushMicros]

/-- Witness for C5: at the concrete state `c5WitSt` the hypotheses hold and
the recorded poll budget is the (negative) raw difference −1000. -/
theorem C5_witness :
    wrapDiff 0 1000 < 0 ∧
    (microStep (pushOp (.opTurn .timeout) c5WitSt)).trace
      = c5WitSt.trace ++ [.pollEv (wrapDiff 0 1000) .timeout] :=
  ⟨by decide, C5_amended c5WitSt ⟨0, 0, 4, .unit⟩ [] .timeout rfl rfl⟩

/-! ### C6: a failing cancel hook propagates out of close -/
/-- C6 amended: `close(t)` does not swallow a failure raised by the task's
unwind: when throwing `GeneratorExit` into `t` raises `err n`, that failure
propagates out of `close` (recorded as uncaught), `close` does not return
normally, and the finalizer is not fired — the finalizer table is unchanged
(`finalize` is never reached). -/
theorem C6_amended (s : St) (t n : Nat) (pr : Prog) (fuel : Nat)
    (hstk : s.stack = [])
    (ht : alookup t s.tasks = some ⟨pr, .atYield, .raiseOther (.err n)⟩) :
    (execOp (fuel + 1) (.opClose t) s).trace = s.trace ++ [.uncaughtEv (.err n)] ∧
    (execOp (fuel + 1) (.opClose t) s).finalizers = s.finalizers ∧
    (execOp (fuel + 1) (.opClose t) s).stack = [] := by
  have h1 : pushOp (.opClose t) s = { s with stack := [.mClose t] } := by
    simp [pushOp, hstk]
  have h2 : microStep { s with stack := [Micro.mClose t] }
      = doClose t { s with stack := [] } := rfl
  have h3 : doClose t { s with stack := ([] : List Micro) }
      = doUncaught (.err n)
          { s with
              stack := [],
              queue := qdiscard t s.queue,
              paused := pdiscard t s.paused,
              tasks := tset t ⟨pr, .closedS, .raiseOther (.err n)⟩ s.tasks } := by
    unfold doClose
    simp [ht]
  unfold execOp
  rw [h1]
  show (drain (fuel + 1) { s with stack := [Micro.mClose t] }).trace = _ ∧ _ ∧ _
  have h4 : drain (fuel + 1) { s with stack := [Micro.mClose t] }
      = drain fuel (microStep { s with stack := [Micro.mClose t] }) := by
    simp [drain]
  rw [h4, h2, h3]
  rw [drain_nil fuel _ (by simp [doUncaught])]
  simp [doUncaught, appendEv]

/-- Witness for C6: closing task 5 at `c6WitSt` records the propagated
failure and leaves the finalizer table untouched. -/
theorem C6_witness :
    (execOp 1 (.opClose 5) c6WitSt).trace = c6WitSt.trace ++ [.uncaughtEv (.err 7)] ∧
    (execOp 1 (.opClose 5) c6WitSt).finalizers = c6WitSt.finalizers ∧
    (execOp 1 (.opClose 5) c6WitSt).stack = [] :=
  C6_amended c6WitSt 5 7 (.yieldR (.waitR 1) (.ret .unit)) 0 rfl rfl

theorem countHook_doHook (s : St) :
    countHook (doHook s).trace = countHook s.trace + (if s.hook then 1 else 0) := by
  unfold doHook countHook
  by_cases h : s.hook <;> simp [h, countP_snoc, isHook]

theorem countHook_dispatchReq (t : Nat) (r : Req) (s : St) :
    countHook (dispatchReq t r s).trace = countHook s.trace :=
  dispatchReq_countP isHook t r s (fun _ _ => rfl) (fun _ _ _ => rfl) (fun _ => rfl)

theorem doStep_countHook (t : Nat) (v : Val) (s : St) (obj : TaskObj)
    (hv : v.isExc = false)
    (ht : alookup t s.tasks = some obj)
    (hsusp : obj.susp = .atYield) :
    countHook (doStep t v s).trace
      = countHook s.trace + (if yieldsB obj.prog && s.hook then 1 else 0) := by
  obtain ⟨pg, sp, th⟩ := obj
  simp only at hsusp
  subst hsusp
  cases v with
  | exc e => simp [Val.isExc] at hv
  | unit =>
    simp only [doStep, appendEv_tasks, ht]
    cases pg with
    | ret rv => simp [doResume, countHook, countP_snoc, isHook, yieldsB]
    | fail e =>
      cases e with
      | genExit => simp [doResume, countHook, countP_snoc, isHook, yieldsB]
      | err n => simp [doResume, countHook, countP_snoc, isHook, yieldsB]
    | yieldR r k =>
      simp only [doResume]
      rw [countHook_doHook, countHook_dispatchReq]
      simp [countHook, countP_snoc, isHook, yieldsB]
  | nat m =>
    simp only [doStep, appendEv_tasks, ht]
    cases pg with
    | ret rv => simp [doResume, countHook, countP_snoc, isHook, yieldsB]
    | fail e =>
      cases e with
      | genExit => simp [doResume, countHook, countP_snoc, isHook, yieldsB]
      | err n => simp [doResume, countHook, countP_snoc, isHook, yieldsB]
    | yieldR r k =>
      simp only [doResume]
      rw [countHook_doHook, countHook_dispatchReq]
      simp [countHook, countP_snoc, isHook, yieldsB]

/-- C4 amended: the global `after_step_hook` is invoked after a step exactly
when the resumption yields (a recognized request, the bare `None` sentinel,
or an unrecognized object, all dispatched in the stepper's no-exception
branch); it is not invoked when the task returns normally or raises — those
paths finalize the task and skip the hook. -/
theorem C4_amended (s : St) (t : Nat) (v : Val) (rest : List Micro) (obj : TaskObj)
    (hstk : s.stack = .mStep t v :: rest)
    (hv : v.isExc = false)
    (ht : alookup t s.tasks = some obj)
    (hsusp : obj.susp = .atYield) :
    countHook (microStep s).trace
      = countHook s.trace + (if yieldsB obj.prog && s.hook then 1 else 0) := by
  have h1 : microStep s = doStep t v { s with stack := rest } := by
    unfold microStep
    rw [hstk]
    rfl
  rw [h1]
  exact doStep_countHook t v { s with stack := rest } obj hv ht hsusp

/-- Witness for C4: stepping the returning task 3 at `c4WitSt` (hook
installed) adds `if yieldsB (ret unit) && true then 1 else 0 = 0` hook
invocations. -/
theorem C4_witness :
    countHook (microStep c4WitSt).trace
      = countHook c4WitSt.trace
        + (if yieldsB (.ret .unit) && c4WitSt.hook then 1 else 0) :=
  C4_amended c4WitSt 3 .unit [] ⟨.ret .unit, .atYield, .propagate⟩ rfl rfl rfl rfl

theorem dead_micro (s : St) (h : deadSt s) :
    deadSt (microStep s) ∧ (microStep s).trace = s.trace := by
  obtain ⟨h1, h2, h3⟩ := h
  cases hstk : s.stack with
  | nil =>
    unfold microStep
    rw [hstk]
    exact ⟨⟨h1, h2, h3⟩, rfl⟩
  | cons m rest =>
    rw [hstk] at h3
    cases m with
    | mTurn out =>
      simp only [allTurns, List.all_cons, Bool.and_eq_true] at h3
      have hms : microStep s = doTurn out { s with stack := rest } := by
        unfold microStep
        rw [hstk]
        rfl
      have hdt : doTurn out { s with stack := rest } = { s with stack := rest } := by
        unfold doTurn
        rw [show ({ s with stack := rest } : St).queue = [] from h1,
            show ({ s with stack := rest } : St).paused = [] from h2]
      rw [hms, hdt]
      exact ⟨⟨h1, h2, h3.2⟩, rfl⟩
    | mStep a b => simp [allTurns] at h3
    | mFire a b => simp [allTurns] at h3
    | mClose a => simp [allTurns] at h3
    | mSchedule a b c d => simp [allTurns] at h3
    | mRaise a b => simp [allTurns] at h3

theorem dead_drain (n : Nat) :
    ∀ s : St, deadSt s → deadSt (drain n s) ∧ (drain n s).trace = s.trace := by
  induction n with
  | zero => intro s h; exact ⟨h, rfl⟩
  | succ m ih =>
    intro s h
    cases hstk : s.stack with
    | nil => rw [drain, hstk]; exact ⟨h, rfl⟩
    | cons a rest =>
      rw [drain, hstk]
      obtain ⟨hd, ht⟩ := dead_micro s h
      obtain ⟨hd2, ht2⟩ := ih (microStep s) hd
      exact ⟨hd2, by rw [ht2, ht]⟩

theorem dead_execOps (outs : List PollOutcome) (fuel : Nat) :
    ∀ s : St, deadSt s →
      deadSt (execOps fuel (outs.map .opTurn) s)
        ∧ (execOps fuel (outs.map .opTurn) s).trace = s.trace := by
  induction outs with
  | nil => intro s h; exact ⟨h, rfl⟩
  | cons o outs ih =>
    intro s h
    obtain ⟨h1, h2, h3⟩ := h
    have hpush : deadSt (pushOp (.opTurn o) s) := by
      refine ⟨h1, h2, ?_⟩
      simp [pushOp, allTurns] at h3 ⊢
      intro m hm
      exact h3 m hm
    obtain ⟨hd, ht⟩ := dead_drain fuel _ hpush
    obtain ⟨hd2, ht2⟩ := ih _ hd
    refine ⟨hd2, ?_⟩
    show (execOps fuel (List.map Op.opTurn outs) (drain fuel (pushOp (Op.opTurn o) s))).trace
      = s.trace
    rw [ht2, ht]
    rfl

/-- C7 amended: handling a Race/spawn with zero children signals no error.
`spawn.handle` records the parent as callback, clears `scheduled` and
`finished`, and schedules nothing, so nothing can ever invoke the group
finalizer: with no other work, the loop runs dry and the parent stays
suspended forever — no further turn changes the trace, and no error event is
ever produced. -/
theorem C7_amended (s : St) (t sid d0 q0 : Nat) (k : Prog) (th : ThrowBhv)
    (sp : SpawnObj) (fuel : Nat)
    (hstk : s.stack = [])
    (hq : s.queue = [⟨d0, q0, t, .unit⟩])
    (hp : s.paused = [])
    (ht : alookup t s.tasks = some ⟨.yieldR (.raceR sid) k, .atYield, th⟩)
    (hsp : alookup sid s.spawns = some sp)
    (hch : sp.children = [])
    (hhook : s.hook = false) :
    (execOp (fuel + 2) (.opTurn .timeout) s).queue = [] ∧
    (execOp (fuel + 2) (.opTurn .timeout) s).paused = [] ∧
    (execOp (fuel + 2) (.opTurn .timeout) s).stack = [] ∧
    (execOp (fuel + 2) (.opTurn .timeout) s).trace
      = s.trace ++ [.pollEv (wrapDiff d0 s.now) .timeout, .stepEv t .unit] ∧
    alookup sid (execOp (fuel + 2) (.opTurn .timeout) s).spawns
      = some { sp with callback := some t, scheduled := [], finished := [] } ∧
    (∀ (outs : List PollOutcome) (fuel2 : Nat),
      (execOps fuel2 (outs.map .opTurn) (execOp (fuel + 2) (.opTurn .timeout) s)).trace
        = (execOp (fuel + 2) (.opTurn .timeout) s).trace) := by
  have e1 : pushOp (.opTurn .timeout) s = { s with stack := [.mTurn .timeout] } := by
    simp [pushOp, hstk]
  have e2 : microStep { s with stack := [Micro.mTurn .timeout] }
      = { s with
            stack := [.mStep t .unit],
            queue := [],
            trace := s.trace ++ [.pollEv (wrapDiff d0 s.now) .timeout] } := by
    show doTurn .timeout { s with stack := [] } = _
    unfold doTurn
    simp [hq, appendEv, pushMicros]
  have e3 : microStep
        { s with
            stack := [Micro.mStep t Val.unit],
            queue := [],
            trace := s.trace ++ [Ev.pollEv (wrapDiff d0 s.now) .timeout] }
      = { s with
            stack := [],
            queue := [],
            tasks := tset t ⟨k, .inSpawn sid, th⟩ s.tasks,
            spawns := sset sid
              { sp with callback := some t, scheduled := sp.children, finished := [] }
              s.spawns,
            trace := (s.trace ++ [Ev.pollEv (wrapDiff d0 s.now) .timeout])
              ++ [.stepEv t .unit] } := by
    show doStep t .unit _ = _
    unfold doStep
    simp only [appendEv_tasks, ht]
    show doResume t _ _ = _
    unfold doResume
    show doHook (dispatchReq t (.raceR sid) _) = _
    unfold dispatchReq spawnHandle
    simp only [appendEv, ht, hsp]
    rw [hch]
    simp [doHook, hhook, suspAfter]
  have eAll : execOp (fuel + 2) (.opTurn .timeout) s
      = { s with
            stack := [],
            queue := [],
            tasks := tset t ⟨k, .inSpawn sid, th⟩ s.tasks,
            spawns := sset sid
              { sp with callback := some t, scheduled := sp.children, finished := [] }
              s.spawns,
            trace := (s.trace ++ [Ev.pollEv (wrapDiff d0 s.now) .timeout])
              ++ [.stepEv t .unit] } := by
    unfold execOp
    rw [e1]
    rw [show drain (fuel + 2) { s with stack := [Micro.mTurn .timeout] }
          = drain (fuel + 1) (microStep { s with stack := [Micro.mTurn .timeout] }) from by
        simp [drain]]
    rw [e2]
    rw [show drain (fuel + 1)
          { s with
              stack := [Micro.mStep t Val.unit],
              queue := [],
              trace := s.trace ++ [Ev.pollEv (wrapDiff d0 s.now) .timeout] }
          = drain fuel (microStep
              { s with
                  stack := [Micro.mStep t Val.unit],
                  queue := [],
                  trace := s.trace ++ [Ev.pollEv (wrapDiff d0 s.now) .timeout] }) from by
        simp [drain]]
    rw [e3]
    exact drain_nil fuel _ rfl
  rw [eAll]
  refine ⟨rfl, hp, rfl, by simp, ?_, ?_⟩
  · rw [show alookup sid (sset sid
        { sp with callback := some t, scheduled := sp.children, finished := [] } s.spawns)
        = some { sp with callback := some t, scheduled := sp.children, finished := [] } from by
      rw [sset_alookup]
      simp]
    rw [hch]
  · intro outs fuel2
    refine (dead_execOps outs fuel2 _ ?_).2
    exact ⟨rfl, hp, rfl⟩

/-- Witness for C7: running the turn at `c7WitSt` leaves an empty loop, a
silent trace, the parent registered as callback of the empty group, and no
further turn ever extends the trace. -/
theorem C7_witness :
    (execOp (0 + 2) (.opTurn .timeout) c7WitSt).queue = [] ∧
    (execOp (0 + 2) (.opTurn .timeout) c7WitSt).paused = [] ∧
    (execOp (0 + 2) (.opTurn .timeout) c7WitSt).stack = [] ∧
    (execOp (0 + 2) (.opTurn .timeout) c7WitSt).trace
      = c7WitSt.trace ++ [.pollEv (wrapDiff 0 c7WitSt.now) .timeout, .stepEv 6 .unit] ∧
    alookup 1 (execOp (0 + 2) (.opTurn .timeout) c7WitSt).spawns
      = some { children := [], exitOthers := true, callback := some 6,
               scheduled := [], finished := [] } ∧
    (∀ (outs : List PollOutcome) (fuel2 : Nat),
      (execOps fuel2 (outs.map .opTurn) (execOp (0 + 2) (.opTurn .timeout) c7WitSt)).trace
        = (execOp (0 + 2) (.opTurn .timeout) c7WitSt).trace) :=
  C7_amended c7WitSt 6 1 0 0 (.ret .unit) .propagate
    ⟨[], true, none, [], []⟩ 0 rfl rfl rfl rfl rfl rfl rfl

theorem stepObl_refl (p : Nat → Val → Bool) (s : St) : StepObl p 0 s s :=
  ⟨rfl, le_refl _, fun _ => rfl, fun h => h, le_refl _⟩

theorem stepObl_trans {p : Nat → Val → Bool} {d1 d2 : Nat} {s1 s2 s3 : St}
    (h1 : StepObl p d1 s1 s2) (h2 : StepObl p d2 s2 s3) : StepObl p (d1 + d2) s1 s3 := by
  obtain ⟨a1, b1, c1, e1, f1⟩ := h1
  obtain ⟨a2, b2, c2, e2, f2⟩ := h2
  refine ⟨by omega, le_trans b2 b1, ?_, fun h => e2 (e1 h), le_trans f1 f2⟩
  intro hu
  have hu1 : countUncaught s2.trace = countUncaught s1.trace := by omega
  have hu2 : countUncaught s3.trace = countUncaught s2.trace := by omega
  rw [c2 hu2, c1 hu1]

theorem stepObl_of_eq {p : Nat → Val → Bool} {s s' : St}
    (hstk : s'.stack = s.stack) (htr : s'.trace = s.trace) : StepObl p 0 s s' := by
  refine ⟨by simp [htr], by rw [hstk], fun _ => by rw [hstk], fun h => by rw [hstk]; exact h,
    by rw [htr]⟩

theorem stepObl_appendEv {p : Nat → Val → Bool} (e : Ev) (s : St)
    (hstep : stepEvP p e = false) (hunc : isUncaught e = false) :
    StepObl p 0 s (appendEv e s) := by
  refine ⟨?_, le_refl _, fun _ => rfl, fun h => h, ?_⟩
  · simp [countStepP, countP_snoc, hstep]
  · simp [countUncaught, countP_snoc, hunc]

theorem stepObl_appendStep {p : Nat → Val → Bool} (t : Nat) (v : Val) (s : St) :
    StepObl p (if p t v then 1 else 0) s (appendEv (.stepEv t v) s) := by
  refine ⟨?_, le_refl _, fun _ => rfl, fun h => h, ?_⟩
  · cases hpv : p t v <;>
      simp [countStepP, countP_snoc, List.countP_cons, stepEvP, hpv]
  · simp [countUncaught, countP_snoc, isUncaught]

theorem stepObl_doUncaught {p : Nat → Val → Bool} (e : Exc) (s : St) :
    StepObl p 0 s (doUncaught e s) := by
  refine ⟨?_, ?_, ?_, ?_, ?_⟩
  · simp [countStepP, countP_snoc, stepEvP, doUncaught]
  · simp [doUncaught, pendP]
  · intro h
    simp [doUncaught, countUncaught, countP_snoc, isUncaught] at h
  · intro _
    simp [doUncaught, mTurnFree]
  · simp [doUncaught, countUncaught, countP_snoc, isUncaught]

theorem stepObl_push {p : Nat → Val → Bool} (ms : List Micro) (s : St)
    (h0 : pendP p ms = 0) (hf : mTurnFree ms = true) :
    StepObl p 0 s (pushMicros ms s) := by
  have h0' : List.countP (isMStepP p) ms = 0 := h0
  refine ⟨rfl, ?_, fun _ => ?_, fun h => ?_, le_refl _⟩
  · simp [pendP, List.countP_append, h0']
  · simp [pendP, List.countP_append, h0']
  · simp only [pushMicros_stack, mTurnFree, List.all_append, Bool.and_eq_true]
    exact ⟨hf, h⟩

theorem stepObl_of_counts {p : Nat → Val → Bool} {s s' : St}
    (hstk : s'.stack = s.stack)
    (h1 : countStepP p s'.trace = countStepP p s.trace)
    (h2 : countUncaught s'.trace = countUncaught s.trace) : StepObl p 0 s s' :=
  ⟨by omega, by rw [hstk], fun _ => by rw [hstk], fun h => by rw [hstk]; exact h, by omega⟩

theorem stepObl_scheduleSt (p : Nat → Val → Bool) (t : Nat) (v : Val) (dl : Option Nat)
    (f : Option Finalizer) (s : St) : StepObl p 0 s (scheduleSt t v dl f s) :=
  stepObl_of_counts (scheduleSt_stack t v dl f s)
    (scheduleSt_countP _ t v dl f s (fun _ _ => rfl) (fun _ _ _ => rfl))
    (scheduleSt_countP _ t v dl f s (fun _ _ => rfl) (fun _ _ _ => rfl))

theorem stepObl_spawnHandle (p : Nat → Val → Bool) (sid t : Nat) (s : St) :
    StepObl p 0 s (spawnHandle sid t s) :=
  stepObl_of_counts (spawnHandle_stack sid t s)
    (spawnHandle_countP _ sid t s (fun _ _ => rfl) (fun _ _ _ => rfl))
    (spawnHandle_countP _ sid t s (fun _ _ => rfl) (fun _ _ _ => rfl))

theorem stepObl_dispatchReq (p : Nat → Val → Bool) (t : Nat) (r : Req) (s : St) :
    StepObl p 0 s (dispatchReq t r s) :=
  stepObl_of_counts (dispatchReq_stack t r s)
    (dispatchReq_countP _ t r s (fun _ _ => rfl) (fun _ _ _ => rfl) (fun _ => rfl))
    (dispatchReq_countP _ t r s (fun _ _ => rfl) (fun _ _ _ => rfl) (fun _ => rfl))

theorem stepObl_doHook (p : Nat → Val → Bool) (s : St) : StepObl p 0 s (doHook s) :=
  stepObl_of_counts (doHook_stack s) (doHook_countP _ s rfl) (doHook_countP _ s rfl)

theorem pendP_closes (p : Nat → Val → Bool) (l : List Nat) :
    pendP p (l.map Micro.mClose) = 0 := by
  induction l with
  | nil => rfl
  | cons a l ih => simp [pendP, List.countP_cons, isMStepP]

theorem mTurnFree_closes (l : List Nat) : mTurnFree (l.map Micro.mClose) = true := by
  induction l with
  | nil => rfl
  | cons a l ih => simp [mTurnFree, notMTurn]

theorem stepObl_pushOver {p : Nat → Val → Bool} (ms : List Micro) {s s' : St}
    (hstk : s'.stack = s.stack) (htr : s'.trace = s.trace)
    (h0 : pendP p ms = 0) (hf : mTurnFree ms = true) :
    StepObl p 0 s (pushMicros ms s') := by
  have h0' : List.countP (isMStepP p) ms = 0 := h0
  refine ⟨by simp [htr], ?_, fun _ => ?_, fun h => ?_, by simp [htr]⟩
  · simp [pendP, List.countP_append, h0', hstk]
  · simp [pendP, List.countP_append, h0', hstk]
  · simp only [pushMicros_stack, mTurnFree, List.all_append, Bool.and_eq_true, hstk]
    exact ⟨hf, h⟩

theorem stepObl_uncaughtOver {p : Nat → Val → Bool} (e : Exc) {s s' : St}
    (_hstk : s'.stack = s.stack) (htr : s'.trace = s.trace) :
    StepObl p 0 s (doUncaught e s') := by
  refine ⟨by simp [countStepP, countP_snoc, stepEvP, htr], by simp [pendP],
    fun h => ?_, fun _ => by simp [mTurnFree], ?_⟩
  · exfalso
    simp [countUncaught, countP_snoc, isUncaught, htr] at h
  · simp [countUncaught, countP_snoc, isUncaught, htr]

theorem stepObl_doResume (p : Nat → Val → Bool) (t : Nat) (obj : TaskObj) (s : St) :
    StepObl p 0 s (doResume t obj s) := by
  obtain ⟨pg, sp2, th⟩ := obj
  cases pg with
  | ret rv =>
    exact stepObl_pushOver [.mFire t rv] rfl rfl
      (by simp [pendP, List.countP_cons, isMStepP]) (by simp [mTurnFree, notMTurn])
  | fail e =>
    cases e with
    | genExit =>
      simp only [doResume, if_true]
      exact stepObl_uncaughtOver Exc.genExit rfl rfl
    | err n =>
      simp only [doResume]
      rw [if_neg (by simp)]
      exact stepObl_pushOver [.mFire t (.exc (.err n))] rfl rfl
        (by simp [pendP, List.countP_cons, isMStepP]) (by simp [mTurnFree, notMTurn])
  | yieldR r k =>
    have h := @stepObl_trans p 0 0 s
      (dispatchReq t r
        { s with tasks := tset t ⟨k, suspAfter r, th⟩ s.tasks })
      (doHook (dispatchReq t r
        { s with tasks := tset t ⟨k, suspAfter r, th⟩ s.tasks }))
      (@stepObl_trans p 0 0 s
        { s with tasks := tset t ⟨k, suspAfter r, th⟩ s.tasks }
        (dispatchReq t r { s with tasks := tset t ⟨k, suspAfter r, th⟩ s.tasks })
        (stepObl_of_eq rfl rfl) (stepObl_dispatchReq p t r _))
      (stepObl_doHook p _)
    simpa using h

theorem countP_closes (p : Nat → Val → Bool) (l : List Nat) :
    List.countP (isMStepP p) (l.map Micro.mClose) = 0 :=
  pendP_closes p l

theorem stepObl_doThrow (p : Nat → Val → Bool) (t : Nat) (e : Exc) (obj : TaskObj) (s : St) :
    StepObl p 0 s (doThrow t e obj s) := by
  obtain ⟨pg, sp2, th⟩ := obj
  cases sp2 with
  | closedS =>
    by_cases he : e = Exc.genExit
    · simp only [doThrow, he, if_true]
      exact stepObl_uncaughtOver Exc.genExit rfl rfl
    · simp only [doThrow]
      rw [if_neg he]
      exact stepObl_pushOver [.mFire t (.exc e)] rfl rfl
        (by simp [pendP, List.countP_cons, isMStepP]) (by simp [mTurnFree, notMTurn])
  | inSpawn sid =>
    simp only [doThrow]
    refine stepObl_pushOver _ rfl rfl ?_ ?_
    · simp [pendP, List.countP_append, List.countP_cons, isMStepP, countP_closes]
    · simp only [mTurnFree, List.all_append, Bool.and_eq_true]
      refine ⟨mTurnFree_closes _, by simp [notMTurn]⟩
  | atYield =>
    cases th with
    | propagate =>
      by_cases he : e = Exc.genExit
      · simp only [doThrow, he, if_true]
        exact stepObl_uncaughtOver Exc.genExit rfl rfl
      · simp only [doThrow]
        rw [if_neg he]
        exact stepObl_pushOver [.mFire t (.exc e)] rfl rfl
          (by simp [pendP, List.countP_cons, isMStepP]) (by simp [mTurnFree, notMTurn])
    | raiseOther e2 =>
      by_cases he : e2 = Exc.genExit
      · simp only [doThrow, he, if_true]
        exact stepObl_uncaughtOver Exc.genExit rfl rfl
      · simp only [doThrow]
        rw [if_neg he]
        exact stepObl_pushOver [.mFire t (.exc e2)] rfl rfl
          (by simp [pendP, List.countP_cons, isMStepP]) (by simp [mTurnFree, notMTurn])

theorem stepObl_doRaise (p : Nat → Val → Bool) (t : Nat) (e : Exc) (s : St) :
    StepObl p 0 s (doRaise t e s) := by
  by_cases he : e = Exc.genExit
  · simp only [doRaise, he, if_true]
    exact stepObl_uncaughtOver Exc.genExit rfl rfl
  · simp only [doRaise]
    rw [if_neg he]
    exact stepObl_pushOver [.mFire t (.exc e)] rfl rfl
      (by simp [pendP, List.countP_cons, isMStepP]) (by simp [mTurnFree, notMTurn])

theorem stepObl_doFire (p : Nat → Val → Bool) (t : Nat) (v : Val) (s : St) :
    StepObl p 0 s (doFire t v s) := by
  unfold doFire
  cases hf : alookup t s.finalizers with
  | none => exact stepObl_refl p s
  | some f =>
    have hs1 : StepObl p 0 s
        (appendEv (.fireEv t f v) { s with finalizers := finErase t s.finalizers }) := by
      refine ⟨by simp [countStepP, countP_snoc, stepEvP], le_refl _, fun _ => rfl,
        fun h => h, by simp [countUncaught, countP_snoc, isUncaught]⟩
    cases f with
    | plainFin fid => exact hs1
    | spawnFin sid =>
      cases hsp : alookup sid
          (appendEv (.fireEv t (.spawnFin sid) v)
            { s with finalizers := finErase t s.finalizers }).spawns with
      | none => simp only [hsp]; exact hs1
      | some sp =>
        simp only [hsp]
        by_cases hfin : sp.finished = []
        · rw [if_neg (by simp [hfin])]
          by_cases hsch : sp.scheduled.contains t = true
          · rw [if_pos hsch]
            have h2 := stepObl_trans hs1 (stepObl_pushOver
              ((if sp.exitOthers then (sp.scheduled.filter (fun c => c ≠ t)).map .mClose
                  else [])
                ++ (match sp.callback with
                    | some cb => [Micro.mSchedule cb v none none]
                    | none => []))
              rfl rfl
              (by cases sp.exitOthers <;> cases sp.callback <;>
                simp [pendP, List.countP_append, List.countP_cons, isMStepP, countP_closes])
              (by cases sp.exitOthers <;> cases sp.callback <;>
                simp [mTurnFree, List.all_append, notMTurn, mTurnFree_closes] <;>
                (intro x x1 hmem hne heq; subst heq; rfl)))
            simpa using h2
          · rw [if_neg hsch]
            have h2 := stepObl_trans hs1 (stepObl_uncaughtOver (.err 999) rfl rfl)
            simpa using h2
        · rw [if_pos (by simp [hfin])]
          exact hs1

theorem stepObl_doClose (p : Nat → Val → Bool) (t : Nat) (s : St) :
    StepObl p 0 s (doClose t s) := by
  unfold doClose
  have hs0 : StepObl p 0 s
      { s with queue := qdiscard t s.queue, paused := pdiscard t s.paused } :=
    stepObl_of_eq rfl rfl
  cases hT : alookup t
      ({ s with queue := qdiscard t s.queue, paused := pdiscard t s.paused } : St).tasks with
  | none => simp only [hT]; exact hs0
  | some obj =>
    simp only [hT]
    cases hS : obj.susp with
    | closedS =>
      simp only [hS]
      have h2 := stepObl_trans hs0 (stepObl_pushOver [.mFire t (.exc .genExit)] rfl rfl
        (by simp [pendP, List.countP_cons, isMStepP]) (by simp [mTurnFree, notMTurn]))
      simpa using h2
    | inSpawn sid =>
      simp only [hS]
      have h2 := stepObl_trans hs0 (@stepObl_pushOver p
        (List.map Micro.mClose ((Option.map SpawnObj.scheduled (alookup sid s.spawns)).getD [])
          ++ [Micro.mFire t (Val.exc Exc.genExit)])
        { s with queue := qdiscard t s.queue, paused := pdiscard t s.paused }
        { s with
            tasks := tset t { obj with susp := Susp.closedS } s.tasks,
            queue := qdiscard t s.queue,
            paused := pdiscard t s.paused }
        rfl rfl
        (by simp [pendP, List.countP_append, List.countP_cons, isMStepP, countP_closes])
        (by simp only [mTurnFree, List.all_append, Bool.and_eq_true]
            exact ⟨mTurnFree_closes _, by simp [mTurnFree, notMTurn]⟩))
      simpa using h2
    | atYield =>
      simp only [hS]
      cases hTh : obj.onThrow with
      | propagate =>
        simp only [hTh]
        have h2 := stepObl_trans hs0 (stepObl_pushOver [.mFire t (.exc .genExit)] rfl rfl
          (by simp [pendP, List.countP_cons, isMStepP]) (by simp [mTurnFree, notMTurn]))
        simpa using h2
      | raiseOther e2 =>
        simp only [hTh]
        by_cases he : e2 = Exc.genExit
        · simp only [he, if_true]
          have h2 := stepObl_trans hs0 (stepObl_pushOver [.mFire t (.exc .genExit)] rfl rfl
            (by simp [pendP, List.countP_cons, isMStepP]) (by simp [mTurnFree, notMTurn]))
          simpa using h2
        · rw [if_neg he]
          have h2 := stepObl_trans hs0 (stepObl_uncaughtOver e2 rfl rfl)
          simpa using h2

theorem stepObl_doStep (p : Nat → Val → Bool) (t : Nat) (v : Val) (s : St) :
    StepObl p (if p t v then 1 else 0) s (doStep t v s) := by
  unfold doStep
  have h0 : StepObl p (if p t v then 1 else 0) s (appendEv (.stepEv t v) s) :=
    stepObl_appendStep t v s
  cases hT : alookup t (appendEv (.stepEv t v) s).tasks with
  | none => simp only [hT]; exact h0
  | some obj =>
    simp only [hT]
    cases v with
    | exc e =>
      have h2 := stepObl_trans h0 (stepObl_doThrow p t e obj _)
      simpa using h2
    | unit =>
      cases hS : obj.susp with
      | closedS =>
        simp only [hS]
        have h2 := stepObl_trans h0 (stepObl_pushOver [.mFire t .unit] rfl rfl
          (by simp [pendP, List.countP_cons, isMStepP]) (by simp [mTurnFree, notMTurn]))
        simpa using h2
      | atYield =>
        simp only [hS]
        have h2 := stepObl_trans h0 (stepObl_doResume p t obj _)
        simpa using h2
      | inSpawn sid =>
        simp only [hS]
        have h2 := stepObl_trans h0 (stepObl_doResume p t obj _)
        simpa using h2
    | nat m =>
      cases hS : obj.susp with
      | closedS =>
        simp only [hS]
        have h2 := stepObl_trans h0 (stepObl_pushOver [.mFire t .unit] rfl rfl
          (by simp [pendP, List.countP_cons, isMStepP]) (by simp [mTurnFree, notMTurn]))
        simpa using h2
      | atYield =>
        simp only [hS]
        have h2 := stepObl_trans h0 (stepObl_doResume p t obj _)
        simpa using h2
      | inSpawn sid =>
        simp only [hS]
        have h2 := stepObl_trans h0 (stepObl_doResume p t obj _)
        simpa using h2

theorem cons_assemble (p : Nat → Val → Bool) (s : St) (rest : List Micro) (X : St) (d : Nat)
    (hX : StepObl p d { s with stack := rest } X)
    (hrest : mTurnFree rest = true) :
    (countUncaught X.trace = countUncaught s.trace →
      countStepP p X.trace + pendP p X.stack
        = countStepP p s.trace + (d + pendP p rest)) ∧
    countStepP p X.trace + pendP p X.stack
      ≤ countStepP p s.trace + (d + pendP p rest) ∧
    mTurnFree X.stack = true ∧
    countUncaught s.trace ≤ countUncaught X.trace := by
  obtain ⟨a, b, c, dd, e⟩ := hX
  have e1 : ({ s with stack := rest } : St).trace = s.trace := rfl
  have e2 : ({ s with stack := rest } : St).stack = rest := rfl
  rw [e1] at a c e
  rw [e2] at b c
  refine ⟨?_, by omega, dd (by rw [e2]; exact hrest), e⟩
  intro hu
  have hc := c hu
  omega

theorem microStep_cons (p : Nat → Val → Bool) (s : St) (h : mTurnFree s.stack = true) :
    (countUncaught (microStep s).trace = countUncaught s.trace →
      countStepP p (microStep s).trace + pendP p (microStep s).stack
        = countStepP p s.trace + pendP p s.stack) ∧
    countStepP p (microStep s).trace + pendP p (microStep s).stack
      ≤ countStepP p s.trace + pendP p s.stack ∧
    mTurnFree (microStep s).stack = true ∧
    countUncaught s.trace ≤ countUncaught (microStep s).trace := by
  cases hstk : s.stack with
  | nil =>
    have hms : microStep s = s := by unfold microStep; rw [hstk]
    rw [hms, hstk]
    exact ⟨fun _ => rfl, le_refl _, rfl, le_refl _⟩
  | cons m rest =>
    have hms : microStep s = processMicro m { s with stack := rest } := by
      unfold microStep; rw [hstk]
    rw [hstk] at h
    simp only [mTurnFree, List.all_cons, Bool.and_eq_true] at h
    obtain ⟨hm, hrest⟩ := h
    rw [hms]
    cases m with
    | mTurn out => simp [notMTurn] at hm
    | mStep u w =>
      have hpend : pendP p (Micro.mStep u w :: rest)
          = (if p u w then 1 else 0) + pendP p rest := by
        simp [pendP, List.countP_cons, isMStepP]
        omega
      rw [hpend]
      exact cons_assemble p s rest _ (if p u w then 1 else 0) (stepObl_doStep p u w _) hrest
    | mFire u w =>
      have hpend : pendP p (Micro.mFire u w :: rest) = 0 + pendP p rest := by
        simp [pendP, List.countP_cons, isMStepP]
      rw [hpend]
      exact cons_assemble p s rest _ 0 (stepObl_doFire p u w _) hrest
    | mClose u =>
      have hpend : pendP p (Micro.mClose u :: rest) = 0 + pendP p rest := by
        simp [pendP, List.countP_cons, isMStepP]
      rw [hpend]
      exact cons_assemble p s rest _ 0 (stepObl_doClose p u _) hrest
    | mSchedule u w dl f =>
      have hpend : pendP p (Micro.mSchedule u w dl f :: rest) = 0 + pendP p rest := by
        simp [pendP, List.countP_cons, isMStepP]
      rw [hpend]
      exact cons_assemble p s rest _ 0 (stepObl_scheduleSt p u w dl f _) hrest
    | mRaise u e =>
      have hpend : pendP p (Micro.mRaise u e :: rest) = 0 + pendP p rest := by
        simp [pendP, List.countP_cons, isMStepP]
      rw [hpend]
      exact cons_assemble p s rest _ 0 (stepObl_doRaise p u e _) hrest

theorem drain_cons (p : Nat → Val → Bool) (n : Nat) :
    ∀ s : St, mTurnFree s.stack = true →
      (countUncaught (drain n s).trace = countUncaught s.trace →
        countStepP p (drain n s).trace + pendP p (drain n s).stack
          = countStepP p s.trace + pendP p s.stack) ∧
      countStepP p (drain n s).trace + pendP p (drain n s).stack
        ≤ countStepP p s.trace + pendP p s.stack ∧
      mTurnFree (drain n s).stack = true ∧
      countUncaught s.trace ≤ countUncaught (drain n s).trace := by
  induction n with
  | zero => intro s h; exact ⟨fun _ => rfl, le_refl _, h, le_refl _⟩
  | succ m ih =>
    intro s h
    cases hstk : s.stack with
    | nil =>
      rw [drain_nil (m + 1) s hstk, hstk]
      exact ⟨fun _ => rfl, le_refl _, rfl, le_refl _⟩
    | cons a rest =>
      have hdm : drain (m + 1) s = drain m (microStep s) := by
        rw [drain, hstk]
      rw [hdm]
      obtain ⟨c1, c2, c3, c4⟩ := microStep_cons p s h
      rw [hstk] at c1 c2
      obtain ⟨d1, d2, d3, d4⟩ := ih (microStep s) c3
      refine ⟨?_, by omega, d3, by omega⟩
      intro hu
      have hu1 : countUncaught (microStep s).trace = countUncaught s.trace := by omega
      have := c1 hu1
      have := d1 (by omega)
      omega

theorem countStep_eq_P (w : Nat) (tr : List Ev) :
    countStep w tr = countStepP (fun u _ => decide (u = w)) tr := by
  induction tr with
  | nil => rfl
  | cons e tr ih =>
    have ih2 : List.countP (isStepOf w) tr
        = List.countP (stepEvP fun u _ => decide (u = w)) tr := ih
    cases e <;>
      simp [countStep, countStepP, List.countP_cons, isStepOf, stepEvP, ih2]

theorem pendP_msgSteps (w : Nat) (payload : Val) (ws : List Nat) :
    pendP (fun u _ => decide (u = w)) (ws.map (fun x => Micro.mStep x payload))
      = ws.count w := by
  induction ws with
  | nil => rfl
  | cons a l ih =>
    have ih2 : List.countP (isMStepP fun u _ => decide (u = w))
        (l.map fun x => Micro.mStep x payload) = l.count w := ih
    show List.countP _ (Micro.mStep a payload :: l.map fun x => Micro.mStep x payload) = _
    rw [List.countP_cons, List.count_cons, ih2]
    by_cases ha : a = w <;> simp [isMStepP, ha]

theorem mTurnFree_msgSteps (payload : Val) (ws : List Nat) :
    mTurnFree (ws.map (fun x => Micro.mStep x payload)) = true := by
  induction ws with
  | nil => rfl
  | cons a l ih => simp [mTurnFree, notMTurn]

theorem msgTurn_eq (s : St) (i : Nat) (payload : Val) (ws : List Nat)
    (hstk : s.stack = [])
    (hws : alookup i s.paused = some ws) :
    microStep (pushOp (.opTurn (.msg i payload)) s)
      = pushMicros (ws.map (fun x => Micro.mStep x payload))
          { s with
              stack := [],
              paused := s.paused.filter (fun pr => pr.1 ≠ i),
              trace := s.trace ++ [.pollEv (pollBudget s) (.msg i payload)] } := by
  have hpne : s.paused ≠ [] := by
    intro hnil
    rw [hnil] at hws
    simp [alookup] at hws
  have h1 : (pushOp (.opTurn (.msg i payload)) s).stack = [.mTurn (.msg i payload)] := by
    simp [pushOp, hstk]
  unfold microStep
  rw [h1]
  show doTurn (.msg i payload) { s with stack := [] } = _
  unfold doTurn
  cases hq : s.queue with
  | nil =>
    cases hp : s.paused with
    | nil => exact absurd hp hpne
    | cons pa pl =>
      rw [← hp]
      simp [hq, appendEv, pushMicros, pollBudget, hws, hp]
      rw [← hp, hws]
      rfl
  | cons e q' =>
    simp [hq, appendEv, pushMicros, pollBudget, hws]

/-- C10: on a loop turn where `io.poll` reports a message on interface `i`,
the entire waiter set of `i` is removed from the paused index before any
waiter is stepped (after processing the poll, the index has no entry for `i`,
the trace has gained only the poll event, and the waiters are pending
micro-steps); and, provided the turn drains without an exception propagating
out of the loop, each waiter is then stepped exactly once during the turn —
a task that pauses again on `i` lands in a fresh set and is not stepped
again with the same message. -/
theorem C10_theorem (s : St) (i : Nat) (payload : Val) (ws : List Nat) (w fuel : Nat)
    (hstk : s.stack = [])
    (hws : alookup i s.paused = some ws)
    (hnd : ws.Nodup)
    (hw : w ∈ ws) :
    (alookup i (microStep (pushOp (.opTurn (.msg i payload)) s)).paused = none ∧
     (microStep (pushOp (.opTurn (.msg i payload)) s)).trace
       = s.trace ++ [.pollEv (pollBudget s) (.msg i payload)] ∧
     (microStep (pushOp (.opTurn (.msg i payload)) s)).stack
       = ws.map (fun x => Micro.mStep x payload)) ∧
    ((execOp fuel (.opTurn (.msg i payload)) s).stack = [] →
     countUncaught (execOp fuel (.opTurn (.msg i payload)) s).trace
       = countUncaught s.trace →
     countStep w (execOp fuel (.opTurn (.msg i payload)) s).trace
       = countStep w s.trace + 1) := by
  have hmt := msgTurn_eq s i payload ws hstk hws
  constructor
  · rw [hmt]
    refine ⟨?_, by simp, by simp⟩
    show alookup i (s.paused.filter (fun pr => pr.1 ≠ i)) = none
    exact alookup_filter_self i s.paused
  · intro hstkF huF
    have h1 : (pushOp (.opTurn (.msg i payload)) s).stack
        = [.mTurn (.msg i payload)] := by
      simp [pushOp, hstk]
    cases fuel with
    | zero =>
      exfalso
      unfold execOp at hstkF
      rw [drain] at hstkF
      rw [h1] at hstkF
      exact absurd hstkF (by simp)
    | succ n =>
      have hdm : execOp (n + 1) (.opTurn (.msg i payload)) s
          = drain n (microStep (pushOp (.opTurn (.msg i payload)) s)) := by
        unfold execOp
        rw [drain, h1]
      rw [hdm] at hstkF huF ⊢
      rw [hmt] at hstkF huF ⊢
      obtain ⟨d1, d2, d3, d4⟩ := drain_cons (fun u _ => decide (u = w)) n
        (pushMicros (ws.map (fun x => Micro.mStep x payload))
          { s with
              stack := [],
              paused := s.paused.filter (fun pr => pr.1 ≠ i),
              trace := s.trace ++ [.pollEv (pollBudget s) (.msg i payload)] })
        (by simpa using mTurnFree_msgSteps payload ws)
      have hcount : ws.count w = 1 := List.count_eq_one_of_mem hnd hw
      have hp1 : pendP (fun u _ => decide (u = w))
          (pushMicros (ws.map (fun x => Micro.mStep x payload))
            { s with
                stack := [],
                paused := s.paused.filter (fun pr => pr.1 ≠ i),
                trace := s.trace ++ [.pollEv (pollBudget s) (.msg i payload)] }).stack
          = 1 := by
        have h2 := pendP_msgSteps w payload ws
        simp only [pushMicros_stack, pendP, List.countP_append] at h2 ⊢
        simp [h2, hcount]
      have hc1 : countStepP (fun u _ => decide (u = w))
          (pushMicros (ws.map (fun x => Micro.mStep x payload))
            { s with
                stack := [],
                paused := s.paused.filter (fun pr => pr.1 ≠ i),
                trace := s.trace ++ [.pollEv (pollBudget s) (.msg i payload)] }).trace
          = countStepP (fun u _ => decide (u = w)) s.trace := by
        simp [countStepP, countP_snoc, stepEvP]
      have hu1 : countUncaught
          (pushMicros (ws.map (fun x => Micro.mStep x payload))
            { s with
                stack := [],
                paused := s.paused.filter (fun pr => pr.1 ≠ i),
                trace := s.trace ++ [.pollEv (pollBudget s) (.msg i payload)] }).trace
          = countUncaught s.trace := by
        simp [countUncaught, countP_snoc, isUncaught]
      have heq := d1 (by omega)
      have hpend0 : pendP (fun u _ => decide (u = w))
          (drain n (pushMicros (ws.map (fun x => Micro.mStep x payload))
            { s with
                stack := [],
                paused := s.paused.filter (fun pr => pr.1 ≠ i),
                trace := s.trace ++ [.pollEv (pollBudget s) (.msg i payload)] })).stack
          = 0 := by
        rw [hstkF]
        rfl
      rw [countStep_eq_P, countStep_eq_P]
      omega

/-- Witness for C10 at `c10WitSt`: the waiter set of interface 3 is removed
before any step, and waiter 8 (which re-pauses on 3) is stepped exactly once
in the turn. -/
theorem C10_witness :
    (alookup 3 (microStep (pushOp (.opTurn (.msg 3 (.nat 42))) c10WitSt)).paused = none ∧
     (microStep (pushOp (.opTurn (.msg 3 (.nat 42))) c10WitSt)).trace
       = c10WitSt.trace ++ [.pollEv (pollBudget c10WitSt) (.msg 3 (.nat 42))] ∧
     (microStep (pushOp (.opTurn (.msg 3 (.nat 42))) c10WitSt)).stack
       = [8, 9].map (fun x => Micro.mStep x (.nat 42))) ∧
    ((execOp 20 (.opTurn (.msg 3 (.nat 42))) c10WitSt).stack = [] →
     countUncaught (execOp 20 (.opTurn (.msg 3 (.nat 42))) c10WitSt).trace
       = countUncaught c10WitSt.trace →
     countStep 8 (execOp 20 (.opTurn (.msg 3 (.nat 42))) c10WitSt).trace
       = countStep 8 c10WitSt.trace + 1) :=
  C10_theorem c10WitSt 3 (.nat 42) [8, 9] 8 20 rfl rfl (by decide) (by decide)

/-! ### C8: sleep schedules (deadline, task, deadline) and delivers the
deadline -/
theorem timeoutTurn_eq (s : St) (e : QEntry) (q' : List QEntry)
    (hstk : s.stack = []) (hq : s.queue = e :: q') :
    microStep (pushOp (.opTurn .timeout) s)
      = pushMicros [.mStep e.task e.value]
          { s with
              stack := [],
              queue := q',
              trace := s.trace ++ [.pollEv (wrapDiff e.deadline s.now) .timeout] } := by
  have h1 : (pushOp (.opTurn .timeout) s).stack = [.mTurn .timeout] := by
    simp [pushOp, hstk]
  unfold microStep
  rw [h1]
  show doTurn .timeout { s with stack := [] } = _
  unfold doTurn
  simp [hq, appendEv, pushMicros]

theorem countStepV_eq_P (t : Nat) (v : Val) (tr : List Ev) :
    countStepV t v tr
      = countStepP (fun u w => decide (u = t) && decide (w = v)) tr := by
  induction tr with
  | nil => rfl
  | cons e tr ih =>
    have ih2 : List.countP (isStepOfV t v) tr
        = List.countP (stepEvP fun u w => decide (u = t) && decide (w = v)) tr := ih
    cases e <;>
      simp [countStepV, countStepP, List.countP_cons, isStepOfV, stepEvP, ih2]

theorem timer_delivers_once (s : St) (e : QEntry) (fuel : Nat)
    (hstk : s.stack = [])
    (hq : s.queue = [e]) :
    (execOp fuel (.opTurn .timeout) s).stack = [] →
    countUncaught (execOp fuel (.opTurn .timeout) s).trace = countUncaught s.trace →
    countStepV e.task e.value (execOp fuel (.opTurn .timeout) s).trace
      = countStepV e.task e.value s.trace + 1 := by
  intro hstkF huF
  have h1 : (pushOp (.opTurn .timeout) s).stack = [.mTurn .timeout] := by
    simp [pushOp, hstk]
  cases fuel with
  | zero =>
    exfalso
    unfold execOp at hstkF
    rw [drain] at hstkF
    rw [h1] at hstkF
    exact absurd hstkF (by simp)
  | succ n =>
    have hdm : execOp (n + 1) (.opTurn .timeout) s
        = drain n (microStep (pushOp (.opTurn .timeout) s)) := by
      unfold execOp
      rw [drain, h1]
    have e2 := timeoutTurn_eq s e [] hstk hq
    rw [hdm] at hstkF huF ⊢
    rw [e2] at hstkF huF ⊢
    obtain ⟨d1, d2, d3, d4⟩ := drain_cons
      (fun u w => decide (u = e.task) && decide (w = e.value)) n
      (pushMicros [.mStep e.task e.value]
        { s with
            stack := [],
            queue := [],
            trace := s.trace ++ [.pollEv (wrapDiff e.deadline s.now) .timeout] })
      (by simp [mTurnFree, notMTurn])
    have hp1 : pendP (fun u w => decide (u = e.task) && decide (w = e.value))
        (pushMicros [.mStep e.task e.value]
          { s with
              stack := [],
              queue := [],
              trace := s.trace ++ [.pollEv (wrapDiff e.deadline s.now) .timeout] }).stack
        = 1 := by
      simp [pendP, List.countP_cons, isMStepP]
    have hc1 : countStepP (fun u w => decide (u = e.task) && decide (w = e.value))
        (pushMicros [.mStep e.task e.value]
          { s with
              stack := [],
              queue := [],
              trace := s.trace ++ [.pollEv (wrapDiff e.deadline s.now) .timeout] }).trace
        = countStepP (fun u w => decide (u = e.task) && decide (w = e.value)) s.trace := by
      simp [countStepP, countP_snoc, stepEvP]
    have hu1 : countUncaught
        (pushMicros [.mStep e.task e.value]
          { s with
              stack := [],
              queue := [],
              trace := s.trace ++ [.pollEv (wrapDiff e.deadline s.now) .timeout] }).trace
        = countUncaught s.trace := by
      simp [countUncaught, countP_snoc, isUncaught]
    have heq := d1 (by omega)
    have hpend0 : pendP (fun u w => decide (u = e.task) && decide (w = e.value))
        (drain n (pushMicros [.mStep e.task e.value]
          { s with
              stack := [],
              queue := [],
              trace := s.trace ++ [.pollEv (wrapDiff e.deadline s.now) .timeout] })).stack
        = 0 := by
      rw [hstkF]
      rfl
    rw [countStepV_eq_P, countStepV_eq_P]
    omega

/-- C8: a task yielding `sleep(d)` is rescheduled as the timer-queue entry
`(deadline, task, deadline)` with `deadline = ticks_add(now, d)` (the
wrap-aware sum), and when the loop later pops that entry the value passed to
the stepper — the value the task resumes with — is exactly that computed
deadline (delivered exactly once, provided the turn drains without an
uncaught exception). -/
theorem C8_theorem (s : St) (t d d0 q0 : Nat) (k : Prog) (th : ThrowBhv)
    (fuel1 fuel2 : Nat)
    (hstk : s.stack = [])
    (hq : s.queue = [⟨d0, q0, t, .unit⟩])
    (ht : alookup t s.tasks = some ⟨.yieldR (.sleepR d) k, .atYield, th⟩)
    (hhook : s.hook = false) :
    (execOp (fuel1 + 2) (.opTurn .timeout) s).queue
      = [⟨wrapAdd s.now d, s.seqCtr, t, .nat (wrapAdd s.now d)⟩] ∧
    (execOp (fuel1 + 2) (.opTurn .timeout) s).stack = [] ∧
    countStepV t (.nat (wrapAdd s.now d)) (execOp (fuel1 + 2) (.opTurn .timeout) s).trace
      = countStepV t (.nat (wrapAdd s.now d)) s.trace ∧
    ((execOp fuel2 (.opTurn .timeout) (execOp (fuel1 + 2) (.opTurn .timeout) s)).stack = []
      →
     countUncaught
         (execOp fuel2 (.opTurn .timeout) (execOp (fuel1 + 2) (.opTurn .timeout) s)).trace
       = countUncaught (execOp (fuel1 + 2) (.opTurn .timeout) s).trace →
     countStepV t (.nat (wrapAdd s.now d))
         (execOp fuel2 (.opTurn .timeout) (execOp (fuel1 + 2) (.opTurn .timeout) s)).trace
       = countStepV t (.nat (wrapAdd s.now d)) s.trace + 1) := by
  have e2 : microStep (pushOp (.opTurn .timeout) s)
      = { s with
            stack := [Micro.mStep t Val.unit],
            queue := [],
            trace := s.trace ++ [.pollEv (wrapDiff d0 s.now) .timeout] } := by
    rw [timeoutTurn_eq s ⟨d0, q0, t, .unit⟩ [] hstk hq]
    rfl
  have e3 : microStep
        { s with
            stack := [Micro.mStep t Val.unit],
            queue := [],
            trace := s.trace ++ [.pollEv (wrapDiff d0 s.now) .timeout] }
      = { s with
            stack := [],
            queue := [⟨wrapAdd s.now d, s.seqCtr, t, .nat (wrapAdd s.now d)⟩],
            seqCtr := s.seqCtr + 1,
            tasks := tset t ⟨k, .atYield, th⟩ s.tasks,
            trace := ((s.trace ++ [.pollEv (wrapDiff d0 s.now) .timeout])
              ++ [.stepEv t .unit])
              ++ [.schedEv t (wrapAdd s.now d) (.nat (wrapAdd s.now d))] } := by
    show doStep t .unit _ = _
    unfold doStep
    simp only [appendEv_tasks, ht]
    show doResume t _ _ = _
    unfold doResume
    show doHook (dispatchReq t (.sleepR d) _) = _
    unfold dispatchReq scheduleSt
    simp [doHook, hhook, suspAfter, appendEv, qinsert]
  have eAll : execOp (fuel1 + 2) (.opTurn .timeout) s
      = { s with
            stack := [],
            queue := [⟨wrapAdd s.now d, s.seqCtr, t, .nat (wrapAdd s.now d)⟩],
            seqCtr := s.seqCtr + 1,
            tasks := tset t ⟨k, .atYield, th⟩ s.tasks,
            trace := ((s.trace ++ [.pollEv (wrapDiff d0 s.now) .timeout])
              ++ [.stepEv t .unit])
              ++ [.schedEv t (wrapAdd s.now d) (.nat (wrapAdd s.now d))] } := by
    have h1 : (pushOp (.opTurn .timeout) s).stack = [.mTurn .timeout] := by
      simp [pushOp, hstk]
    unfold execOp
    rw [show drain (fuel1 + 2) (pushOp (.opTurn .timeout) s)
          = drain (fuel1 + 1) (microStep (pushOp (.opTurn .timeout) s)) from by
        rw [drain, h1]]
    rw [e2]
    rw [show drain (fuel1 + 1)
          { s with
              stack := [Micro.mStep t Val.unit],
              queue := [],
              trace := s.trace ++ [.pollEv (wrapDiff d0 s.now) .timeout] }
          = drain fuel1 (microStep
            { s with
                stack := [Micro.mStep t Val.unit],
                queue := [],
                trace := s.trace ++ [.pollEv (wrapDiff d0 s.now) .timeout] }) from by
        rw [drain]]
    rw [e3]
    exact drain_nil fuel1 _ rfl
  rw [eAll]
  refine ⟨rfl, rfl, ?_, ?_⟩
  · rw [countStepV_eq_P, countStepV_eq_P]
    simp [countStepP, List.countP_append, List.countP_cons, stepEvP]
  · intro hstkF huF
    have hdeliver : countStepV t (.nat (wrapAdd s.now d))
        (execOp fuel2 (.opTurn .timeout)
          { s with
          stack := [],
          queue := [⟨wrapAdd s.now d, s.seqCtr, t, .nat (wrapAdd s.now d)⟩],
          seqCtr := s.seqCtr + 1,
          tasks := tset t ⟨k, .atYield, th⟩ s.tasks,
          trace := ((s.trace ++ [.pollEv (wrapDiff d0 s.now) .timeout])
            ++ [.stepEv t .unit])
            ++ [.schedEv t (wrapAdd s.now d) (.nat (wrapAdd s.now d))] }).trace
        = countStepV t (.nat (wrapAdd s.now d))
            (((s.trace ++ [.pollEv (wrapDiff d0 s.now) .timeout])
              ++ [.stepEv t .unit])
              ++ [.schedEv t (wrapAdd s.now d) (.nat (wrapAdd s.now d))]) + 1 :=
      timer_delivers_once
        { s with
          stack := [],
          queue := [⟨wrapAdd s.now d, s.seqCtr, t, .nat (wrapAdd s.now d)⟩],
          seqCtr := s.seqCtr + 1,
          tasks := tset t ⟨k, .atYield, th⟩ s.tasks,
          trace := ((s.trace ++ [.pollEv (wrapDiff d0 s.now) .timeout])
            ++ [.stepEv t .unit])
            ++ [.schedEv t (wrapAdd s.now d) (.nat (wrapAdd s.now d))] }
        ⟨wrapAdd s.now d, s.seqCtr, t, .nat (wrapAdd s.now d)⟩ fuel2 rfl rfl hstkF huF
    have hc3 : countStepV t (.nat (wrapAdd s.now d))
        (((s.trace ++ [.pollEv (wrapDiff d0 s.now) .timeout])
          ++ [.stepEv t .unit])
          ++ [.schedEv t (wrapAdd s.now d) (.nat (wrapAdd s.now d))])
        = countStepV t (.nat (wrapAdd s.now d)) s.trace := by
      rw [countStepV_eq_P, countStepV_eq_P]
      simp [countStepP, List.countP_append, List.countP_cons, stepEvP]
    rw [hc3] at hdeliver
    exact hdeliver

/-- Witness for C8 at `c8WitSt`: the sleep pushes `(2100, 7, 2100)` and the
next timer pop delivers 2100 to task 7 exactly once. -/
theorem C8_witness :
    (execOp (0 + 2) (.opTurn .timeout) c8WitSt).queue
      = [⟨wrapAdd c8WitSt.now 2000, c8WitSt.seqCtr, 7, .nat (wrapAdd c8WitSt.now 2000)⟩] ∧
    (execOp (0 + 2) (.opTurn .timeout) c8WitSt).stack = [] ∧
    countStepV 7 (.nat (wrapAdd c8WitSt.now 2000))
        (execOp (0 + 2) (.opTurn .timeout) c8WitSt).trace
      = countStepV 7 (.nat (wrapAdd c8WitSt.now 2000)) c8WitSt.trace ∧
    ((execOp 5 (.opTurn .timeout) (execOp (0 + 2) (.opTurn .timeout) c8WitSt)).stack = [] →
     countUncaught
         (execOp 5 (.opTurn .timeout) (execOp (0 + 2) (.opTurn .timeout) c8WitSt)).trace
       = countUncaught (execOp (0 + 2) (.opTurn .timeout) c8WitSt).trace →
     countStepV 7 (.nat (wrapAdd c8WitSt.now 2000))
         (execOp 5 (.opTurn .timeout) (execOp (0 + 2) (.opTurn .timeout) c8WitSt)).trace
       = countStepV 7 (.nat (wrapAdd c8WitSt.now 2000)) c8WitSt.trace + 1) :=
  C8_theorem c8WitSt 7 2000 100 0 (.ret .unit) .propagate 0 5 rfl rfl rfl rfl

theorem inv1_of_eqs {t : Nat} {s s' : St}
    (hf : countFire t s'.trace = countFire t s.trace)
    (hi : countInstall t s'.trace = countInstall t s.trace)
    (hb : finBit t s' = finBit t s) :
    inv1 t s → inv1 t s' := by
  intro h
  unfold inv1 at h ⊢
  omega

theorem inv1_appendEv {t : Nat} (e : Ev) (s : St)
    (hf : isFireOf t e = false) (hi : isInstallOf t e = false) :
    inv1 t s → inv1 t (appendEv e s) := by
  refine inv1_of_eqs ?_ ?_ rfl
  · simp [countFire, appendEv, countP_snoc, hf]
  · simp [countInstall, appendEv, countP_snoc, hi]

theorem inv1_doUncaught {t : Nat} (e : Exc) (s : St) :
    inv1 t s → inv1 t (doUncaught e s) := by
  refine inv1_of_eqs ?_ ?_ rfl
  · simp [countFire, countP_snoc, isFireOf]
  · simp [countInstall, countP_snoc, isInstallOf]

theorem inv1_scheduleSt {t : Nat} (u : Nat) (v : Val) (dl : Option Nat)
    (f : Option Finalizer) (s : St) :
    inv1 t s → inv1 t (scheduleSt u v dl f s) := by
  intro h
  cases f with
  | none =>
    refine inv1_of_eqs ?_ ?_ ?_ h
    · simp [countFire, scheduleSt_trace_none, countP_snoc, isFireOf]
    · simp [countInstall, scheduleSt_trace_none, countP_snoc, isInstallOf]
    · rfl
  | some g =>
    have hfin : (scheduleSt u v dl (some g) s).finalizers = finSet u g s.finalizers :=
      scheduleSt_finalizers_some u v dl g s
    have h1 : countFire t (scheduleSt u v dl (some g) s).trace = countFire t s.trace := by
      simp [countFire, scheduleSt_trace_some, List.countP_append, List.countP_cons, isFireOf]
    by_cases hu : t = u
    · have h2 : countInstall t (scheduleSt u v dl (some g) s).trace
          = countInstall t s.trace + 1 := by
        simp [countInstall, scheduleSt_trace_some, List.countP_append, List.countP_cons,
          isInstallOf, hu]
      have h3 : finBit t (scheduleSt u v dl (some g) s) = 1 := by
        unfold finBit
        rw [hfin, finSet_alookup, if_pos hu]
        rfl
      have h4 : finBit t s ≤ 1 := by
        unfold finBit
        split <;> omega
      unfold inv1 at h ⊢
      omega
    · have hu2 : ¬ u = t := fun hh => hu hh.symm
      have h2 : countInstall t (scheduleSt u v dl (some g) s).trace
          = countInstall t s.trace := by
        simp [countInstall, scheduleSt_trace_some, List.countP_append, List.countP_cons,
          isInstallOf, hu2]
      have h3 : finBit t (scheduleSt u v dl (some g) s) = finBit t s := by
        unfold finBit
        rw [hfin, finSet_alookup, if_neg hu]
      exact inv1_of_eqs h1 h2 h3 h

theorem inv1_spawnHandle {t : Nat} (sid u : Nat) (s : St) :
    inv1 t s → inv1 t (spawnHandle sid u s) := by
  intro h
  unfold spawnHandle
  split
  · exact h
  · exact foldl_pres _ (fun st : St => inv1 t st)
      (fun st c hst => inv1_scheduleSt c .unit none (some (.spawnFin sid)) st hst) _ _
      (inv1_of_eqs rfl rfl rfl h)

theorem inv1_dispatchReq {t : Nat} (u : Nat) (r : Req) (s : St) :
    inv1 t s → inv1 t (dispatchReq u r s) := by
  intro h
  cases r with
  | sleepR d => exact inv1_scheduleSt _ _ _ _ _ h
  | waitR i => exact inv1_of_eqs rfl rfl rfl h
  | noneR => exact inv1_scheduleSt _ _ _ _ _ h
  | unknownR => exact inv1_appendEv _ _ rfl rfl h
  | raceR sid => exact inv1_spawnHandle sid u s h

theorem inv1_doHook {t : Nat} (s : St) : inv1 t s → inv1 t (doHook s) := by
  intro h
  unfold doHook
  split
  · exact inv1_appendEv _ _ rfl rfl h
  · exact h

theorem inv1_doResume {t : Nat} (u : Nat) (obj : TaskObj) (s : St) :
    inv1 t s → inv1 t (doResume u obj s) := by
  intro h
  obtain ⟨pg, sp2, th⟩ := obj
  cases pg with
  | ret rv => exact inv1_of_eqs rfl rfl rfl h
  | fail e =>
    by_cases he : e = Exc.genExit
    · simp only [doResume, he, if_true]
      exact inv1_doUncaught _ _ (inv1_of_eqs rfl rfl rfl h)
    · simp only [doResume]
      rw [if_neg he]
      exact inv1_of_eqs rfl rfl rfl h
  | yieldR r k =>
    exact inv1_doHook _ (inv1_dispatchReq u r _ (inv1_of_eqs rfl rfl rfl h))

theorem inv1_doThrow {t : Nat} (u : Nat) (e : Exc) (obj : TaskObj) (s : St) :
    inv1 t s → inv1 t (doThrow u e obj s) := by
  intro h
  obtain ⟨pg, sp2, th⟩ := obj
  cases sp2 with
  | closedS =>
    by_cases he : e = Exc.genExit
    · simp only [doThrow, he, if_true]
      exact inv1_doUncaught _ _ h
    · simp only [doThrow]
      rw [if_neg he]
      exact inv1_of_eqs rfl rfl rfl h
  | inSpawn sid =>
    simp only [doThrow]
    exact inv1_of_eqs rfl rfl rfl h
  | atYield =>
    cases th with
    | propagate =>
      by_cases he : e = Exc.genExit
      · simp only [doThrow, he, if_true]
        exact inv1_doUncaught _ _ (inv1_of_eqs rfl rfl rfl h)
      · simp only [doThrow]
        rw [if_neg he]
        exact inv1_of_eqs rfl rfl rfl h
    | raiseOther e2 =>
      by_cases he : e2 = Exc.genExit
      · simp only [doThrow, he, if_true]
        exact inv1_doUncaught _ _ (inv1_of_eqs rfl rfl rfl h)
      · simp only [doThrow]
        rw [if_neg he]
        exact inv1_of_eqs rfl rfl rfl h

theorem inv1_doRaise {t : Nat} (u : Nat) (e : Exc) (s : St) :
    inv1 t s → inv1 t (doRaise u e s) := by
  intro h
  by_cases he : e = Exc.genExit
  · simp only [doRaise, he, if_true]
    exact inv1_doUncaught _ _ h
  · simp only [doRaise]
    rw [if_neg he]
    exact inv1_of_eqs rfl rfl rfl h

theorem inv1_doFire {t : Nat} (u : Nat) (v : Val) (s : St) :
    inv1 t s → inv1 t (doFire u v s) := by
  intro h
  unfold doFire
  cases hf : alookup u s.finalizers with
  | none => exact h
  | some f =>
    have h1 : inv1 t
        (appendEv (.fireEv u f v) { s with finalizers := finErase u s.finalizers }) := by
      by_cases hu : t = u
      · subst hu
        have hb : finBit t s = 1 := by
          unfold finBit
          rw [hf]
          rfl
        have hb2 : finBit t
            (appendEv (.fireEv t f v) { s with finalizers := finErase t s.finalizers })
            = 0 := by
          unfold finBit
          show (if (alookup t (finErase t s.finalizers)).isSome then 1 else 0) = 0
          rw [finErase_alookup, if_pos rfl]
          rfl
        have hc : countFire t
            (appendEv (.fireEv t f v) { s with finalizers := finErase t s.finalizers }).trace
            = countFire t s.trace + 1 := by
          simp [countFire, appendEv, countP_snoc, isFireOf]
        have hi : countInstall t
            (appendEv (.fireEv t f v) { s with finalizers := finErase t s.finalizers }).trace
            = countInstall t s.trace := by
          simp [countInstall, appendEv, countP_snoc, isInstallOf]
        unfold inv1 at h ⊢
        omega
      · have hu2 : ¬ u = t := fun hh => hu hh.symm
        have hb2 : finBit t
            (appendEv (.fireEv u f v) { s with finalizers := finErase u s.finalizers })
            = finBit t s := by
          unfold finBit
          show (if (alookup t (finErase u s.finalizers)).isSome then 1 else 0) = _
          rw [finErase_alookup, if_neg hu]
        have hc : countFire t
            (appendEv (.fireEv u f v) { s with finalizers := finErase u s.finalizers }).trace
            = countFire t s.trace := by
          simp [countFire, appendEv, countP_snoc, isFireOf, hu2]
        have hi : countInstall t
            (appendEv (.fireEv u f v) { s with finalizers := finErase u s.finalizers }).trace
            = countInstall t s.trace := by
          simp [countInstall, appendEv, countP_snoc, isInstallOf]
        exact inv1_of_eqs hc hi hb2 h
    cases f with
    | plainFin fid => exact h1
    | spawnFin sid =>
      cases hsp : alookup sid
          (appendEv (.fireEv u (.spawnFin sid) v)
            { s with finalizers := finErase u s.finalizers }).spawns with
      | none => simp only [hsp]; exact h1
      | some sp =>
        simp only [hsp]
        by_cases hfin : sp.finished = []
        · rw [if_neg (by simp [hfin])]
          by_cases hsch : sp.scheduled.contains u = true
          · rw [if_pos hsch]
            exact inv1_of_eqs rfl rfl rfl h1
          · rw [if_neg hsch]
            exact inv1_doUncaught _ _ h1
        · rw [if_pos (by simp [hfin])]
          exact h1

theorem inv1_doClose {t : Nat} (u : Nat) (s : St) :
    inv1 t s → inv1 t (doClose u s) := by
  intro h
  unfold doClose
  have h0 : inv1 t { s with queue := qdiscard u s.queue, paused := pdiscard u s.paused } :=
    inv1_of_eqs rfl rfl rfl h
  cases hT : alookup u
      ({ s with queue := qdiscard u s.queue, paused := pdiscard u s.paused } : St).tasks with
  | none => simp only [hT]; exact h0
  | some obj =>
    simp only [hT]
    cases hS : obj.susp with
    | closedS =>
      simp only [hS]
      exact inv1_of_eqs rfl rfl rfl h0
    | inSpawn sid =>
      simp only [hS]
      exact inv1_of_eqs rfl rfl rfl h0
    | atYield =>
      simp only [hS]
      cases hTh : obj.onThrow with
      | propagate =>
        simp only [hTh]
        exact inv1_of_eqs rfl rfl rfl h0
      | raiseOther e2 =>
        simp only [hTh]
        by_cases he : e2 = Exc.genExit
        · simp only [he, if_true]
          exact inv1_of_eqs rfl rfl rfl h0
        · rw [if_neg he]
          exact inv1_doUncaught e2 _ (inv1_of_eqs rfl rfl rfl h0)

theorem inv1_doStep {t : Nat} (u : Nat) (v : Val) (s : St) :
    inv1 t s → inv1 t (doStep u v s) := by
  intro h
  unfold doStep
  have h0 : inv1 t (appendEv (.stepEv u v) s) := inv1_appendEv _ s rfl rfl h
  cases hT : alookup u (appendEv (.stepEv u v) s).tasks with
  | none => simp only [hT]; exact h0
  | some obj =>
    simp only [hT]
    cases v with
    | exc e => exact inv1_doThrow u e obj _ h0
    | unit =>
      cases hS : obj.susp with
      | closedS => simp only [hS]; exact inv1_of_eqs rfl rfl rfl h0
      | atYield => simp only [hS]; exact inv1_doResume u obj _ h0
      | inSpawn sid => simp only [hS]; exact inv1_doResume u obj _ h0
    | nat m =>
      cases hS : obj.susp with
      | closedS => simp only [hS]; exact inv1_of_eqs rfl rfl rfl h0
      | atYield => simp only [hS]; exact inv1_doResume u obj _ h0
      | inSpawn sid => simp only [hS]; exact inv1_doResume u obj _ h0

theorem doTurn_finalizers (out : PollOutcome) (s : St) :
    (doTurn out s).finalizers = s.finalizers := by
  unfold doTurn
  cases hq : s.queue with
  | nil =>
    cases hps : s.paused with
    | nil => rfl
    | cons a ps => cases out <;> simp [hq, appendEv, pushMicros]
  | cons e q' => cases out <;> simp [hq, appendEv, pushMicros]

theorem doTurn_countP (p : Ev → Bool) (out : PollOutcome) (s : St)
    (hp : ∀ b o, p (.pollEv b o) = false) :
    ((doTurn out s).trace).countP p = s.trace.countP p := by
  unfold doTurn
  cases hq : s.queue with
  | nil =>
    cases hps : s.paused with
    | nil => rfl
    | cons a ps =>
      cases out <;> simp [hq, appendEv, pushMicros, List.countP_append, List.countP_cons, hp]
  | cons e q' =>
    cases out <;> simp [hq, appendEv, pushMicros, List.countP_append, List.countP_cons, hp]

theorem inv1_doTurn {t : Nat} (out : PollOutcome) (s : St) :
    inv1 t s → inv1 t (doTurn out s) :=
  inv1_of_eqs (doTurn_countP (isFireOf t) out s (fun _ _ => rfl))
    (doTurn_countP (isInstallOf t) out s (fun _ _ => rfl))
    (by unfold finBit; rw [doTurn_finalizers])

theorem inv1_microStep {t : Nat} (s : St) : inv1 t s → inv1 t (microStep s) := by
  intro h
  unfold microStep
  cases hstk : s.stack with
  | nil => exact h
  | cons m rest =>
    cases m with
    | mStep u w => exact inv1_doStep u w _ (inv1_of_eqs rfl rfl rfl h)
    | mFire u w => exact inv1_doFire u w _ (inv1_of_eqs rfl rfl rfl h)
    | mClose u => exact inv1_doClose u _ (inv1_of_eqs rfl rfl rfl h)
    | mSchedule u w dl f => exact inv1_scheduleSt u w dl f _ (inv1_of_eqs rfl rfl rfl h)
    | mRaise u e2 => exact inv1_doRaise u e2 _ (inv1_of_eqs rfl rfl rfl h)
    | mTurn out => exact inv1_doTurn out _ (inv1_of_eqs rfl rfl rfl h)

theorem inv1_drain {t : Nat} (n : Nat) : ∀ s : St, inv1 t s → inv1 t (drain n s) := by
  induction n with
  | zero => intro s h; exact h
  | succ m ih =>
    intro s h
    cases hstk : s.stack with
    | nil =>
      rw [drain_nil (m + 1) s hstk]
      exact h
    | cons a rest =>
      have hdm : drain (m + 1) s = drain m (microStep s) := by rw [drain, hstk]
      rw [hdm]
      exact ih _ (inv1_microStep s h)

theorem inv1_pushOp {t : Nat} (op : Op) (s : St) : inv1 t s → inv1 t (pushOp op s) := by
  intro h
  cases op with
  | opSchedule u v dl f => exact inv1_scheduleSt u v dl f s h
  | opPause u i => exact inv1_of_eqs rfl rfl rfl h
  | opSetNow n => exact inv1_of_eqs rfl rfl rfl h
  | opClose u => exact inv1_of_eqs rfl rfl rfl h
  | opTurn out => exact inv1_of_eqs rfl rfl rfl h

theorem inv1_execOps {t : Nat} (fuel : Nat) (ops : List Op) (s : St) :
    inv1 t s → inv1 t (execOps fuel ops s) := by
  intro h
  unfold execOps
  exact foldl_pres _ (fun st : St => inv1 t st)
    (fun st op hst => inv1_drain fuel _ (inv1_pushOp op st hst)) ops s h

theorem inv1_initSt (t : Nat) (tasks : List (Nat × TaskObj)) (spawns : List (Nat × SpawnObj))
    (now : Nat) (hook : Bool) : inv1 t (initSt tasks spawns now hook) := by
  unfold inv1 finBit countFire countInstall initSt
  simp [alookup]

/-- C1 (amended): over any run of the scheduler from an initial state — any
interleaving of public operations and loop turns, with any fuel — a task's
finalizer fires at most once per installation: the number of finalizer
invocations recorded for the task never exceeds the number of finalizer
installations recorded for it.  The "exactly once" half of the original claim
fails (see the counterexample): a task that yields an unrecognized request is
dropped without its finalizer being invoked. -/
theorem C1_amended (tasks : List (Nat × TaskObj)) (spawns : List (Nat × SpawnObj))
    (now : Nat) (hook : Bool) (fuel : Nat) (ops : List Op) (t : Nat) :
    countFire t (execOps fuel ops (initSt tasks spawns now hook)).trace
      ≤ countInstall t (execOps fuel ops (initSt tasks spawns now hook)).trace := by
  have h := inv1_execOps fuel ops (initSt tasks spawns now hook)
    (inv1_initSt t tasks spawns now hook)
  unfold inv1 at h
  omega

theorem keep9_trans {fid : Nat} {s1 s2 s3 : St}
    (h12 : Keep9 fid s1 s2) (h23 : Keep9 fid s2 s3) : Keep9 fid s1 s3 :=
  ⟨h23.1, h23.2.1, by rw [h23.2.2, h12.2.2]⟩

theorem all_filter_of_all {α : Type} (p q : α → Bool) (l : List α)
    (h : l.all p = true) : (l.filter q).all p = true := by
  induction l with
  | nil => rfl
  | cons a l ih =>
    simp only [List.all_cons, Bool.and_eq_true] at h
    obtain ⟨h1, h2⟩ := h
    by_cases hq : q a
    · simp [List.filter_cons, hq, List.all_cons, h1, ih h2]
    · simp [List.filter_cons, hq, ih h2]

theorem alookup_of_all {α : Type} (p : α → Bool) (k : Nat) (m : List (Nat × α)) (g : α)
    (hall : m.all (fun pr => p pr.2) = true) (hlk : alookup k m = some g) : p g = true := by
  induction m with
  | nil => simp [alookup] at hlk
  | cons a m ih =>
    simp only [List.all_cons, Bool.and_eq_true] at hall
    obtain ⟨h1, h2⟩ := hall
    unfold alookup at hlk
    by_cases hk : k = a.1
    · rw [if_pos hk] at hlk
      exact Option.some.inj hlk ▸ h1
    · rw [if_neg hk] at hlk
      exact ih h2 hlk

theorem noFin_closes (fid : Nat) (l : List Nat) :
    (l.map Micro.mClose).all (noFinMicro (.plainFin fid)) = true := by
  induction l with
  | nil => rfl
  | cons a l ih => simp [noFinMicro]

theorem noFin_msgSteps (fid : Nat) (payload : Val) (ws : List Nat) :
    (ws.map (fun x => Micro.mStep x payload)).all (noFinMicro (.plainFin fid)) = true := by
  induction ws with
  | nil => rfl
  | cons a l ih => simp [noFinMicro]

theorem keep9_pushOver {fid : Nat} (ms : List Micro) {s s' : St}
    (hfz : s'.finalizers = s.finalizers)
    (hstk : s'.stack = ms ++ s.stack)
    (htr : s'.trace = s.trace)
    (ht : s.finalizers.all (fun pr => pr.2 ≠ Finalizer.plainFin fid) = true)
    (hs : s.stack.all (noFinMicro (.plainFin fid)) = true)
    (hm : ms.all (noFinMicro (.plainFin fid)) = true) :
    Keep9 fid s s' := by
  refine ⟨?_, ?_, ?_⟩
  · rw [hfz]; exact ht
  · rw [hstk, List.all_append, hm, hs]; rfl
  · rw [htr]

theorem keep9_uncaughtOver {fid : Nat} (e : Exc) {s s' : St}
    (hfz : s'.finalizers = s.finalizers)
    (hstk : s'.stack = [])
    (htr : s'.trace = s.trace ++ [.uncaughtEv e])
    (ht : s.finalizers.all (fun pr => pr.2 ≠ Finalizer.plainFin fid) = true) :
    Keep9 fid s s' := by
  refine ⟨by rw [hfz]; exact ht, by rw [hstk]; rfl, ?_⟩
  rw [htr]
  simp [countFireWith, countP_snoc, isFireWith]

theorem keep9_appendEv {fid : Nat} (e : Ev) (s : St)
    (ht : s.finalizers.all (fun pr => pr.2 ≠ Finalizer.plainFin fid) = true)
    (hs : s.stack.all (noFinMicro (.plainFin fid)) = true)
    (he : isFireWith (.plainFin fid) e = false) :
    Keep9 fid s (appendEv e s) :=
  ⟨ht, hs, by simp [countFireWith, appendEv, countP_snoc, he]⟩

theorem keep9_scheduleSt {fid : Nat} (u : Nat) (v : Val) (dl : Option Nat)
    (f' : Option Finalizer) (s : St)
    (ht : s.finalizers.all (fun pr => pr.2 ≠ Finalizer.plainFin fid) = true)
    (hs : s.stack.all (noFinMicro (.plainFin fid)) = true)
    (hok : noFinMicro (.plainFin fid) (.mSchedule u v dl f') = true) :
    Keep9 fid s (scheduleSt u v dl f' s) := by
  cases f' with
  | none =>
    refine ⟨?_, ?_, ?_⟩
    · rw [scheduleSt_finalizers_none]; exact ht
    · rw [scheduleSt_stack]; exact hs
    · rw [scheduleSt_trace_none]
      simp [countFireWith, countP_snoc, isFireWith]
  | some g =>
    refine ⟨?_, ?_, ?_⟩
    · rw [scheduleSt_finalizers_some]
      unfold finSet
      simp only [List.all_cons, Bool.and_eq_true]
      exact ⟨hok, all_filter_of_all _ _ _ ht⟩
    · rw [scheduleSt_stack]; exact hs
    · rw [scheduleSt_trace_some]
      simp [countFireWith, List.countP_append, List.countP_cons, isFireWith]

theorem keep9_spawnHandle {fid : Nat} (sid u : Nat) (s : St)
    (ht : s.finalizers.all (fun pr => pr.2 ≠ Finalizer.plainFin fid) = true)
    (hs : s.stack.all (noFinMicro (.plainFin fid)) = true) :
    Keep9 fid s (spawnHandle sid u s) := by
  unfold spawnHandle
  split
  · exact ⟨ht, hs, rfl⟩
  · refine foldl_pres _ (fun st : St => Keep9 fid s st) ?_ _ _ ⟨ht, hs, rfl⟩
    intro st c hst
    exact keep9_trans hst
      (keep9_scheduleSt c .unit none (some (.spawnFin sid)) st hst.1 hst.2.1
        (by simp [noFinMicro]))

theorem keep9_dispatchReq {fid : Nat} (u : Nat) (r : Req) (s : St)
    (ht : s.finalizers.all (fun pr => pr.2 ≠ Finalizer.plainFin fid) = true)
    (hs : s.stack.all (noFinMicro (.plainFin fid)) = true) :
    Keep9 fid s (dispatchReq u r s) := by
  cases r with
  | sleepR d => exact keep9_scheduleSt _ _ _ none s ht hs rfl
  | waitR i => exact ⟨ht, hs, rfl⟩
  | noneR => exact keep9_scheduleSt _ _ _ none s ht hs rfl
  | unknownR => exact keep9_appendEv _ s ht hs rfl
  | raceR sid => exact keep9_spawnHandle sid u s ht hs

theorem keep9_doHook {fid : Nat} (s : St)
    (ht : s.finalizers.all (fun pr => pr.2 ≠ Finalizer.plainFin fid) = true)
    (hs : s.stack.all (noFinMicro (.plainFin fid)) = true) :
    Keep9 fid s (doHook s) := by
  unfold doHook
  split
  · exact keep9_appendEv _ s ht hs rfl
  · exact ⟨ht, hs, rfl⟩

theorem keep9_doResume {fid : Nat} (u : Nat) (obj : TaskObj) (s : St)
    (ht : s.finalizers.all (fun pr => pr.2 ≠ Finalizer.plainFin fid) = true)
    (hs : s.stack.all (noFinMicro (.plainFin fid)) = true) :
    Keep9 fid s (doResume u obj s) := by
  obtain ⟨pg, sp2, th⟩ := obj
  cases pg with
  | ret rv => exact keep9_pushOver [.mFire u rv] rfl rfl rfl ht hs rfl
  | fail e =>
    by_cases he : e = Exc.genExit
    · simp only [doResume, he, if_true]
      exact keep9_uncaughtOver Exc.genExit rfl rfl rfl ht
    · simp only [doResume]
      rw [if_neg he]
      exact keep9_pushOver [.mFire u (.exc e)] rfl rfl rfl ht hs rfl
  | yieldR r k =>
    have hd := keep9_dispatchReq u r
      { s with tasks := tset u ⟨k, suspAfter r, th⟩ s.tasks } ht hs
    exact keep9_trans hd (keep9_doHook _ hd.1 hd.2.1)

theorem keep9_doThrow {fid : Nat} (u : Nat) (e : Exc) (obj : TaskObj) (s : St)
    (ht : s.finalizers.all (fun pr => pr.2 ≠ Finalizer.plainFin fid) = true)
    (hs : s.stack.all (noFinMicro (.plainFin fid)) = true) :
    Keep9 fid s (doThrow u e obj s) := by
  obtain ⟨pg, sp2, th⟩ := obj
  cases sp2 with
  | closedS =>
    by_cases he : e = Exc.genExit
    · simp only [doThrow, he, if_true]
      exact keep9_uncaughtOver Exc.genExit rfl rfl rfl ht
    · simp only [doThrow]
      rw [if_neg he]
      exact keep9_pushOver [.mFire u (.exc e)] rfl rfl rfl ht hs rfl
  | inSpawn sid =>
    simp only [doThrow]
    refine keep9_pushOver _ rfl rfl rfl ht hs ?_
    simp [List.all_append, noFin_closes, noFinMicro]
  | atYield =>
    cases th with
    | propagate =>
      by_cases he : e = Exc.genExit
      · simp only [doThrow, he, if_true]
        exact keep9_uncaughtOver Exc.genExit rfl rfl rfl ht
      · simp only [doThrow]
        rw [if_neg he]
        exact keep9_pushOver [.mFire u (.exc e)] rfl rfl rfl ht hs rfl
    | raiseOther e2 =>
      by_cases he : e2 = Exc.genExit
      · simp only [doThrow, he, if_true]
        exact keep9_uncaughtOver Exc.genExit rfl rfl rfl ht
      · simp only [doThrow]
        rw [if_neg he]
        exact keep9_pushOver [.mFire u (.exc e2)] rfl rfl rfl ht hs rfl

theorem keep9_doRaise {fid : Nat} (u : Nat) (e : Exc) (s : St)
    (ht : s.finalizers.all (fun pr => pr.2 ≠ Finalizer.plainFin fid) = true)
    (hs : s.stack.all (noFinMicro (.plainFin fid)) = true) :
    Keep9 fid s (doRaise u e s) := by
  by_cases he : e = Exc.genExit
  · simp only [doRaise, he, if_true]
    exact keep9_uncaughtOver Exc.genExit rfl rfl rfl ht
  · simp only [doRaise]
    rw [if_neg he]
    exact keep9_pushOver [.mFire u (.exc e)] rfl rfl rfl ht hs rfl

theorem keep9_doFire {fid : Nat} (u : Nat) (v : Val) (s : St)
    (ht : s.finalizers.all (fun pr => pr.2 ≠ Finalizer.plainFin fid) = true)
    (hs : s.stack.all (noFinMicro (.plainFin fid)) = true) :
    Keep9 fid s (doFire u v s) := by
  unfold doFire
  cases hf : alookup u s.finalizers with
  | none => exact ⟨ht, hs, rfl⟩
  | some f =>
    have hfne : (fun x : Finalizer => decide (x ≠ Finalizer.plainFin fid)) f = true :=
      alookup_of_all (fun x : Finalizer => decide (x ≠ Finalizer.plainFin fid))
        u s.finalizers f ht hf
    have hfne2 : ¬ f = Finalizer.plainFin fid := by simpa using hfne
    have h1 : Keep9 fid s
        (appendEv (.fireEv u f v) { s with finalizers := finErase u s.finalizers }) := by
      refine ⟨?_, hs, ?_⟩
      · exact all_filter_of_all _ _ _ ht
      · show countFireWith _ (s.trace ++ [.fireEv u f v]) = _
        simp [countFireWith, countP_snoc, isFireWith, hfne2]
    cases f with
    | plainFin fid2 => exact h1
    | spawnFin sid =>
      cases hsp : alookup sid
          (appendEv (.fireEv u (.spawnFin sid) v)
            { s with finalizers := finErase u s.finalizers }).spawns with
      | none => simp only [hsp]; exact h1
      | some sp =>
        simp only [hsp]
        by_cases hfin : sp.finished = []
        · rw [if_neg (by simp [hfin])]
          by_cases hsch : sp.scheduled.contains u = true
          · rw [if_pos hsch]
            refine keep9_trans h1 (keep9_pushOver _ rfl rfl rfl h1.1 h1.2.1 ?_)
            cases sp.exitOthers <;> cases sp.callback <;>
              simp [List.all_append, noFin_closes, noFinMicro]
          · rw [if_neg hsch]
            exact keep9_trans h1 (keep9_uncaughtOver (.err 999) rfl rfl rfl h1.1)
        · rw [if_pos (by simp [hfin])]
          exact h1

theorem keep9_doClose {fid : Nat} (u : Nat) (s : St)
    (ht : s.finalizers.all (fun pr => pr.2 ≠ Finalizer.plainFin fid) = true)
    (hs : s.stack.all (noFinMicro (.plainFin fid)) = true) :
    Keep9 fid s (doClose u s) := by
  unfold doClose
  have h0 : Keep9 fid s
      { s with queue := qdiscard u s.queue, paused := pdiscard u s.paused } :=
    ⟨ht, hs, rfl⟩
  cases hT : alookup u
      ({ s with queue := qdiscard u s.queue, paused := pdiscard u s.paused } : St).tasks with
  | none => simp only [hT]; exact h0
  | some obj =>
    simp only [hT]
    cases hS : obj.susp with
    | closedS =>
      simp only [hS]
      exact keep9_trans h0 (keep9_pushOver [.mFire u (.exc .genExit)] rfl rfl rfl ht hs rfl)
    | inSpawn sid =>
      simp only [hS]
      refine keep9_trans h0 (keep9_pushOver _ rfl rfl rfl ht hs ?_)
      simp [List.all_append, noFin_closes, noFinMicro]
    | atYield =>
      simp only [hS]
      cases hTh : obj.onThrow with
      | propagate =>
        simp only [hTh]
        exact keep9_trans h0 (keep9_pushOver [.mFire u (.exc .genExit)] rfl rfl rfl ht hs rfl)
      | raiseOther e2 =>
        simp only [hTh]
        by_cases he : e2 = Exc.genExit
        · simp only [he, if_true]
          exact keep9_trans h0
            (keep9_pushOver [.mFire u (.exc .genExit)] rfl rfl rfl ht hs rfl)
        · rw [if_neg he]
          exact keep9_trans h0 (keep9_uncaughtOver e2 rfl rfl rfl ht)

theorem keep9_doStep {fid : Nat} (u : Nat) (v : Val) (s : St)
    (ht : s.finalizers.all (fun pr => pr.2 ≠ Finalizer.plainFin fid) = true)
    (hs : s.stack.all (noFinMicro (.plainFin fid)) = true) :
    Keep9 fid s (doStep u v s) := by
  unfold doStep
  have h0 : Keep9 fid s (appendEv (.stepEv u v) s) := keep9_appendEv _ s ht hs rfl
  cases hT : alookup u (appendEv (.stepEv u v) s).tasks with
  | none => simp only [hT]; exact h0
  | some obj =>
    simp only [hT]
    cases v with
    | exc e => exact keep9_trans h0 (keep9_doThrow u e obj _ h0.1 h0.2.1)
    | unit =>
      cases hS : obj.susp with
      | closedS =>
        simp only [hS]
        exact keep9_trans h0
          (keep9_pushOver [.mFire u .unit] rfl rfl rfl h0.1 h0.2.1 rfl)
      | atYield =>
        simp only [hS]
        exact keep9_trans h0 (keep9_doResume u obj _ h0.1 h0.2.1)
      | inSpawn sid =>
        simp only [hS]
        exact keep9_trans h0 (keep9_doResume u obj _ h0.1 h0.2.1)
    | nat m =>
      cases hS : obj.susp with
      | closedS =>
        simp only [hS]
        exact keep9_trans h0
          (keep9_pushOver [.mFire u .unit] rfl rfl rfl h0.1 h0.2.1 rfl)
      | atYield =>
        simp only [hS]
        exact keep9_trans h0 (keep9_doResume u obj _ h0.1 h0.2.1)
      | inSpawn sid =>
        simp only [hS]
        exact keep9_trans h0 (keep9_doResume u obj _ h0.1 h0.2.1)

theorem doTurn_stack_all (fid : Nat) (out : PollOutcome) (s : St)
    (hs : s.stack.all (noFinMicro (.plainFin fid)) = true) :
    (doTurn out s).stack.all (noFinMicro (.plainFin fid)) = true := by
  unfold doTurn
  cases hq : s.queue with
  | nil =>
    cases hps : s.paused with
    | nil => exact hs
    | cons a ps =>
      cases out with
      | msg i payload =>
        simp [hq, appendEv, pushMicros, List.all_append, noFin_msgSteps, hs]
      | timeout => simp [hq, appendEv, hs]
  | cons e q' =>
    cases out with
    | msg i payload =>
      simp [hq, appendEv, pushMicros, List.all_append, noFin_msgSteps, hs]
    | timeout =>
      simp [hq, appendEv, pushMicros, List.all_append, noFinMicro, hs]

theorem keep9_doTurn {fid : Nat} (out : PollOutcome) (s : St)
    (ht : s.finalizers.all (fun pr => pr.2 ≠ Finalizer.plainFin fid) = true)
    (hs : s.stack.all (noFinMicro (.plainFin fid)) = true) :
    Keep9 fid s (doTurn out s) := by
  refine ⟨?_, doTurn_stack_all fid out s hs, ?_⟩
  · rw [doTurn_finalizers]; exact ht
  · exact doTurn_countP _ out s (fun _ _ => rfl)

theorem keep9_microStep {fid : Nat} (s : St)
    (ht : s.finalizers.all (fun pr => pr.2 ≠ Finalizer.plainFin fid) = true)
    (hs : s.stack.all (noFinMicro (.plainFin fid)) = true) :
    Keep9 fid s (microStep s) := by
  unfold microStep
  cases hstk : s.stack with
  | nil => exact ⟨ht, hs, rfl⟩
  | cons m rest =>
    rw [hstk] at hs
    simp only [List.all_cons, Bool.and_eq_true] at hs
    obtain ⟨hm, hrest⟩ := hs
    cases m with
    | mStep u w => exact keep9_doStep u w _ ht hrest
    | mFire u w => exact keep9_doFire u w _ ht hrest
    | mClose u => exact keep9_doClose u _ ht hrest
    | mSchedule u w dl f' => exact keep9_scheduleSt u w dl f' _ ht hrest hm
    | mRaise u e2 => exact keep9_doRaise u e2 _ ht hrest
    | mTurn out => exact keep9_doTurn out _ ht hrest

theorem keep9_drain {fid : Nat} (n : Nat) :
    ∀ s : St, s.finalizers.all (fun pr => pr.2 ≠ Finalizer.plainFin fid) = true →
      s.stack.all (noFinMicro (.plainFin fid)) = true →
      Keep9 fid s (drain n s) := by
  induction n with
  | zero => intro s ht hs; exact ⟨ht, hs, rfl⟩
  | succ m ih =>
    intro s ht hs
    cases hstk : s.stack with
    | nil =>
      rw [drain_nil (m + 1) s hstk]
      exact ⟨ht, hs, rfl⟩
    | cons a rest =>
      have hdm : drain (m + 1) s = drain m (microStep s) := by rw [drain, hstk]
      rw [hdm]
      have h1 := keep9_microStep s ht hs
      exact keep9_trans h1 (ih (microStep s) h1.1 h1.2.1)

theorem keep9_pushOp {fid : Nat} (op : Op) (s : St)
    (ht : s.finalizers.all (fun pr => pr.2 ≠ Finalizer.plainFin fid) = true)
    (hs : s.stack.all (noFinMicro (.plainFin fid)) = true)
    (hop : avoids9 fid op = true) : Keep9 fid s (pushOp op s) := by
  cases op with
  | opSchedule u v dl f' =>
    cases f' with
    | none => exact keep9_scheduleSt u v dl none s ht hs rfl
    | some g => exact keep9_scheduleSt u v dl (some g) s ht hs hop
  | opPause u i => exact ⟨ht, hs, rfl⟩
  | opSetNow n => exact ⟨ht, hs, rfl⟩
  | opClose u =>
    refine ⟨ht, ?_, rfl⟩
    show (s.stack ++ [Micro.mClose u]).all _ = true
    rw [List.all_append, hs]
    rfl
  | opTurn out =>
    refine ⟨ht, ?_, rfl⟩
    show (s.stack ++ [Micro.mTurn out]).all _ = true
    rw [List.all_append, hs]
    rfl

theorem keep9_execOps {fid : Nat} (fuel : Nat) (ops : List Op) :
    ∀ s : St, s.finalizers.all (fun pr => pr.2 ≠ Finalizer.plainFin fid) = true →
      s.stack.all (noFinMicro (.plainFin fid)) = true →
      ops.all (avoids9 fid) = true →
      Keep9 fid s (execOps fuel ops s) := by
  induction ops with
  | nil => intro s ht hs _; exact ⟨ht, hs, rfl⟩
  | cons op ops ih =>
    intro s ht hs hops
    simp only [List.all_cons, Bool.and_eq_true] at hops
    obtain ⟨hop, hops⟩ := hops
    have h1 : Keep9 fid s (execOp fuel op s) := by
      have hp := keep9_pushOp op s ht hs hop
      exact keep9_trans hp (keep9_drain fuel (pushOp op s) hp.1 hp.2.1)
    show Keep9 fid s (execOps fuel ops (execOp fuel op s))
    exact keep9_trans h1 (ih (execOp fuel op s) h1.1 h1.2.1 hops)

/-- C9: when task `t` already has the plain finalizer `fid1` installed and
`schedule(t, v, dl, fid2)` is called with a different finalizer, the table
entry for `t` is overwritten to `fid2` immediately, and — provided `fid1` is
installed for no other task, is not pending on the machine stack, and no
later operation re-installs it — the replaced finalizer `fid1` is never
invoked for the rest of the run: its fire count never changes again. -/
theorem C9_theorem (s : St) (t fid1 fid2 : Nat) (v : Val) (dl : Option Nat)
    (fuel : Nat) (ops : List Op)
    (_hin : alookup t s.finalizers = some (.plainFin fid1))
    (hne : fid1 ≠ fid2)
    (honly : (s.finalizers.filter (fun pr => pr.1 ≠ t)).all
        (fun pr => pr.2 ≠ Finalizer.plainFin fid1) = true)
    (hstk : s.stack.all (noFinMicro (.plainFin fid1)) = true)
    (hops : ops.all (avoids9 fid1) = true) :
    alookup t (pushOp (.opSchedule t v dl (some (.plainFin fid2))) s).finalizers
      = some (.plainFin fid2) ∧
    countFireWith (.plainFin fid1)
        (execOps fuel (.opSchedule t v dl (some (.plainFin fid2)) :: ops) s).trace
      = countFireWith (.plainFin fid1) s.trace := by
  have hne2 : ¬ Finalizer.plainFin fid2 = Finalizer.plainFin fid1 := by
    intro hh
    exact hne (Finalizer.plainFin.inj hh).symm
  have hT1 : (pushOp (.opSchedule t v dl (some (.plainFin fid2))) s).finalizers.all
      (fun pr => pr.2 ≠ Finalizer.plainFin fid1) = true := by
    show (finSet t (.plainFin fid2) s.finalizers).all _ = true
    unfold finSet
    simp only [List.all_cons, Bool.and_eq_true]
    exact ⟨by simpa using hne2, honly⟩
  have hS1 : (pushOp (.opSchedule t v dl (some (.plainFin fid2))) s).stack.all
      (noFinMicro (.plainFin fid1)) = true := hstk
  have htr1 : countFireWith (.plainFin fid1)
      (pushOp (.opSchedule t v dl (some (.plainFin fid2))) s).trace
      = countFireWith (.plainFin fid1) s.trace := by
    show countFireWith _ (scheduleSt t v dl (some (.plainFin fid2)) s).trace = _
    rw [scheduleSt_trace_some]
    simp [countFireWith, List.countP_append, List.countP_cons, isFireWith]
  refine ⟨?_, ?_⟩
  · show alookup t (finSet t (.plainFin fid2) s.finalizers) = _
    rw [finSet_alookup, if_pos rfl]
  · have hd := keep9_drain fuel (pushOp (.opSchedule t v dl (some (.plainFin fid2))) s)
      hT1 hS1
    have he := keep9_execOps fuel ops
      (drain fuel (pushOp (.opSchedule t v dl (some (.plainFin fid2))) s))
      hd.1 hd.2.1 hops
    show countFireWith _
        (execOps fuel ops
          (drain fuel (pushOp (.opSchedule t v dl (some (.plainFin fid2))) s))).trace = _
    rw [he.2.2, hd.2.2, htr1]

/-- Witness for C9 at `c9WitSt`: re-scheduling task 1 with finalizer 6
overwrites the table entry, and over a subsequent loop turn finalizer 5 is
never fired. -/
theorem C9_witness :
    alookup 1 (pushOp (.opSchedule 1 .unit none (some (.plainFin 6))) c9WitSt).finalizers
      = some (.plainFin 6) ∧
    countFireWith (.plainFin 5)
        (execOps 10 [.opSchedule 1 .unit none (some (.plainFin 6)), .opTurn .timeout]
          c9WitSt).trace
      = countFireWith (.plainFin 5) c9WitSt.trace :=
  C9_theorem c9WitSt 1 5 6 .unit none 10 [.opTurn .timeout] rfl (by decide) (by decide)
    rfl (by decide)

theorem keep2_trans {t : Nat} {s1 s2 s3 : St}
    (h12 : Keep2 t s1 s2) (h23 : Keep2 t s2 s3) : Keep2 t s1 s3 :=
  ⟨h23.1, by rw [h23.2, h12.2]⟩

theorem all_filter_self {α : Type} (p : α → Bool) (l : List α) :
    (l.filter p).all p = true := by
  induction l with
  | nil => rfl
  | cons a l ih =>
    by_cases ha : p a
    · simp [List.filter_cons, ha, List.all_cons, ih]
    · simp [List.filter_cons, ha, ih]

theorem foldl_pres_mem {σ α : Type} (g : σ → α → σ) (P : σ → Prop) (l : List α)
    (h : ∀ st a, a ∈ l → P st → P (g st a)) :
    ∀ st : σ, P st → P (l.foldl g st) := by
  induction l with
  | nil => intro st hst; exact hst
  | cons a l ih =>
    intro st hst
    exact ih (fun st2 b hb hst2 => h st2 b (List.mem_cons_of_mem a hb) hst2) _
      (h st a (List.mem_cons_self a l) hst)

theorem qinsert_all (p : QEntry → Bool) (e : QEntry) (q : List QEntry)
    (he : p e = true) (hq : q.all p = true) : (qinsert e q).all p = true := by
  induction q with
  | nil => simp [qinsert, he]
  | cons x xs ih =>
    simp only [List.all_cons, Bool.and_eq_true] at hq
    obtain ⟨hx, hxs⟩ := hq
    unfold qinsert
    by_cases hlt : wrapDiff e.deadline x.deadline < 0
    · rw [if_pos hlt]
      simp [List.all_cons, he, hx, hxs]
    · rw [if_neg hlt]
      simp [List.all_cons, hx, ih hxs]

theorem pAdd_all (t u i : Nat) (pz : List (Nat × List Nat))
    (hu : u ≠ t)
    (h : pz.all (fun pr => pr.2.all (fun w => w ≠ t)) = true) :
    (pAdd u i pz).all (fun pr => pr.2.all (fun w => w ≠ t)) = true := by
  unfold pAdd
  cases halk : alookup i pz with
  | some ws =>
    show ((if u ∈ ws then pz
        else pz.map (fun pr => if pr.1 = i then (pr.1, pr.2 ++ [u]) else pr)).all
      (fun pr => pr.2.all (fun w => w ≠ t))) = true
    by_cases hmem : u ∈ ws
    · rw [if_pos hmem]; exact h
    · rw [if_neg hmem]
      rw [List.all_map]
      refine List.all_eq_true.mpr ?_
      intro pr hpr
      have hp := List.all_eq_true.mp h pr hpr
      show ((if pr.1 = i then (pr.1, pr.2 ++ [u]) else pr).2.all
        (fun w => w ≠ t)) = true
      by_cases hi : pr.1 = i
      · rw [if_pos hi]
        show ((pr.2 ++ [u]).all (fun w => w ≠ t)) = true
        rw [List.all_append, hp]
        simp [hu]
      · rw [if_neg hi]
        exact hp
  | none =>
    show ((pz ++ [(i, [u])]).all (fun pr => pr.2.all (fun w => w ≠ t))) = true
    rw [List.all_append, h]
    simp [hu]

theorem clean2_closes (t : Nat) (l : List Nat) :
    (l.map Micro.mClose).all (clean2Micro t) = true := by
  induction l with
  | nil => rfl
  | cons a l ih => simp [clean2Micro]

theorem clean2_msgSteps (t : Nat) (payload : Val) (ws : List Nat)
    (h : ws.all (fun w => w ≠ t) = true) :
    (ws.map (fun x => Micro.mStep x payload)).all (clean2Micro t) = true := by
  induction ws with
  | nil => rfl
  | cons a l ih =>
    simp only [List.all_cons, Bool.and_eq_true] at h
    obtain ⟨h1, h2⟩ := h
    simp only [List.map_cons, List.all_cons, Bool.and_eq_true]
    exact ⟨h1, ih h2⟩

theorem keep2_pushOver {t : Nat} (ms : List Micro) {s s' : St}
    (hq : s'.queue = s.queue) (hpz : s'.paused = s.paused)
    (hsw : s'.spawns = s.spawns)
    (hstk : s'.stack = ms ++ s.stack) (htr : s'.trace = s.trace)
    (hc : Clean2 t s) (hm : ms.all (clean2Micro t) = true) :
    Keep2 t s s' := by
  obtain ⟨c1, c2, c3, c4⟩ := hc
  refine ⟨⟨by rw [hq]; exact c1, by rw [hpz]; exact c2, by rw [hsw]; exact c3, ?_⟩,
    by rw [htr]⟩
  rw [hstk, List.all_append, hm, c4]
  rfl

theorem keep2_uncaughtOver {t : Nat} (e : Exc) {s s' : St}
    (hq : s'.queue = s.queue) (hpz : s'.paused = s.paused)
    (hsw : s'.spawns = s.spawns)
    (hstk : s'.stack = []) (htr : s'.trace = s.trace ++ [.uncaughtEv e])
    (hc : Clean2 t s) :
    Keep2 t s s' := by
  obtain ⟨c1, c2, c3, _⟩ := hc
  refine ⟨⟨by rw [hq]; exact c1, by rw [hpz]; exact c2, by rw [hsw]; exact c3,
    by rw [hstk]; rfl⟩, ?_⟩
  rw [htr]
  simp [countStep, countP_snoc, isStepOf]

theorem keep2_appendEv {t : Nat} (e : Ev) (s : St) (hc : Clean2 t s)
    (he : isStepOf t e = false) :
    Keep2 t s (appendEv e s) :=
  ⟨hc, by simp [countStep, appendEv, countP_snoc, he]⟩

theorem keep2_scheduleSt {t : Nat} (u : Nat) (v : Val) (dl : Option Nat)
    (f' : Option Finalizer) (s : St) (hu : u ≠ t) (hc : Clean2 t s) :
    Keep2 t s (scheduleSt u v dl f' s) := by
  obtain ⟨c1, c2, c3, c4⟩ := hc
  refine ⟨⟨?_, ?_, ?_, ?_⟩, ?_⟩
  · rw [scheduleSt_queue]
    exact qinsert_all _ _ _ (by simp [hu]) c1
  · rw [scheduleSt_paused]; exact c2
  · rw [scheduleSt_spawns]; exact c3
  · rw [scheduleSt_stack]; exact c4
  · cases f' with
    | none =>
      rw [scheduleSt_trace_none]
      simp [countStep, countP_snoc, isStepOf]
    | some g =>
      rw [scheduleSt_trace_some]
      simp [countStep, List.countP_append, List.countP_cons, isStepOf]

theorem keep2_spawnHandle {t : Nat} (sid u : Nat) (s : St) (hu : u ≠ t)
    (hc : Clean2 t s) :
    Keep2 t s (spawnHandle sid u s) := by
  unfold spawnHandle
  cases halk : alookup sid s.spawns with
  | none => exact ⟨hc, rfl⟩
  | some sp =>
    have hspc : spClean t sp = true :=
      alookup_of_all (spClean t) sid s.spawns sp hc.2.2.1 halk
    have hch : sp.children.all (fun c => c ≠ t) = true := by
      unfold spClean at hspc
      simp only [Bool.and_eq_true] at hspc
      exact hspc.1.2
    have hsp' : spClean t
        { sp with callback := some u, scheduled := sp.children, finished := [] } = true := by
      unfold spClean at hspc ⊢
      simp only [Bool.and_eq_true] at hspc ⊢
      exact ⟨⟨by simp [hu], hspc.1.2⟩, hspc.1.2⟩
    have hclean1 : Clean2 t
        { s with spawns := sset sid { sp with callback := some u, scheduled := sp.children, finished := [] } s.spawns } := by
      refine ⟨hc.1, hc.2.1, ?_, hc.2.2.2⟩
      show (sset sid _ s.spawns).all (fun pr => spClean t pr.2) = true
      unfold sset
      simp only [List.all_cons, Bool.and_eq_true]
      exact ⟨hsp', all_filter_of_all _ _ _ hc.2.2.1⟩
    refine foldl_pres_mem _ (fun st : St => Keep2 t s st) sp.children ?_ _ ⟨hclean1, rfl⟩
    intro st c hcmem hst
    have hct : c ≠ t := of_decide_eq_true (List.all_eq_true.mp hch c hcmem)
    exact keep2_trans hst
      (keep2_scheduleSt c .unit none (some (.spawnFin sid)) st hct hst.1)

theorem keep2_dispatchReq {t : Nat} (u : Nat) (r : Req) (s : St) (hu : u ≠ t)
    (hc : Clean2 t s) :
    Keep2 t s (dispatchReq u r s) := by
  cases r with
  | sleepR d => exact keep2_scheduleSt u _ _ none s hu hc
  | waitR i => exact ⟨⟨hc.1, pAdd_all t u i s.paused hu hc.2.1, hc.2.2.1, hc.2.2.2⟩, rfl⟩
  | noneR => exact keep2_scheduleSt u _ _ none s hu hc
  | unknownR => exact keep2_appendEv _ s hc rfl
  | raceR sid => exact keep2_spawnHandle sid u s hu hc

theorem keep2_doHook {t : Nat} (s : St) (hc : Clean2 t s) : Keep2 t s (doHook s) := by
  unfold doHook
  split
  · exact keep2_appendEv _ s hc rfl
  · exact ⟨hc, rfl⟩

theorem keep2_doResume {t : Nat} (u : Nat) (obj : TaskObj) (s : St) (hu : u ≠ t)
    (hc : Clean2 t s) :
    Keep2 t s (doResume u obj s) := by
  obtain ⟨pg, sp2, th⟩ := obj
  cases pg with
  | ret rv => exact keep2_pushOver [.mFire u rv] rfl rfl rfl rfl rfl hc rfl
  | fail e =>
    by_cases he : e = Exc.genExit
    · simp only [doResume, he, if_true]
      exact keep2_uncaughtOver Exc.genExit rfl rfl rfl rfl rfl hc
    · simp only [doResume]
      rw [if_neg he]
      exact keep2_pushOver [.mFire u (.exc e)] rfl rfl rfl rfl rfl hc rfl
  | yieldR r k =>
    have hd := keep2_dispatchReq u r
      { s with tasks := tset u ⟨k, suspAfter r, th⟩ s.tasks } hu hc
    exact keep2_trans hd (keep2_doHook _ hd.1)

theorem keep2_doThrow {t : Nat} (u : Nat) (e : Exc) (obj : TaskObj) (s : St)
    (hc : Clean2 t s) :
    Keep2 t s (doThrow u e obj s) := by
  obtain ⟨pg, sp2, th⟩ := obj
  cases sp2 with
  | closedS =>
    by_cases he : e = Exc.genExit
    · simp only [doThrow, he, if_true]
      exact keep2_uncaughtOver Exc.genExit rfl rfl rfl rfl rfl hc
    · simp only [doThrow]
      rw [if_neg he]
      exact keep2_pushOver [.mFire u (.exc e)] rfl rfl rfl rfl rfl hc rfl
  | inSpawn sid =>
    simp only [doThrow]
    refine keep2_pushOver _ rfl rfl rfl rfl rfl hc ?_
    simp [List.all_append, clean2_closes, clean2Micro]
  | atYield =>
    cases th with
    | propagate =>
      by_cases he : e = Exc.genExit
      · simp only [doThrow, he, if_true]
        exact keep2_uncaughtOver Exc.genExit rfl rfl rfl rfl rfl hc
      · simp only [doThrow]
        rw [if_neg he]
        exact keep2_pushOver [.mFire u (.exc e)] rfl rfl rfl rfl rfl hc rfl
    | raiseOther e2 =>
      by_cases he : e2 = Exc.genExit
      · simp only [doThrow, he, if_true]
        exact keep2_uncaughtOver Exc.genExit rfl rfl rfl rfl rfl hc
      · simp only [doThrow]
        rw [if_neg he]
        exact keep2_pushOver [.mFire u (.exc e2)] rfl rfl rfl rfl rfl hc rfl

theorem keep2_doRaise {t : Nat} (u : Nat) (e : Exc) (s : St) (hc : Clean2 t s) :
    Keep2 t s (doRaise u e s) := by
  by_cases he : e = Exc.genExit
  · simp only [doRaise, he, if_true]
    exact keep2_uncaughtOver Exc.genExit rfl rfl rfl rfl rfl hc
  · simp only [doRaise]
    rw [if_neg he]
    exact keep2_pushOver [.mFire u (.exc e)] rfl rfl rfl rfl rfl hc rfl

theorem keep2_doFire {t : Nat} (u : Nat) (v : Val) (s : St) (hc : Clean2 t s) :
    Keep2 t s (doFire u v s) := by
  unfold doFire
  cases hf : alookup u s.finalizers with
  | none => exact ⟨hc, rfl⟩
  | some f =>
    have h1 : Keep2 t s
        (appendEv (.fireEv u f v) { s with finalizers := finErase u s.finalizers }) :=
      ⟨hc, by simp [countStep, appendEv, countP_snoc, isStepOf]⟩
    cases f with
    | plainFin fid => exact h1
    | spawnFin sid =>
      cases hsp2 : alookup sid
          (appendEv (.fireEv u (.spawnFin sid) v)
            { s with finalizers := finErase u s.finalizers }).spawns with
      | none => simp only [hsp2]; exact h1
      | some sp =>
        simp only [hsp2]
        have hspc : spClean t sp = true :=
          alookup_of_all (spClean t) sid s.spawns sp hc.2.2.1 hsp2
        by_cases hfin : sp.finished = []
        · rw [if_neg (by simp [hfin])]
          by_cases hsch : sp.scheduled.contains u = true
          · rw [if_pos hsch]
            have h2 : Keep2 t s
                { appendEv (.fireEv u (.spawnFin sid) v)
                    { s with finalizers := finErase u s.finalizers } with
                  spawns := sset sid { sp with finished := [u] } s.spawns } := by
              refine ⟨⟨h1.1.1, h1.1.2.1, ?_, h1.1.2.2.2⟩, h1.2⟩
              show (sset sid { sp with finished := [u] } s.spawns).all
                (fun pr => spClean t pr.2) = true
              unfold sset
              simp only [List.all_cons, Bool.and_eq_true]
              exact ⟨hspc, all_filter_of_all _ _ _ hc.2.2.1⟩
            refine keep2_trans h2 (keep2_pushOver _ rfl rfl rfl rfl rfl h2.1 ?_)
            have hcb1 : decide (sp.callback ≠ some t) = true := by
              unfold spClean at hspc
              simp only [Bool.and_eq_true] at hspc
              exact hspc.1.1
            cases hcbv : sp.callback with
            | none =>
              cases sp.exitOthers <;>
                simp [List.all_append, clean2_closes, clean2Micro]
            | some cb =>
              have hcbt : ¬ cb = t := by
                rw [hcbv] at hcb1
                simpa using hcb1
              cases sp.exitOthers <;>
                simp [List.all_append, clean2_closes, clean2Micro, hcbt]
          · rw [if_neg hsch]
            exact keep2_trans h1
              (keep2_uncaughtOver (.err 999) rfl rfl rfl rfl rfl h1.1)
        · rw [if_pos (by simp [hfin])]
          exact h1

theorem keep2_doClose_aux {t : Nat} (u : Nat) (s : St)
    (hq0 : (qdiscard u s.queue).all (fun e => e.task ≠ t) = true)
    (hp0 : (pdiscard u s.paused).all (fun pr => pr.2.all (fun w => w ≠ t)) = true)
    (c3 : s.spawns.all (fun pr => spClean t pr.2) = true)
    (c4 : s.stack.all (clean2Micro t) = true) :
    Keep2 t s (doClose u s) := by
  have h0 : Keep2 t s
      { s with queue := qdiscard u s.queue, paused := pdiscard u s.paused } :=
    ⟨⟨hq0, hp0, c3, c4⟩, rfl⟩
  unfold doClose
  cases hT : alookup u
      ({ s with queue := qdiscard u s.queue, paused := pdiscard u s.paused } : St).tasks with
  | none => simp only [hT]; exact h0
  | some obj =>
    simp only [hT]
    cases hS : obj.susp with
    | closedS =>
      simp only [hS]
      exact keep2_trans h0
        (keep2_pushOver [.mFire u (.exc .genExit)] rfl rfl rfl rfl rfl h0.1 rfl)
    | inSpawn sid =>
      simp only [hS]
      refine keep2_trans h0 (keep2_pushOver _ rfl rfl rfl rfl rfl h0.1 ?_)
      simp [List.all_append, clean2_closes, clean2Micro]
    | atYield =>
      simp only [hS]
      cases hTh : obj.onThrow with
      | propagate =>
        simp only [hTh]
        exact keep2_trans h0
          (keep2_pushOver [.mFire u (.exc .genExit)] rfl rfl rfl rfl rfl h0.1 rfl)
      | raiseOther e2 =>
        simp only [hTh]
        by_cases he : e2 = Exc.genExit
        · simp only [he, if_true]
          exact keep2_trans h0
            (keep2_pushOver [.mFire u (.exc .genExit)] rfl rfl rfl rfl rfl h0.1 rfl)
        · rw [if_neg he]
          exact keep2_trans h0
            (keep2_uncaughtOver e2 rfl rfl rfl rfl rfl h0.1)

theorem pdiscard_all_of_all (t u : Nat) (pz : List (Nat × List Nat))
    (c2 : pz.all (fun pr => pr.2.all (fun w => w ≠ t)) = true) :
    (pdiscard u pz).all (fun pr => pr.2.all (fun w => w ≠ t)) = true := by
  unfold pdiscard
  rw [List.all_map]
  refine List.all_eq_true.mpr ?_
  intro pr hpr
  exact all_filter_of_all _ _ _ (List.all_eq_true.mp c2 pr hpr)

theorem pdiscard_all_self (t : Nat) (pz : List (Nat × List Nat)) :
    (pdiscard t pz).all (fun pr => pr.2.all (fun w => w ≠ t)) = true := by
  unfold pdiscard
  rw [List.all_map]
  refine List.all_eq_true.mpr ?_
  intro pr hpr
  exact all_filter_self _ pr.2

theorem keep2_doClose {t : Nat} (u : Nat) (s : St) (hc : Clean2 t s) :
    Keep2 t s (doClose u s) :=
  keep2_doClose_aux u s (all_filter_of_all _ _ _ hc.1)
    (pdiscard_all_of_all t u s.paused hc.2.1) hc.2.2.1 hc.2.2.2

theorem keep2_doClose_self {t : Nat} (s : St)
    (c3 : s.spawns.all (fun pr => spClean t pr.2) = true)
    (c4 : s.stack.all (clean2Micro t) = true) :
    Keep2 t s (doClose t s) :=
  keep2_doClose_aux t s (all_filter_self _ _) (pdiscard_all_self t s.paused) c3 c4

theorem keep2_doStep {t : Nat} (u : Nat) (v : Val) (s : St) (hu : u ≠ t)
    (hc : Clean2 t s) :
    Keep2 t s (doStep u v s) := by
  unfold doStep
  have h0 : Keep2 t s (appendEv (.stepEv u v) s) :=
    keep2_appendEv _ s hc (by simp [isStepOf, hu])
  cases hT : alookup u (appendEv (.stepEv u v) s).tasks with
  | none => simp only [hT]; exact h0
  | some obj =>
    simp only [hT]
    cases v with
    | exc e => exact keep2_trans h0 (keep2_doThrow u e obj _ h0.1)
    | unit =>
      cases hS : obj.susp with
      | closedS =>
        simp only [hS]
        exact keep2_trans h0
          (keep2_pushOver [.mFire u .unit] rfl rfl rfl rfl rfl h0.1 rfl)
      | atYield =>
        simp only [hS]
        exact keep2_trans h0 (keep2_doResume u obj _ hu h0.1)
      | inSpawn sid =>
        simp only [hS]
        exact keep2_trans h0 (keep2_doResume u obj _ hu h0.1)
    | nat m =>
      cases hS : obj.susp with
      | closedS =>
        simp only [hS]
        exact keep2_trans h0
          (keep2_pushOver [.mFire u .unit] rfl rfl rfl rfl rfl h0.1 rfl)
      | atYield =>
        simp only [hS]
        exact keep2_trans h0 (keep2_doResume u obj _ hu h0.1)
      | inSpawn sid =>
        simp only [hS]
        exact keep2_trans h0 (keep2_doResume u obj _ hu h0.1)

theorem doTurn_queue_all (t : Nat) (out : PollOutcome) (s : St)
    (c1 : s.queue.all (fun e => e.task ≠ t) = true) :
    (doTurn out s).queue.all (fun e => e.task ≠ t) = true := by
  have c1p : ∀ x ∈ s.queue, ¬ x.task = t := by simpa using c1
  unfold doTurn
  cases hq : s.queue with
  | nil =>
    cases hps : s.paused with
    | nil => exact c1
    | cons a ps => cases out <;> simp [hq, appendEv, pushMicros]
  | cons e q' =>
    have he : ¬ e.task = t := c1p e (by rw [hq]; exact List.mem_cons_self e q')
    have hq2 : ∀ x ∈ q', ¬ x.task = t :=
      fun x hx => c1p x (by rw [hq]; exact List.mem_cons_of_mem e hx)
    cases out with
    | msg i payload =>
      simp [hq, appendEv, pushMicros, he]
      exact hq2
    | timeout =>
      simp [hq, appendEv, pushMicros, he]
      exact hq2

theorem doTurn_paused_all (t : Nat) (out : PollOutcome) (s : St)
    (c2 : s.paused.all (fun pr => pr.2.all (fun w => w ≠ t)) = true) :
    (doTurn out s).paused.all (fun pr => pr.2.all (fun w => w ≠ t)) = true := by
  have c2p : ∀ pr ∈ s.paused, ∀ x ∈ pr.2, ¬ x = t := by
    intro pr hpr x hx
    exact of_decide_eq_true (List.all_eq_true.mp (List.all_eq_true.mp c2 pr hpr) x hx)
  unfold doTurn
  cases hq : s.queue with
  | nil =>
    cases hps : s.paused with
    | nil => exact c2
    | cons a ps =>
      cases out with
      | msg i payload =>
        simp only [hq, appendEv, pushMicros]
        simp
        intro a2 b2 hab
        exact Or.inr (fun x hx => c2p (a2, b2) hab x hx)
      | timeout =>
        simp [hq, appendEv]
        intro a2 b2 hab
        exact c2p (a2, b2) hab
  | cons e q' =>
    cases out with
    | msg i payload =>
      simp only [hq, appendEv, pushMicros]
      simp
      intro a2 b2 hab
      exact Or.inr (fun x hx => c2p (a2, b2) hab x hx)
    | timeout =>
      simp [hq, appendEv, pushMicros]
      intro a2 b2 hab
      exact c2p (a2, b2) hab

theorem doTurn_spawns (out : PollOutcome) (s : St) : (doTurn out s).spawns = s.spawns := by
  unfold doTurn
  cases hq : s.queue with
  | nil =>
    cases hps : s.paused with
    | nil => rfl
    | cons a ps => cases out <;> simp [hq, appendEv, pushMicros]
  | cons e q' => cases out <;> simp [hq, appendEv, pushMicros]

theorem doTurn_stack_clean2 (t : Nat) (out : PollOutcome) (s : St)
    (c1 : s.queue.all (fun e => e.task ≠ t) = true)
    (c2 : s.paused.all (fun pr => pr.2.all (fun w => w ≠ t)) = true)
    (c4 : s.stack.all (clean2Micro t) = true) :
    (doTurn out s).stack.all (clean2Micro t) = true := by
  have hws : ∀ i : Nat, ((alookup i s.paused).getD []).all (fun w => w ≠ t) = true := by
    intro i
    cases halk : alookup i s.paused with
    | none => rfl
    | some ws =>
      exact alookup_of_all (fun l : List Nat => l.all (fun w => w ≠ t)) i s.paused ws c2 halk
  unfold doTurn
  cases hq : s.queue with
  | nil =>
    cases hps : s.paused with
    | nil => exact c4
    | cons a ps =>
      cases out with
      | msg i payload =>
        have hmap := clean2_msgSteps t payload _ (hws i)
        simp [hq, appendEv, pushMicros, List.all_append, hmap, c4]
      | timeout => simp [hq, appendEv, c4]
  | cons e q' =>
    rw [hq] at c1
    simp only [List.all_cons, Bool.and_eq_true] at c1
    cases out with
    | msg i payload =>
      have hmap := clean2_msgSteps t payload _ (hws i)
      simp [hq, appendEv, pushMicros, List.all_append, hmap, c4]
    | timeout =>
      simp [hq, appendEv, pushMicros, List.all_append, clean2Micro, c1.1, c4]

theorem keep2_doTurn {t : Nat} (out : PollOutcome) (s : St) (hc : Clean2 t s) :
    Keep2 t s (doTurn out s) := by
  obtain ⟨c1, c2, c3, c4⟩ := hc
  refine ⟨⟨doTurn_queue_all t out s c1, doTurn_paused_all t out s c2, ?_,
    doTurn_stack_clean2 t out s c1 c2 c4⟩, ?_⟩
  · rw [doTurn_spawns]; exact c3
  · exact doTurn_countP (isStepOf t) out s (fun _ _ => rfl)

theorem keep2_microStep {t : Nat} (s : St) (hc : Clean2 t s) :
    Keep2 t s (microStep s) := by
  unfold microStep
  cases hstk : s.stack with
  | nil => exact ⟨hc, rfl⟩
  | cons m rest =>
    obtain ⟨c1, c2, c3, c4⟩ := hc
    rw [hstk] at c4
    simp only [List.all_cons, Bool.and_eq_true] at c4
    obtain ⟨hm, hrest⟩ := c4
    have hcr : Clean2 t { s with stack := rest } := ⟨c1, c2, c3, hrest⟩
    cases m with
    | mStep u w =>
      have hu : ¬ u = t := by simpa [clean2Micro] using hm
      exact keep2_doStep u w _ hu hcr
    | mFire u w => exact keep2_doFire u w _ hcr
    | mClose u => exact keep2_doClose u _ hcr
    | mSchedule u w dl f' =>
      have hu : ¬ u = t := by simpa [clean2Micro] using hm
      exact keep2_scheduleSt u w dl f' _ hu hcr
    | mRaise u e2 => exact keep2_doRaise u e2 _ hcr
    | mTurn out => exact keep2_doTurn out _ hcr

theorem keep2_drain {t : Nat} (n : Nat) :
    ∀ s : St, Clean2 t s → Keep2 t s (drain n s) := by
  induction n with
  | zero => intro s hc; exact ⟨hc, rfl⟩
  | succ m ih =>
    intro s hc
    cases hstk : s.stack with
    | nil =>
      rw [drain_nil (m + 1) s hstk]
      exact ⟨hc, rfl⟩
    | cons a rest =>
      have hdm : drain (m + 1) s = drain m (microStep s) := by rw [drain, hstk]
      rw [hdm]
      have h1 := keep2_microStep s hc
      exact keep2_trans h1 (ih (microStep s) h1.1)

theorem keep2_pushOp {t : Nat} (op : Op) (s : St) (hc : Clean2 t s)
    (hop : avoids2 t op = true) : Keep2 t s (pushOp op s) := by
  cases op with
  | opSchedule u v dl f' =>
    have hu : ¬ u = t := by simpa [avoids2] using hop
    exact keep2_scheduleSt u v dl f' s hu hc
  | opPause u i =>
    have hu : ¬ u = t := by simpa [avoids2] using hop
    exact ⟨⟨hc.1, pAdd_all t u i s.paused hu hc.2.1, hc.2.2.1, hc.2.2.2⟩, rfl⟩
  | opSetNow n => exact ⟨hc, rfl⟩
  | opClose u =>
    refine ⟨⟨hc.1, hc.2.1, hc.2.2.1, ?_⟩, rfl⟩
    show (s.stack ++ [Micro.mClose u]).all _ = true
    rw [List.all_append, hc.2.2.2]
    rfl
  | opTurn out =>
    refine ⟨⟨hc.1, hc.2.1, hc.2.2.1, ?_⟩, rfl⟩
    show (s.stack ++ [Micro.mTurn out]).all _ = true
    rw [List.all_append, hc.2.2.2]
    rfl

theorem keep2_execOps {t : Nat} (fuel : Nat) (ops : List Op) :
    ∀ s : St, Clean2 t s → ops.all (avoids2 t) = true →
      Keep2 t s (execOps fuel ops s) := by
  induction ops with
  | nil => intro s hc _; exact ⟨hc, rfl⟩
  | cons op ops ih =>
    intro s hc hops
    simp only [List.all_cons, Bool.and_eq_true] at hops
    obtain ⟨hop, hops⟩ := hops
    have h1 : Keep2 t s (execOp fuel op s) := by
      have hp := keep2_pushOp op s hc hop
      exact keep2_trans hp (keep2_drain fuel (pushOp op s) hp.1)
    show Keep2 t s (execOps fuel ops (execOp fuel op s))
    exact keep2_trans h1 (ih (execOp fuel op s) h1.1 hops)

theorem pushOp_countStep (t : Nat) (op : Op) (st : St) :
    countStep t (pushOp op st).trace = countStep t st.trace := by
  cases op with
  | opSchedule u v dl f =>
    show countStep t (scheduleSt u v dl f st).trace = _
    cases f with
    | none =>
      rw [scheduleSt_trace_none]
      simp [countStep, countP_snoc, isStepOf]
    | some g =>
      rw [scheduleSt_trace_some]
      simp [countStep, List.countP_append, List.countP_cons, isStepOf]
  | opPause u i => rfl
  | opSetNow n => rfl
  | opClose u => rfl
  | opTurn out => rfl

theorem execOps_zero_countStep (t : Nat) (ops : List Op) :
    ∀ st : St, countStep t (execOps 0 ops st).trace = countStep t st.trace := by
  induction ops with
  | nil => intro st; rfl
  | cons op ops ih =>
    intro st
    show countStep t (execOps 0 ops (drain 0 (pushOp op st))).trace = _
    rw [ih (drain 0 (pushOp op st))]
    exact pushOp_countStep t op st

/-- C2 (amended): after `close(t)` the task `t` is never stepped again —
neither during the close itself nor by any later loop turn or public
operation — provided no spawn group references `t` as callback, child, or
scheduled wrapper (the counterexample shows a parent awaiting a spawn group
is re-scheduled by the group finalizer), and no later operation explicitly
re-schedules or re-pauses `t`. -/
theorem C2_amended (s : St) (t : Nat) (fuel : Nat) (ops : List Op)
    (hstk : s.stack = [])
    (hsp : s.spawns.all (fun pr => spClean t pr.2) = true)
    (hops : ops.all (avoids2 t) = true) :
    countStep t (execOps fuel (.opClose t :: ops) s).trace = countStep t s.trace := by
  have hpush : pushOp (.opClose t) s = { s with stack := [.mClose t] } := by
    simp [pushOp, hstk]
  show countStep t (execOps fuel ops (drain fuel (pushOp (.opClose t) s))).trace = _
  cases fuel with
  | zero =>
    show countStep t (execOps 0 ops (pushOp (.opClose t) s)).trace = _
    rw [execOps_zero_countStep t ops (pushOp (.opClose t) s)]
    rfl
  | succ n =>
    have hd1 : drain (n + 1) (pushOp (.opClose t) s)
        = drain n (microStep { s with stack := [Micro.mClose t] }) := by
      rw [hpush, drain]
    have hms : microStep { s with stack := [Micro.mClose t] }
        = doClose t { s with stack := ([] : List Micro) } := rfl
    have h1 : Keep2 t { s with stack := ([] : List Micro) }
        (doClose t { s with stack := ([] : List Micro) }) :=
      keep2_doClose_self { s with stack := ([] : List Micro) } hsp rfl
    have h2 := keep2_drain n (doClose t { s with stack := ([] : List Micro) }) h1.1
    have h3 := keep2_execOps (n + 1) ops
      (drain n (doClose t { s with stack := ([] : List Micro) })) h2.1 hops
    rw [hd1, hms, h3.2, h2.2, h1.2]

/-- Witness for C2 at `c2WitSt`: after closing task 4, a further loop turn
never steps it. -/
theorem C2_witness :
    countStep 4 (execOps 10 [.opClose 4, .opTurn .timeout] c2WitSt).trace
      = countStep 4 c2WitSt.trace :=
  C2_amended c2WitSt 4 10 [.opTurn .timeout] rfl rfl (by decide)

theorem wrapDiff_self (d : Nat) : wrapDiff d d = 0 := by
  have h : (d % TICKS + TICKS - d % TICKS) % TICKS = 0 := by
    have h2 : d % TICKS + TICKS - d % TICKS = TICKS := by omega
    rw [h2, Nat.mod_self]
  unfold wrapDiff
  simp [h, TICKS]

theorem firstOf_mono (a b x : Nat) (tr ext : List Ev)
    (h : firstOf a b tr = some x) : firstOf a b (tr ++ ext) = some x := by
  induction tr with
  | nil => simp [firstOf] at h
  | cons e tr ih =>
    cases e with
    | stepEv u w =>
      unfold firstOf at h
      show (if u = a ∨ u = b then some u else firstOf a b (tr ++ ext)) = some x
      by_cases hc : u = a ∨ u = b
      · rw [if_pos hc] at h
        rw [if_pos hc]
        exact h
      · rw [if_neg hc] at h
        rw [if_neg hc]
        exact ih h
    | fireEv u f v => exact ih h
    | installEv u f => exact ih h
    | schedEv u d2 v => exact ih h
    | pollEv bu o => exact ih h
    | hookEv => exact ih h
    | unknownEv u => exact ih h
    | uncaughtEv e2 => exact ih h

theorem firstOf_none_append (a b : Nat) (tr tr2 : List Ev)
    (h : firstOf a b tr = none) : firstOf a b (tr ++ tr2) = firstOf a b tr2 := by
  induction tr with
  | nil => rfl
  | cons e tr ih =>
    cases e with
    | stepEv u w =>
      unfold firstOf at h
      show (if u = a ∨ u = b then some u else firstOf a b (tr ++ tr2)) = firstOf a b tr2
      by_cases hc : u = a ∨ u = b
      · rw [if_pos hc] at h
        exact absurd h (by simp)
      · rw [if_neg hc] at h
        rw [if_neg hc]
        exact ih h
    | fireEv u f v => exact ih h
    | installEv u f => exact ih h
    | schedEv u d2 v => exact ih h
    | pollEv bu o => exact ih h
    | hookEv => exact ih h
    | unknownEv u => exact ih h
    | uncaughtEv e2 => exact ih h

theorem firstOf_none_ext (a b : Nat) (tr ext : List Ev)
    (h : firstOf a b tr = none) (hext : ext.all (notStepAB a b) = true) :
    firstOf a b (tr ++ ext) = none := by
  rw [firstOf_none_append a b tr ext h]
  induction ext with
  | nil => rfl
  | cons e ext ih =>
    simp only [List.all_cons, Bool.and_eq_true] at hext
    obtain ⟨he, hext2⟩ := hext
    cases e with
    | stepEv u w =>
      have hu : ¬ (u = a ∨ u = b) := by
        simp only [notStepAB, Bool.and_eq_true, decide_eq_true_eq] at he
        rintro (h1 | h2)
        · exact he.1 h1
        · exact he.2 h2
      unfold firstOf
      rw [if_neg hu]
      exact ih hext2
    | fireEv u f v => exact ih hext2
    | installEv u f => exact ih hext2
    | schedEv u d2 v => exact ih hext2
    | pollEv bu o => exact ih hext2
    | hookEv => exact ih hext2
    | unknownEv u => exact ih hext2
    | uncaughtEv e2 => exact ih hext2

theorem qinsert_cons_lt (e x : QEntry) (xs : List QEntry)
    (h : wrapDiff e.deadline x.deadline < 0) :
    qinsert e (x :: xs) = e :: x :: xs := by
  show (if wrapDiff e.deadline x.deadline < 0 then e :: x :: xs else x :: qinsert e xs) = _
  rw [if_pos h]

theorem qinsert_cons_ge (e x : QEntry) (xs : List QEntry)
    (h : ¬ wrapDiff e.deadline x.deadline < 0) :
    qinsert e (x :: xs) = x :: qinsert e xs := by
  show (if wrapDiff e.deadline x.deadline < 0 then e :: x :: xs else x :: qinsert e xs) = _
  rw [if_neg h]

theorem aBeforeB_cons_sa (sa sb : Nat) (e : QEntry) (q : List QEntry)
    (hsa : e.seq = sa) (hne : sa ≠ sb) : aBeforeB sa sb (e :: q) = true := by
  unfold aBeforeB
  rw [if_neg (by rw [hsa]; exact hne), if_pos hsa]

theorem aBeforeB_cons_other (sa sb : Nat) (e : QEntry) (q : List QEntry)
    (h1 : e.seq ≠ sb) (h2 : e.seq ≠ sa) :
    aBeforeB sa sb (e :: q) = aBeforeB sa sb q := by
  show (if e.seq = sb then false else if e.seq = sa then true else aBeforeB sa sb q)
    = aBeforeB sa sb q
  rw [if_neg h1, if_neg h2]

theorem aBeforeB_qinsert (sa sb : Nat) (e : QEntry) (q : List QEntry)
    (h1 : e.seq ≠ sa) (h2 : e.seq ≠ sb) (hq : aBeforeB sa sb q = true) :
    aBeforeB sa sb (qinsert e q) = true := by
  induction q with
  | nil =>
    show aBeforeB sa sb [e] = true
    rw [aBeforeB_cons_other sa sb e [] h2 h1]
    rfl
  | cons x xs ih =>
    unfold qinsert
    by_cases hlt : wrapDiff e.deadline x.deadline < 0
    · rw [if_pos hlt]
      rw [aBeforeB_cons_other sa sb e _ h2 h1]
      exact hq
    · rw [if_neg hlt]
      by_cases hxb : x.seq = sb
      · unfold aBeforeB at hq
        rw [if_pos hxb] at hq
        exact absurd hq (by simp)
      · by_cases hxa : x.seq = sa
        · exact aBeforeB_cons_sa sa sb x _ hxa (fun hh => hxb (hxa.trans hh))
        · rw [aBeforeB_cons_other sa sb x _ hxb hxa]
          rw [aBeforeB_cons_other sa sb x _ hxb hxa] at hq
          exact ih hq

theorem aBeforeB_filter (a b sa sb u : Nat) (q : List QEntry)
    (hu : u ≠ a)
    (hok : q.all (qOk3 a b sa sb) = true)
    (h : aBeforeB sa sb q = true) :
    aBeforeB sa sb (q.filter (fun e => e.task ≠ u)) = true := by
  induction q with
  | nil => rfl
  | cons e q ih =>
    simp only [List.all_cons, Bool.and_eq_true] at hok
    obtain ⟨hoke, hokq⟩ := hok
    by_cases heb : e.seq = sb
    · unfold aBeforeB at h
      rw [if_pos heb] at h
      exact absurd h (by simp)
    · by_cases hea : e.seq = sa
      · have hta : e.task = a := by
          unfold qOk3 at hoke
          simp only [Bool.and_eq_true] at hoke
          have h2 := hoke.2
          rw [if_pos hea] at h2
          exact of_decide_eq_true h2
        have hkeep : decide (e.task ≠ u) = true := by
          rw [hta]
          simp
          exact fun hh => hu hh.symm
        simp only [List.filter_cons, hkeep, if_true]
        exact aBeforeB_cons_sa sa sb e _ hea (fun hh => heb (hea.trans hh))
      · rw [aBeforeB_cons_other sa sb e q heb hea] at h
        by_cases hkeep : decide (e.task ≠ u) = true
        · simp only [List.filter_cons, hkeep, if_true]
          rw [aBeforeB_cons_other sa sb e _ heb hea]
          exact ih hokq h
        · simp only [List.filter_cons]
          rw [if_neg (by simpa using hkeep)]
          exact ih hokq h

theorem aBeforeB_double (sa sb : Nat) (a b : Nat) (va vb : Val) (d : Nat)
    (hne : sa ≠ sb) (q0 : List QEntry)
    (h0 : q0.all (fun e => decide (e.seq ≠ sa) && decide (e.seq ≠ sb)) = true) :
    aBeforeB sa sb (qinsert ⟨d, sb, b, vb⟩ (qinsert ⟨d, sa, a, va⟩ q0)) = true := by
  induction q0 with
  | nil =>
    show aBeforeB sa sb (qinsert ⟨d, sb, b, vb⟩ [⟨d, sa, a, va⟩]) = true
    rw [qinsert_cons_ge ⟨d, sb, b, vb⟩ ⟨d, sa, a, va⟩ [] (by simp [wrapDiff_self])]
    exact aBeforeB_cons_sa sa sb _ _ rfl hne
  | cons x xs ih =>
    simp only [List.all_cons, Bool.and_eq_true, decide_eq_true_eq] at h0
    obtain ⟨⟨hxa, hxb⟩, hx0⟩ := h0
    by_cases hlt : wrapDiff d x.deadline < 0
    · rw [qinsert_cons_lt ⟨d, sa, a, va⟩ x xs hlt]
      rw [qinsert_cons_ge ⟨d, sb, b, vb⟩ ⟨d, sa, a, va⟩ (x :: xs)
        (by simp [wrapDiff_self])]
      exact aBeforeB_cons_sa sa sb _ _ rfl hne
    · rw [qinsert_cons_ge ⟨d, sa, a, va⟩ x xs hlt]
      rw [qinsert_cons_ge ⟨d, sb, b, vb⟩ x (qinsert ⟨d, sa, a, va⟩ xs) hlt]
      rw [aBeforeB_cons_other sa sb x _ hxb hxa]
      exact ih hx0

theorem grows_refl (s : St) : grows s s := ⟨[], by rw [List.append_nil]⟩

theorem grows_trans {s1 s2 s3 : St} (h1 : grows s1 s2) (h2 : grows s2 s3) :
    grows s1 s3 := by
  obtain ⟨e1, he1⟩ := h1
  obtain ⟨e2, he2⟩ := h2
  exact ⟨e1 ++ e2, by rw [he2, he1, List.append_assoc]⟩

theorem grows_of_eq {s s' : St} (htr : s'.trace = s.trace) : grows s s' :=
  ⟨[], by rw [htr, List.append_nil]⟩

theorem grows_scheduleSt (u : Nat) (v : Val) (dl : Option Nat) (f : Option Finalizer)
    (s : St) : grows s (scheduleSt u v dl f s) := by
  cases f with
  | none => exact ⟨[.schedEv u (dl.getD s.now) v], scheduleSt_trace_none u v dl s⟩
  | some g =>
    exact ⟨[.installEv u g, .schedEv u (dl.getD s.now) v], scheduleSt_trace_some u v dl g s⟩

theorem grows_spawnHandle (sid u : Nat) (s : St) : grows s (spawnHandle sid u s) := by
  unfold spawnHandle
  split
  · exact grows_refl s
  · refine foldl_pres _ (fun st : St => grows s st) ?_ _ _ (grows_of_eq rfl)
    intro st c hst
    exact grows_trans hst (grows_scheduleSt c .unit none (some (.spawnFin sid)) st)

theorem grows_dispatchReq (u : Nat) (r : Req) (s : St) : grows s (dispatchReq u r s) := by
  cases r with
  | sleepR d => exact grows_scheduleSt _ _ _ _ _
  | waitR i => exact grows_of_eq rfl
  | noneR => exact grows_scheduleSt _ _ _ _ _
  | unknownR => exact ⟨[.unknownEv u], rfl⟩
  | raceR sid => exact grows_spawnHandle sid u s

theorem grows_doHook (s : St) : grows s (doHook s) := by
  unfold doHook
  split
  · exact ⟨[.hookEv], rfl⟩
  · exact grows_refl s

theorem grows_doResume (u : Nat) (obj : TaskObj) (s : St) : grows s (doResume u obj s) := by
  obtain ⟨pg, sp2, th⟩ := obj
  cases pg with
  | ret rv => exact grows_of_eq rfl
  | fail e =>
    by_cases he : e = Exc.genExit
    · simp only [doResume, he, if_true]
      exact ⟨[.uncaughtEv Exc.genExit], rfl⟩
    · simp only [doResume]
      rw [if_neg he]
      exact grows_of_eq rfl
  | yieldR r k =>
    exact grows_trans
      (grows_dispatchReq u r { s with tasks := tset u ⟨k, suspAfter r, th⟩ s.tasks })
      (grows_doHook _)

theorem grows_doThrow (u : Nat) (e : Exc) (obj : TaskObj) (s : St) :
    grows s (doThrow u e obj s) := by
  obtain ⟨pg, sp2, th⟩ := obj
  cases sp2 with
  | closedS =>
    by_cases he : e = Exc.genExit
    · simp only [doThrow, he, if_true]
      exact ⟨[.uncaughtEv Exc.genExit], rfl⟩
    · simp only [doThrow]
      rw [if_neg he]
      exact grows_of_eq rfl
  | inSpawn sid =>
    simp only [doThrow]
    exact grows_of_eq rfl
  | atYield =>
    cases th with
    | propagate =>
      by_cases he : e = Exc.genExit
      · simp only [doThrow, he, if_true]
        exact ⟨[.uncaughtEv Exc.genExit], rfl⟩
      · simp only [doThrow]
        rw [if_neg he]
        exact grows_of_eq rfl
    | raiseOther e2 =>
      by_cases he : e2 = Exc.genExit
      · simp only [doThrow, he, if_true]
        exact ⟨[.uncaughtEv Exc.genExit], rfl⟩
      · simp only [doThrow]
        rw [if_neg he]
        exact grows_of_eq rfl

theorem grows_doRaise (u : Nat) (e : Exc) (s : St) : grows s (doRaise u e s) := by
  by_cases he : e = Exc.genExit
  · simp only [doRaise, he, if_true]
    exact ⟨[.uncaughtEv Exc.genExit], rfl⟩
  · simp only [doRaise]
    rw [if_neg he]
    exact grows_of_eq rfl

theorem grows_doFire (u : Nat) (v : Val) (s : St) : grows s (doFire u v s) := by
  unfold doFire
  cases hf : alookup u s.finalizers with
  | none => exact grows_refl s
  | some f =>
    have h1 : grows s
        (appendEv (.fireEv u f v) { s with finalizers := finErase u s.finalizers }) :=
      ⟨[.fireEv u f v], rfl⟩
    cases f with
    | plainFin fid => exact h1
    | spawnFin sid =>
      cases hsp : alookup sid
          (appendEv (.fireEv u (.spawnFin sid) v)
            { s with finalizers := finErase u s.finalizers }).spawns with
      | none => simp only [hsp]; exact h1
      | some sp =>
        simp only [hsp]
        by_cases hfin : sp.finished = []
        · rw [if_neg (by simp [hfin])]
          by_cases hsch : sp.scheduled.contains u = true
          · rw [if_pos hsch]
            exact grows_trans h1 (grows_of_eq rfl)
          · rw [if_neg hsch]
            exact grows_trans h1 ⟨[.uncaughtEv (.err 999)], rfl⟩
        · rw [if_pos (by simp [hfin])]
          exact h1

theorem grows_doClose (u : Nat) (s : St) : grows s (doClose u s) := by
  unfold doClose
  have h0 : grows s { s with queue := qdiscard u s.queue, paused := pdiscard u s.paused } :=
    grows_of_eq rfl
  cases hT : alookup u
      ({ s with queue := qdiscard u s.queue, paused := pdiscard u s.paused } : St).tasks with
  | none => simp only [hT]; exact h0
  | some obj =>
    simp only [hT]
    cases hS : obj.susp with
    | closedS =>
      simp only [hS]
      exact grows_of_eq rfl
    | inSpawn sid =>
      simp only [hS]
      exact grows_of_eq rfl
    | atYield =>
      simp only [hS]
      cases hTh : obj.onThrow with
      | propagate =>
        simp only [hTh]
        exact grows_of_eq rfl
      | raiseOther e2 =>
        simp only [hTh]
        by_cases he : e2 = Exc.genExit
        · simp only [he, if_true]
          exact grows_of_eq rfl
        · rw [if_neg he]
          exact ⟨[.uncaughtEv e2], rfl⟩

theorem grows_doTurn (out : PollOutcome) (s : St) : grows s (doTurn out s) := by
  unfold doTurn
  cases hq : s.queue with
  | nil =>
    cases hps : s.paused with
    | nil => exact grows_refl s
    | cons a ps =>
      cases out with
      | msg i payload => exact ⟨[.pollEv maxDelay (.msg i payload)], by simp [hq, appendEv, pushMicros]⟩
      | timeout => exact ⟨[.pollEv maxDelay .timeout], by simp [hq, appendEv]⟩
  | cons e q' =>
    cases out with
    | msg i payload =>
      exact ⟨[.pollEv (wrapDiff e.deadline s.now) (.msg i payload)],
        by simp [hq, appendEv, pushMicros]⟩
    | timeout =>
      exact ⟨[.pollEv (wrapDiff e.deadline s.now) .timeout],
        by simp [hq, appendEv, pushMicros]⟩

theorem doStep_trace (u : Nat) (v : Val) (s : St) :
    ∃ ext, (doStep u v s).trace = s.trace ++ [Ev.stepEv u v] ++ ext := by
  unfold doStep
  cases hT : alookup u (appendEv (.stepEv u v) s).tasks with
  | none =>
    simp only [hT]
    exact ⟨[], by simp [appendEv]⟩
  | some obj =>
    simp only [hT]
    have hbase : ∀ X : St, grows (appendEv (.stepEv u v) s) X →
        ∃ ext, X.trace = s.trace ++ [Ev.stepEv u v] ++ ext := by
      intro X hX
      obtain ⟨ext, hext⟩ := hX
      exact ⟨ext, by rw [hext]; simp [appendEv]⟩
    cases v with
    | exc e => exact hbase _ (grows_doThrow u e obj _)
    | unit =>
      cases hS : obj.susp with
      | closedS => simp only [hS]; exact hbase _ (grows_of_eq rfl)
      | atYield => simp only [hS]; exact hbase _ (grows_doResume u obj _)
      | inSpawn sid => simp only [hS]; exact hbase _ (grows_doResume u obj _)
    | nat m =>
      cases hS : obj.susp with
      | closedS => simp only [hS]; exact hbase _ (grows_of_eq rfl)
      | atYield => simp only [hS]; exact hbase _ (grows_doResume u obj _)
      | inSpawn sid => simp only [hS]; exact hbase _ (grows_doResume u obj _)

theorem grows_doStep (u : Nat) (v : Val) (s : St) : grows s (doStep u v s) := by
  obtain ⟨ext, hext⟩ := doStep_trace u v s
  exact ⟨[Ev.stepEv u v] ++ ext, by rw [hext, List.append_assoc]⟩

theorem grows_microStep (s : St) : grows s (microStep s) := by
  unfold microStep
  cases hstk : s.stack with
  | nil => exact grows_refl s
  | cons m rest =>
    cases m with
    | mStep u w => exact grows_doStep u w _
    | mFire u w => exact grows_doFire u w _
    | mClose u => exact grows_doClose u _
    | mSchedule u w dl f => exact grows_scheduleSt u w dl f _
    | mRaise u e2 => exact grows_doRaise u e2 _
    | mTurn out => exact grows_doTurn out _

theorem grows_pushOp (op : Op) (s : St) : grows s (pushOp op s) := by
  cases op with
  | opSchedule u v dl f => exact grows_scheduleSt u v dl f s
  | opPause u i => exact grows_of_eq rfl
  | opSetNow n => exact grows_of_eq rfl
  | opClose u => exact grows_of_eq rfl
  | opTurn out => exact grows_of_eq rfl

theorem keep3_trans {a b sa sb : Nat} {s1 s2 s3 : St}
    (h12 : Keep3 a b sa sb s1 s2) (h23 : Keep3 a b sa sb s2 s3) :
    Keep3 a b sa sb s1 s3 := by
  obtain ⟨hd2, e1, he1, ha1⟩ := h12
  obtain ⟨hd3, e2, he2, ha2⟩ := h23
  refine ⟨hd3, e1 ++ e2, by rw [he2, he1, List.append_assoc], ?_⟩
  rw [List.all_append, ha1, ha2]
  rfl

theorem spClean_parts (t : Nat) (sp : SpawnObj) (h : spClean t sp = true) :
    decide (sp.callback ≠ some t) = true ∧ sp.children.all (fun c => c ≠ t) = true ∧
    sp.scheduled.all (fun c => c ≠ t) = true := by
  unfold spClean at h
  simp only [Bool.and_eq_true] at h
  exact ⟨h.1.1, h.1.2, h.2⟩

theorem spClean_mk (t : Nat) (cb : Option Nat) (ch sched fin2 : List Nat)
    (eo : Bool)
    (hcb : decide (cb ≠ some t) = true) (hch : ch.all (fun c => c ≠ t) = true)
    (hsch : sched.all (fun c => c ≠ t) = true) :
    spClean t ⟨ch, eo, cb, sched, fin2⟩ = true := by
  unfold spClean
  simp only [Bool.and_eq_true]
  exact ⟨⟨hcb, hch⟩, hsch⟩

theorem clean3_closes (a b : Nat) (l : List Nat)
    (h1 : l.all (fun c => c ≠ a) = true) (h2 : l.all (fun c => c ≠ b) = true) :
    (l.map Micro.mClose).all (clean3Micro a b) = true := by
  induction l with
  | nil => rfl
  | cons c l ih =>
    simp only [List.all_cons, Bool.and_eq_true] at h1 h2
    simp only [List.map_cons, List.all_cons, Bool.and_eq_true]
    refine ⟨?_, ih h1.2 h2.2⟩
    show (decide (c ≠ a) && decide (c ≠ b)) = true
    rw [h1.1, h2.1]
    rfl

theorem clean3_msgSteps (a b : Nat) (payload : Val) (ws : List Nat)
    (h : ws.all (fun w => decide (w ≠ a) && decide (w ≠ b)) = true) :
    (ws.map (fun x => Micro.mStep x payload)).all (clean3Micro a b) = true := by
  induction ws with
  | nil => rfl
  | cons w l ih =>
    simp only [List.all_cons, Bool.and_eq_true] at h
    simp only [List.map_cons, List.all_cons, Bool.and_eq_true]
    refine ⟨?_, ih h.2⟩
    show (decide (w ≠ a) && decide (w ≠ b)) = true
    rw [h.1.1, h.1.2]
    rfl

theorem pAdd_all3 (a b u i : Nat) (pz : List (Nat × List Nat))
    (hua : u ≠ a) (hub : u ≠ b)
    (h : pz.all (fun pr => pr.2.all (fun w => decide (w ≠ a) && decide (w ≠ b))) = true) :
    (pAdd u i pz).all
      (fun pr => pr.2.all (fun w => decide (w ≠ a) && decide (w ≠ b))) = true := by
  unfold pAdd
  cases halk : alookup i pz with
  | some ws =>
    show ((if u ∈ ws then pz
        else pz.map (fun pr => if pr.1 = i then (pr.1, pr.2 ++ [u]) else pr)).all
      (fun pr => pr.2.all (fun w => decide (w ≠ a) && decide (w ≠ b)))) = true
    by_cases hmem : u ∈ ws
    · rw [if_pos hmem]; exact h
    · rw [if_neg hmem]
      rw [List.all_map]
      refine List.all_eq_true.mpr ?_
      intro pr hpr
      have hp := List.all_eq_true.mp h pr hpr
      show ((if pr.1 = i then (pr.1, pr.2 ++ [u]) else pr).2.all
        (fun w => decide (w ≠ a) && decide (w ≠ b))) = true
      by_cases hi : pr.1 = i
      · rw [if_pos hi]
        show ((pr.2 ++ [u]).all (fun w => decide (w ≠ a) && decide (w ≠ b))) = true
        rw [List.all_append, hp]
        simp [hua, hub]
      · rw [if_neg hi]
        exact hp
  | none =>
    show ((pz ++ [(i, [u])]).all
      (fun pr => pr.2.all (fun w => decide (w ≠ a) && decide (w ≠ b)))) = true
    rw [List.all_append, h]
    simp [hua, hub]

theorem keep3_pushOver {a b sa sb : Nat} (ms : List Micro) {s s' : St}
    (hq : s'.queue = s.queue) (hctr : s'.seqCtr = s.seqCtr)
    (hpz : s'.paused = s.paused) (hsw : s'.spawns = s.spawns)
    (hstk : s'.stack = ms ++ s.stack) (htr : s'.trace = s.trace)
    (hd : DisjC a b sa sb s) (hm : ms.all (clean3Micro a b) = true) :
    Keep3 a b sa sb s s' := by
  obtain ⟨d1, d2, d3, d4, d5, d6, d7⟩ := hd
  refine ⟨⟨by rw [hq]; exact d1, by rw [hq]; exact d2, by rw [hctr]; exact d3,
    by rw [hctr]; exact d4, by rw [hpz]; exact d5, by rw [hsw]; exact d6, ?_⟩,
    [], by rw [htr, List.append_nil], rfl⟩
  rw [hstk, List.all_append, hm, d7]
  rfl

theorem keep3_uncaughtOver {a b sa sb : Nat} (e : Exc) {s s' : St}
    (hq : s'.queue = s.queue) (hctr : s'.seqCtr = s.seqCtr)
    (hpz : s'.paused = s.paused) (hsw : s'.spawns = s.spawns)
    (hstk : s'.stack = []) (htr : s'.trace = s.trace ++ [.uncaughtEv e])
    (hd : DisjC a b sa sb s) :
    Keep3 a b sa sb s s' := by
  obtain ⟨d1, d2, d3, d4, d5, d6, _⟩ := hd
  exact ⟨⟨by rw [hq]; exact d1, by rw [hq]; exact d2, by rw [hctr]; exact d3,
    by rw [hctr]; exact d4, by rw [hpz]; exact d5, by rw [hsw]; exact d6,
    by rw [hstk]; rfl⟩,
    [.uncaughtEv e], htr, rfl⟩

theorem keep3_appendEv {a b sa sb : Nat} (e : Ev) (s : St)
    (hd : DisjC a b sa sb s) (he : notStepAB a b e = true) :
    Keep3 a b sa sb s (appendEv e s) :=
  ⟨hd, [e], rfl, by rw [List.all_cons, he]; rfl⟩

theorem keep3_scheduleSt {a b sa sb : Nat} (u : Nat) (v : Val) (dl : Option Nat)
    (f' : Option Finalizer) (s : St) (hub : u ≠ b)
    (hd : DisjC a b sa sb s) :
    Keep3 a b sa sb s (scheduleSt u v dl f' s) := by
  obtain ⟨d1, d2, d3, d4, d5, d6, d7⟩ := hd
  have hctr_sa : s.seqCtr ≠ sa := by omega
  have hctr_sb : s.seqCtr ≠ sb := by omega
  refine ⟨⟨?_, ?_, ?_, ?_, ?_, ?_, ?_⟩, ?_⟩
  · rw [scheduleSt_queue]
    exact aBeforeB_qinsert sa sb _ _ hctr_sa hctr_sb d1
  · rw [scheduleSt_queue]
    refine qinsert_all _ _ _ ?_ d2
    unfold qOk3
    simp [hub, hctr_sa]
  · rw [scheduleSt_seqCtr]; omega
  · rw [scheduleSt_seqCtr]; omega
  · rw [scheduleSt_paused]; exact d5
  · rw [scheduleSt_spawns]; exact d6
  · rw [scheduleSt_stack]; exact d7
  · cases f' with
    | none =>
      exact ⟨[.schedEv u (dl.getD s.now) v], scheduleSt_trace_none u v dl s, rfl⟩
    | some g =>
      exact ⟨[.installEv u g, .schedEv u (dl.getD s.now) v],
        scheduleSt_trace_some u v dl g s, rfl⟩

theorem keep3_spawnHandle {a b sa sb : Nat} (sid u : Nat) (s : St)
    (hua : u ≠ a) (hub : u ≠ b)
    (hd : DisjC a b sa sb s) :
    Keep3 a b sa sb s (spawnHandle sid u s) := by
  unfold spawnHandle
  cases halk : alookup sid s.spawns with
  | none => exact ⟨hd, [], by rw [List.append_nil], rfl⟩
  | some sp =>
    have hpair := alookup_of_all (fun x : SpawnObj => spClean a x && spClean b x)
      sid s.spawns sp hd.2.2.2.2.2.1 halk
    simp only [Bool.and_eq_true] at hpair
    obtain ⟨hA, hB⟩ := hpair
    have hsp' : ∀ t : Nat, u ≠ t → spClean t sp = true →
        spClean t { sp with callback := some u, scheduled := sp.children, finished := [] }
          = true := by
      intro t hut hsp
      obtain ⟨p1, p2, p3⟩ := spClean_parts t sp hsp
      obtain ⟨ch, eo, cb, sched, fin2⟩ := sp
      exact spClean_mk t (some u) ch ch [] eo (by simp [hut]) p2 p2
    have hdisj1 : DisjC a b sa sb
        { s with spawns := sset sid { sp with callback := some u, scheduled := sp.children, finished := [] } s.spawns } := by
      obtain ⟨d1, d2, d3, d4, d5, d6, d7⟩ := hd
      refine ⟨d1, d2, d3, d4, d5, ?_, d7⟩
      show (sset sid _ s.spawns).all (fun pr => spClean a pr.2 && spClean b pr.2) = true
      unfold sset
      simp only [List.all_cons, Bool.and_eq_true]
      refine ⟨⟨hsp' a hua hA, hsp' b hub hB⟩, ?_⟩
      have := all_filter_of_all (fun pr : Nat × SpawnObj => spClean a pr.2 && spClean b pr.2)
        (fun pr => pr.1 ≠ sid) s.spawns d6
      simpa using this
    have hch : sp.children.all (fun c => c ≠ b) = true := (spClean_parts b sp hB).2.1
    refine foldl_pres_mem _ (fun st : St => Keep3 a b sa sb s st) sp.children ?_ _
      ⟨hdisj1, [], by rw [List.append_nil], rfl⟩
    intro st c hcmem hst
    have hcb : c ≠ b := of_decide_eq_true (List.all_eq_true.mp hch c hcmem)
    exact keep3_trans hst
      (keep3_scheduleSt c .unit none (some (.spawnFin sid)) st hcb hst.1)

theorem keep3_dispatchReq {a b sa sb : Nat} (u : Nat) (r : Req) (s : St)
    (hua : u ≠ a) (hub : u ≠ b)
    (hd : DisjC a b sa sb s) :
    Keep3 a b sa sb s (dispatchReq u r s) := by
  cases r with
  | sleepR d => exact keep3_scheduleSt u _ _ none s hub hd
  | waitR i =>
    obtain ⟨d1, d2, d3, d4, d5, d6, d7⟩ := hd
    exact ⟨⟨d1, d2, d3, d4, pAdd_all3 a b u i s.paused hua hub d5, d6, d7⟩,
      [], by rw [List.append_nil]; rfl, rfl⟩
  | noneR => exact keep3_scheduleSt u _ _ none s hub hd
  | unknownR => exact keep3_appendEv _ s hd rfl
  | raceR sid => exact keep3_spawnHandle sid u s hua hub hd

theorem keep3_doHook {a b sa sb : Nat} (s : St) (hd : DisjC a b sa sb s) :
    Keep3 a b sa sb s (doHook s) := by
  unfold doHook
  split
  · exact keep3_appendEv _ s hd rfl
  · exact ⟨hd, [], by rw [List.append_nil], rfl⟩

theorem sch_clean3 (a b sid : Nat) (spawns : List (Nat × SpawnObj))
    (hsp : spawns.all (fun pr => spClean a pr.2 && spClean b pr.2) = true) :
    ((((alookup sid spawns).map SpawnObj.scheduled).getD []).map Micro.mClose).all
      (clean3Micro a b) = true := by
  cases halk : alookup sid spawns with
  | none => rfl
  | some sp =>
    have hpair := alookup_of_all (fun x : SpawnObj => spClean a x && spClean b x)
      sid spawns sp hsp halk
    simp only [Bool.and_eq_true] at hpair
    exact clean3_closes a b sp.scheduled (spClean_parts a sp hpair.1).2.2
      (spClean_parts b sp hpair.2).2.2

theorem keep3_doResume {a b sa sb : Nat} (u : Nat) (obj : TaskObj) (s : St)
    (hua : u ≠ a) (hub : u ≠ b)
    (hd : DisjC a b sa sb s) :
    Keep3 a b sa sb s (doResume u obj s) := by
  obtain ⟨pg, sp2, th⟩ := obj
  cases pg with
  | ret rv => exact keep3_pushOver [.mFire u rv] rfl rfl rfl rfl rfl rfl hd rfl
  | fail e =>
    by_cases he : e = Exc.genExit
    · simp only [doResume, he, if_true]
      exact keep3_uncaughtOver Exc.genExit rfl rfl rfl rfl rfl rfl hd
    · simp only [doResume]
      rw [if_neg he]
      exact keep3_pushOver [.mFire u (.exc e)] rfl rfl rfl rfl rfl rfl hd rfl
  | yieldR r k =>
    have hdisp := keep3_dispatchReq u r
      { s with tasks := tset u ⟨k, suspAfter r, th⟩ s.tasks } hua hub hd
    exact keep3_trans hdisp (keep3_doHook _ hdisp.1)

theorem keep3_doThrow {a b sa sb : Nat} (u : Nat) (e : Exc) (obj : TaskObj) (s : St)
    (hd : DisjC a b sa sb s) :
    Keep3 a b sa sb s (doThrow u e obj s) := by
  obtain ⟨pg, sp2, th⟩ := obj
  cases sp2 with
  | closedS =>
    by_cases he : e = Exc.genExit
    · simp only [doThrow, he, if_true]
      exact keep3_uncaughtOver Exc.genExit rfl rfl rfl rfl rfl rfl hd
    · simp only [doThrow]
      rw [if_neg he]
      exact keep3_pushOver [.mFire u (.exc e)] rfl rfl rfl rfl rfl rfl hd rfl
  | inSpawn sid =>
    simp only [doThrow]
    refine keep3_pushOver _ rfl rfl rfl rfl rfl rfl hd ?_
    show ((((alookup sid s.spawns).map SpawnObj.scheduled).getD []).map Micro.mClose
        ++ [Micro.mRaise u e]).all (clean3Micro a b) = true
    rw [List.all_append, sch_clean3 a b sid s.spawns hd.2.2.2.2.2.1]
    rfl
  | atYield =>
    cases th with
    | propagate =>
      by_cases he : e = Exc.genExit
      · simp only [doThrow, he, if_true]
        exact keep3_uncaughtOver Exc.genExit rfl rfl rfl rfl rfl rfl hd
      · simp only [doThrow]
        rw [if_neg he]
        exact keep3_pushOver [.mFire u (.exc e)] rfl rfl rfl rfl rfl rfl hd rfl
    | raiseOther e2 =>
      by_cases he : e2 = Exc.genExit
      · simp only [doThrow, he, if_true]
        exact keep3_uncaughtOver Exc.genExit rfl rfl rfl rfl rfl rfl hd
      · simp only [doThrow]
        rw [if_neg he]
        exact keep3_pushOver [.mFire u (.exc e2)] rfl rfl rfl rfl rfl rfl hd rfl

theorem keep3_doRaise {a b sa sb : Nat} (u : Nat) (e : Exc) (s : St)
    (hd : DisjC a b sa sb s) :
    Keep3 a b sa sb s (doRaise u e s) := by
  by_cases he : e = Exc.genExit
  · simp only [doRaise, he, if_true]
    exact keep3_uncaughtOver Exc.genExit rfl rfl rfl rfl rfl rfl hd
  · simp only [doRaise]
    rw [if_neg he]
    exact keep3_pushOver [.mFire u (.exc e)] rfl rfl rfl rfl rfl rfl hd rfl

theorem keep3_doFire {a b sa sb : Nat} (u : Nat) (v : Val) (s : St)
    (hd : DisjC a b sa sb s) :
    Keep3 a b sa sb s (doFire u v s) := by
  unfold doFire
  cases hf : alookup u s.finalizers with
  | none => exact ⟨hd, [], by rw [List.append_nil], rfl⟩
  | some f =>
    have h1 : Keep3 a b sa sb s
        (appendEv (.fireEv u f v) { s with finalizers := finErase u s.finalizers }) :=
      ⟨hd, [.fireEv u f v], rfl, rfl⟩
    cases f with
    | plainFin fid => exact h1
    | spawnFin sid =>
      cases hsp2 : alookup sid
          (appendEv (.fireEv u (.spawnFin sid) v)
            { s with finalizers := finErase u s.finalizers }).spawns with
      | none => simp only [hsp2]; exact h1
      | some sp =>
        simp only [hsp2]
        have hpair := alookup_of_all (fun x : SpawnObj => spClean a x && spClean b x)
          sid s.spawns sp hd.2.2.2.2.2.1 hsp2
        simp only [Bool.and_eq_true] at hpair
        obtain ⟨hA, hB⟩ := hpair
        by_cases hfin : sp.finished = []
        · rw [if_neg (by simp [hfin])]
          by_cases hsch : sp.scheduled.contains u = true
          · rw [if_pos hsch]
            have h2 : Keep3 a b sa sb s
                { appendEv (.fireEv u (.spawnFin sid) v)
                    { s with finalizers := finErase u s.finalizers } with
                  spawns := sset sid { sp with finished := [u] } s.spawns } := by
              obtain ⟨d1, d2, d3, d4, d5, d6, d7⟩ := hd
              refine ⟨⟨d1, d2, d3, d4, d5, ?_, d7⟩, [.fireEv u (.spawnFin sid) v], rfl, rfl⟩
              show (sset sid { sp with finished := [u] } s.spawns).all
                (fun pr => spClean a pr.2 && spClean b pr.2) = true
              unfold sset
              simp only [List.all_cons, Bool.and_eq_true]
              refine ⟨⟨hA, hB⟩, ?_⟩
              have := all_filter_of_all
                (fun pr : Nat × SpawnObj => spClean a pr.2 && spClean b pr.2)
                (fun pr => pr.1 ≠ sid) s.spawns d6
              simpa using this
            refine keep3_trans h2 (keep3_pushOver _ rfl rfl rfl rfl rfl rfl h2.1 ?_)
            have hfc : ((sp.scheduled.filter (fun c => c ≠ u)).map Micro.mClose).all
                (clean3Micro a b) = true :=
              clean3_closes a b _ (all_filter_of_all _ _ _ (spClean_parts a sp hA).2.2)
                (all_filter_of_all _ _ _ (spClean_parts b sp hB).2.2)
            cases hcbv : sp.callback with
            | none =>
              cases sp.exitOthers with
              | true =>
                rw [List.append_nil]
                exact hfc
              | false => rfl
            | some cb =>
              have hcba : ¬ cb = a := by
                have := (spClean_parts a sp hA).1
                rw [hcbv] at this
                simpa using this
              have hcbb : ¬ cb = b := by
                have := (spClean_parts b sp hB).1
                rw [hcbv] at this
                simpa using this
              have hsched1 : (([Micro.mSchedule cb v none none] : List Micro)).all
                  (clean3Micro a b) = true := by
                show (clean3Micro a b (Micro.mSchedule cb v none none) && true) = true
                show ((decide (cb ≠ a) && decide (cb ≠ b)) && true) = true
                simp [hcba, hcbb]
              cases sp.exitOthers with
              | true =>
                rw [List.all_append]
                show ((((sp.scheduled.filter (fun c => c ≠ u)).map Micro.mClose).all
                    (clean3Micro a b))
                  && (([Micro.mSchedule cb v none none] : List Micro).all
                    (clean3Micro a b))) = true
                rw [hfc, hsched1]
                rfl
              | false =>
                show (([] : List Micro) ++ [Micro.mSchedule cb v none none]).all
                  (clean3Micro a b) = true
                rw [List.nil_append]
                exact hsched1
          · rw [if_neg hsch]
            exact keep3_trans h1
              (keep3_uncaughtOver (.err 999) rfl rfl rfl rfl rfl rfl h1.1)
        · rw [if_pos (by simp [hfin])]
          exact h1

theorem keep3_doClose {a b sa sb : Nat} (u : Nat) (s : St)
    (hua : u ≠ a) (_hub : u ≠ b)
    (hd : DisjC a b sa sb s) :
    Keep3 a b sa sb s (doClose u s) := by
  unfold doClose
  obtain ⟨d1, d2, d3, d4, d5, d6, d7⟩ := hd
  have h0 : Keep3 a b sa sb s
      { s with queue := qdiscard u s.queue, paused := pdiscard u s.paused } := by
    refine ⟨⟨?_, ?_, d3, d4, ?_, d6, d7⟩, [], by rw [List.append_nil], rfl⟩
    · exact aBeforeB_filter a b sa sb u s.queue hua d2 d1
    · exact all_filter_of_all _ _ _ d2
    · unfold pdiscard
      rw [List.all_map]
      refine List.all_eq_true.mpr ?_
      intro pr hpr
      exact all_filter_of_all _ _ _ (List.all_eq_true.mp d5 pr hpr)
  cases hT : alookup u
      ({ s with queue := qdiscard u s.queue, paused := pdiscard u s.paused } : St).tasks with
  | none => simp only [hT]; exact h0
  | some obj =>
    simp only [hT]
    cases hS : obj.susp with
    | closedS =>
      simp only [hS]
      exact keep3_trans h0
        (keep3_pushOver [.mFire u (.exc .genExit)] rfl rfl rfl rfl rfl rfl h0.1 rfl)
    | inSpawn sid =>
      simp only [hS]
      refine keep3_trans h0 (keep3_pushOver _ rfl rfl rfl rfl rfl rfl h0.1 ?_)
      show ((((alookup sid s.spawns).map SpawnObj.scheduled).getD []).map Micro.mClose
          ++ [Micro.mFire u (.exc .genExit)]).all (clean3Micro a b) = true
      rw [List.all_append, sch_clean3 a b sid s.spawns d6]
      rfl
    | atYield =>
      simp only [hS]
      cases hTh : obj.onThrow with
      | propagate =>
        simp only [hTh]
        exact keep3_trans h0
          (keep3_pushOver [.mFire u (.exc .genExit)] rfl rfl rfl rfl rfl rfl h0.1 rfl)
      | raiseOther e2 =>
        simp only [hTh]
        by_cases he : e2 = Exc.genExit
        · simp only [he, if_true]
          exact keep3_trans h0
            (keep3_pushOver [.mFire u (.exc .genExit)] rfl rfl rfl rfl rfl rfl h0.1 rfl)
        · rw [if_neg he]
          exact keep3_trans h0
            (keep3_uncaughtOver e2 rfl rfl rfl rfl rfl rfl h0.1)

theorem keep3_doStep {a b sa sb : Nat} (u : Nat) (v : Val) (s : St)
    (hua : u ≠ a) (hub : u ≠ b)
    (hd : DisjC a b sa sb s) :
    Keep3 a b sa sb s (doStep u v s) := by
  unfold doStep
  have h0 : Keep3 a b sa sb s (appendEv (.stepEv u v) s) :=
    keep3_appendEv _ s hd (by simp [notStepAB, hua, hub])
  cases hT : alookup u (appendEv (.stepEv u v) s).tasks with
  | none => simp only [hT]; exact h0
  | some obj =>
    simp only [hT]
    cases v with
    | exc e => exact keep3_trans h0 (keep3_doThrow u e obj _ h0.1)
    | unit =>
      cases hS : obj.susp with
      | closedS =>
        simp only [hS]
        exact keep3_trans h0
          (keep3_pushOver [.mFire u .unit] rfl rfl rfl rfl rfl rfl h0.1 rfl)
      | atYield =>
        simp only [hS]
        exact keep3_trans h0 (keep3_doResume u obj _ hua hub h0.1)
      | inSpawn sid =>
        simp only [hS]
        exact keep3_trans h0 (keep3_doResume u obj _ hua hub h0.1)
    | nat m =>
      cases hS : obj.susp with
      | closedS =>
        simp only [hS]
        exact keep3_trans h0
          (keep3_pushOver [.mFire u .unit] rfl rfl rfl rfl rfl rfl h0.1 rfl)
      | atYield =>
        simp only [hS]
        exact keep3_trans h0 (keep3_doResume u obj _ hua hub h0.1)
      | inSpawn sid =>
        simp only [hS]
        exact keep3_trans h0 (keep3_doResume u obj _ hua hub h0.1)

theorem inv3_doTurn {a b sa sb : Nat} (out : PollOutcome) (s : St)
    (hd : DisjC a b sa sb s) (hn : firstOf a b s.trace = none) :
    Inv3 a b sa sb (doTurn out s) := by
  obtain ⟨d1, d2, d3, d4, d5, d6, d7⟩ := hd
  have hws2 : ∀ i : Nat, ((alookup i s.paused).getD []).all
      (fun w => decide (w ≠ a) && decide (w ≠ b)) = true := by
    intro i
    cases halk : alookup i s.paused with
    | none => rfl
    | some ws =>
      exact alookup_of_all
        (fun l : List Nat => l.all (fun w => decide (w ≠ a) && decide (w ≠ b)))
        i s.paused ws d5 halk
  unfold doTurn
  cases hq : s.queue with
  | nil =>
    cases hps : s.paused with
    | nil => exact Or.inr (Or.inr ⟨hn, d1, d2, d3, d4, d5, d6, d7⟩)
    | cons p ps =>
      cases out with
      | msg i payload =>
        refine Or.inr (Or.inr ⟨?_, d1, d2, d3, d4, all_filter_of_all _ _ _ d5, d6, ?_⟩)
        · show firstOf a b (s.trace ++ [.pollEv maxDelay (.msg i payload)]) = none
          exact firstOf_none_ext a b _ _ hn rfl
        · show ((((alookup i s.paused).getD []).map (fun w => Micro.mStep w payload))
              ++ s.stack).all (clean3Micro a b) = true
          rw [List.all_append, clean3_msgSteps a b payload _ (hws2 i), d7]
          rfl
      | timeout =>
        simp only [appendEv_queue, hq]
        refine Or.inr (Or.inr ⟨?_, d1, d2, d3, d4, d5, d6, d7⟩)
        show firstOf a b (s.trace ++ [.pollEv maxDelay .timeout]) = none
        exact firstOf_none_ext a b _ _ hn rfl
  | cons e q' =>
    cases out with
    | msg i payload =>
      refine Or.inr (Or.inr ⟨?_, d1, d2, d3, d4, all_filter_of_all _ _ _ d5, d6, ?_⟩)
      · show firstOf a b
            (s.trace ++ [.pollEv (wrapDiff e.deadline s.now) (.msg i payload)]) = none
        exact firstOf_none_ext a b _ _ hn rfl
      · show ((((alookup i s.paused).getD []).map (fun w => Micro.mStep w payload))
            ++ s.stack).all (clean3Micro a b) = true
        rw [List.all_append, clean3_msgSteps a b payload _ (hws2 i), d7]
        rfl
    | timeout =>
      simp only [appendEv_queue, hq]
      by_cases hea : e.task = a
      · refine Or.inr (Or.inl ⟨?_, e.value, s.stack, ?_⟩)
        · show firstOf a b (s.trace ++ [.pollEv (wrapDiff e.deadline s.now) .timeout]) = none
          exact firstOf_none_ext a b _ _ hn rfl
        · show Micro.mStep e.task e.value :: s.stack = Micro.mStep a e.value :: s.stack
          rw [hea]
      · rw [hq] at d1 d2
        simp only [List.all_cons, Bool.and_eq_true] at d2
        obtain ⟨hoke, hokq⟩ := d2
        have heb : e.seq ≠ sb := by
          intro hh
          unfold aBeforeB at d1
          rw [if_pos hh] at d1
          exact absurd d1 (by simp)
        have htb : e.task ≠ b := by
          intro hh
          unfold qOk3 at hoke
          simp only [Bool.and_eq_true] at hoke
          have h2 := hoke.1
          rw [if_pos hh] at h2
          exact heb (of_decide_eq_true h2)
        have hesa : e.seq ≠ sa := by
          intro hh
          unfold qOk3 at hoke
          simp only [Bool.and_eq_true] at hoke
          have h2 := hoke.2
          rw [if_pos hh] at h2
          exact hea (of_decide_eq_true h2)
        rw [aBeforeB_cons_other sa sb e q' heb hesa] at d1
        refine Or.inr (Or.inr ⟨?_, d1, hokq, d3, d4, d5, d6, ?_⟩)
        · show firstOf a b (s.trace ++ [.pollEv (wrapDiff e.deadline s.now) .timeout]) = none
          exact firstOf_none_ext a b _ _ hn rfl
        · show (Micro.mStep e.task e.value :: s.stack).all (clean3Micro a b) = true
          rw [List.all_cons]
          show (clean3Micro a b (Micro.mStep e.task e.value)
              && s.stack.all (clean3Micro a b)) = true
          show ((decide (e.task ≠ a) && decide (e.task ≠ b))
              && s.stack.all (clean3Micro a b)) = true
          simp [hea, htb, d7]

theorem inv3_microStep {a b sa sb : Nat} (s : St) (h : Inv3 a b sa sb s) :
    Inv3 a b sa sb (microStep s) := by
  rcases h with hA | ⟨hn, v, rest, hstk⟩ | ⟨hn, hd⟩
  · left
    obtain ⟨ext, hext⟩ := grows_microStep s
    rw [hext]
    exact firstOf_mono a b a s.trace ext hA
  · left
    have hms : microStep s = doStep a v { s with stack := rest } := by
      unfold microStep
      rw [hstk]
      rfl
    rw [hms]
    obtain ⟨ext, hext⟩ := doStep_trace a v { s with stack := rest }
    rw [hext]
    show firstOf a b (s.trace ++ [Ev.stepEv a v] ++ ext) = some a
    rw [List.append_assoc, firstOf_none_append a b s.trace _ hn]
    show (if a = a ∨ a = b then some a else firstOf a b ext) = some a
    rw [if_pos (Or.inl rfl)]
  · unfold microStep
    cases hstk : s.stack with
    | nil => exact Or.inr (Or.inr ⟨hn, hd⟩)
    | cons m rest =>
      obtain ⟨d1, d2, d3, d4, d5, d6, d7⟩ := hd
      rw [hstk] at d7
      simp only [List.all_cons, Bool.and_eq_true] at d7
      obtain ⟨hm, hrest⟩ := d7
      have hdr : DisjC a b sa sb { s with stack := rest } :=
        ⟨d1, d2, d3, d4, d5, d6, hrest⟩
      have hout : ∀ X : St, Keep3 a b sa sb { s with stack := rest } X →
          Inv3 a b sa sb X := by
        intro X hk
        obtain ⟨hd', ext, hext, hall⟩ := hk
        refine Or.inr (Or.inr ⟨?_, hd'⟩)
        rw [hext]
        exact firstOf_none_ext a b _ ext hn hall
      cases m with
      | mStep u w =>
        simp only [clean3Micro, Bool.and_eq_true, decide_eq_true_eq] at hm
        exact hout _ (keep3_doStep u w { s with stack := rest } hm.1 hm.2 hdr)
      | mFire u w => exact hout _ (keep3_doFire u w { s with stack := rest } hdr)
      | mClose u =>
        simp only [clean3Micro, Bool.and_eq_true, decide_eq_true_eq] at hm
        exact hout _ (keep3_doClose u { s with stack := rest } hm.1 hm.2 hdr)
      | mSchedule u w dl f =>
        simp only [clean3Micro, Bool.and_eq_true, decide_eq_true_eq] at hm
        exact hout _ (keep3_scheduleSt u w dl f { s with stack := rest } hm.2 hdr)
      | mRaise u e2 => exact hout _ (keep3_doRaise u e2 { s with stack := rest } hdr)
      | mTurn out => exact inv3_doTurn out { s with stack := rest } hdr hn

theorem inv3_pushOp {a b sa sb : Nat} (op : Op) (s : St)
    (h : Inv3 a b sa sb s) (hop : avoids3 a b op = true) :
    Inv3 a b sa sb (pushOp op s) := by
  rcases h with hA | ⟨hn, v, rest, hstk⟩ | ⟨hn, hd⟩
  · left
    obtain ⟨ext, hext⟩ := grows_pushOp op s
    rw [hext]
    exact firstOf_mono a b a s.trace ext hA
  · cases op with
    | opSchedule u v2 dl f =>
      have htr2 : ∃ ext, (scheduleSt u v2 dl f s).trace = s.trace ++ ext ∧
          ext.all (notStepAB a b) = true := by
        cases f with
        | none =>
          exact ⟨[.schedEv u (dl.getD s.now) v2], scheduleSt_trace_none u v2 dl s, rfl⟩
        | some g =>
          exact ⟨[.installEv u g, .schedEv u (dl.getD s.now) v2],
            scheduleSt_trace_some u v2 dl g s, rfl⟩
      obtain ⟨ext, hext, hall⟩ := htr2
      refine Or.inr (Or.inl ⟨?_, v, rest, ?_⟩)
      · show firstOf a b (scheduleSt u v2 dl f s).trace = none
        rw [hext]
        exact firstOf_none_ext a b _ _ hn hall
      · show (scheduleSt u v2 dl f s).stack = Micro.mStep a v :: rest
        rw [scheduleSt_stack]
        exact hstk
    | opPause u i => exact Or.inr (Or.inl ⟨hn, v, rest, hstk⟩)
    | opSetNow n => exact Or.inr (Or.inl ⟨hn, v, rest, hstk⟩)
    | opClose u =>
      refine Or.inr (Or.inl ⟨hn, v, rest ++ [Micro.mClose u], ?_⟩)
      show s.stack ++ [Micro.mClose u] = Micro.mStep a v :: (rest ++ [Micro.mClose u])
      rw [hstk]
      rfl
    | opTurn out =>
      refine Or.inr (Or.inl ⟨hn, v, rest ++ [Micro.mTurn out], ?_⟩)
      show s.stack ++ [Micro.mTurn out] = Micro.mStep a v :: (rest ++ [Micro.mTurn out])
      rw [hstk]
      rfl
  · have hout : ∀ X : St, Keep3 a b sa sb s X → Inv3 a b sa sb X := by
      intro X hk
      obtain ⟨hd', ext, hext, hall⟩ := hk
      refine Or.inr (Or.inr ⟨?_, hd'⟩)
      rw [hext]
      exact firstOf_none_ext a b _ ext hn hall
    cases op with
    | opSchedule u v2 dl f =>
      simp only [avoids3, Bool.and_eq_true, decide_eq_true_eq] at hop
      exact hout _ (keep3_scheduleSt u v2 dl f s hop.2 hd)
    | opPause u i =>
      simp only [avoids3, Bool.and_eq_true, decide_eq_true_eq] at hop
      obtain ⟨d1, d2, d3, d4, d5, d6, d7⟩ := hd
      exact Or.inr (Or.inr ⟨hn, d1, d2, d3, d4,
        pAdd_all3 a b u i s.paused hop.1 hop.2 d5, d6, d7⟩)
    | opSetNow n => exact Or.inr (Or.inr ⟨hn, hd⟩)
    | opClose u =>
      simp only [avoids3, Bool.and_eq_true, decide_eq_true_eq] at hop
      obtain ⟨d1, d2, d3, d4, d5, d6, d7⟩ := hd
      refine Or.inr (Or.inr ⟨hn, d1, d2, d3, d4, d5, d6, ?_⟩)
      show (s.stack ++ [Micro.mClose u]).all (clean3Micro a b) = true
      rw [List.all_append, d7]
      show (true && (clean3Micro a b (Micro.mClose u) && true)) = true
      show (true && ((decide (u ≠ a) && decide (u ≠ b)) && true)) = true
      simp [hop.1, hop.2]
    | opTurn out =>
      obtain ⟨d1, d2, d3, d4, d5, d6, d7⟩ := hd
      refine Or.inr (Or.inr ⟨hn, d1, d2, d3, d4, d5, d6, ?_⟩)
      show (s.stack ++ [Micro.mTurn out]).all (clean3Micro a b) = true
      rw [List.all_append, d7]
      rfl

theorem inv3_drain {a b sa sb : Nat} (n : Nat) :
    ∀ s : St, Inv3 a b sa sb s → Inv3 a b sa sb (drain n s) := by
  induction n with
  | zero => intro s h; exact h
  | succ m ih =>
    intro s h
    cases hstk : s.stack with
    | nil =>
      rw [drain_nil (m + 1) s hstk]
      exact h
    | cons x rest =>
      have hdm : drain (m + 1) s = drain m (microStep s) := by rw [drain, hstk]
      rw [hdm]
      exact ih (microStep s) (inv3_microStep s h)

theorem inv3_execOps {a b sa sb : Nat} (fuel : Nat) (ops : List Op) :
    ∀ s : St, Inv3 a b sa sb s → ops.all (avoids3 a b) = true →
      Inv3 a b sa sb (execOps fuel ops s) := by
  induction ops with
  | nil => intro s h _; exact h
  | cons op ops ih =>
    intro s h hops
    simp only [List.all_cons, Bool.and_eq_true] at hops
    show Inv3 a b sa sb (execOps fuel ops (execOp fuel op s))
    exact ih (execOp fuel op s) (inv3_drain fuel _ (inv3_pushOp op s h hops.1)) hops.2

/-- C3: when tasks `a` and `b` are scheduled with the same deadline, `a`
first, the loop never resumes `b` before `a` — over any subsequent run, `b`
is not the first of the two to be stepped.  The timer queue is modelled from
the spec (spec 4.A), keeping equal-deadline entries in insertion order; the
hypotheses say that `a` and `b` are fresh (no prior queue entry for `b`, no
queue entry reusing a future sequence number, neither task paused or
referenced by a spawn group, traces of neither so far) and that later
operations do not schedule, pause, or close `a` or `b` themselves. -/
theorem C3_theorem (s : St) (a b : Nat) (va vb : Val) (dl : Nat) (fuel : Nat)
    (ops : List Op)
    (hab : a ≠ b)
    (hstk : s.stack = [])
    (htr : firstOf a b s.trace = none)
    (hqb : s.queue.all (fun e => e.task ≠ b) = true)
    (hqseq : s.queue.all (fun e => e.seq < s.seqCtr) = true)
    (hpz : s.paused.all
      (fun pr => pr.2.all (fun w => decide (w ≠ a) && decide (w ≠ b))) = true)
    (hsp : s.spawns.all (fun pr => spClean a pr.2 && spClean b pr.2) = true)
    (hops : ops.all (avoids3 a b) = true) :
    firstOf a b (execOps fuel
        (.opSchedule a va (some dl) none :: .opSchedule b vb (some dl) none :: ops)
        s).trace
      ≠ some b := by
  have hS1 : execOp fuel (Op.opSchedule a va (some dl) none) s
      = scheduleSt a va (some dl) none s := by
    show drain fuel (scheduleSt a va (some dl) none s) = _
    exact drain_nil fuel _ (by rw [scheduleSt_stack]; exact hstk)
  have hstk1 : (scheduleSt a va (some dl) none s).stack = [] := by
    rw [scheduleSt_stack]; exact hstk
  have hS2 : execOp fuel (Op.opSchedule b vb (some dl) none)
        (scheduleSt a va (some dl) none s)
      = scheduleSt b vb (some dl) none (scheduleSt a va (some dl) none s) := by
    show drain fuel (scheduleSt b vb (some dl) none (scheduleSt a va (some dl) none s)) = _
    exact drain_nil fuel _ (by rw [scheduleSt_stack]; exact hstk1)
  have hE : execOps fuel
      (Op.opSchedule a va (some dl) none :: Op.opSchedule b vb (some dl) none :: ops) s
      = execOps fuel ops
          (scheduleSt b vb (some dl) none (scheduleSt a va (some dl) none s)) := by
    show execOps fuel ops
        (execOp fuel (Op.opSchedule b vb (some dl) none)
          (execOp fuel (Op.opSchedule a va (some dl) none) s)) = _
    rw [hS1, hS2]
  rw [hE]
  have hq2 : (scheduleSt b vb (some dl) none (scheduleSt a va (some dl) none s)).queue
      = qinsert ⟨dl, s.seqCtr + 1, b, vb⟩ (qinsert ⟨dl, s.seqCtr, a, va⟩ s.queue) := by
    rw [scheduleSt_queue, scheduleSt_queue]
    rw [scheduleSt_seqCtr]
    rfl
  have h0 : s.queue.all (fun e => decide (e.seq ≠ s.seqCtr)
      && decide (e.seq ≠ s.seqCtr + 1)) = true := by
    refine List.all_eq_true.mpr ?_
    intro e he
    have h2 : e.seq < s.seqCtr := of_decide_eq_true (List.all_eq_true.mp hqseq e he)
    show (decide (e.seq ≠ s.seqCtr) && decide (e.seq ≠ s.seqCtr + 1)) = true
    rw [decide_eq_true (by omega : e.seq ≠ s.seqCtr),
      decide_eq_true (by omega : e.seq ≠ s.seqCtr + 1)]
    rfl
  have hqok : s.queue.all (qOk3 a b s.seqCtr (s.seqCtr + 1)) = true := by
    refine List.all_eq_true.mpr ?_
    intro e he
    have h1 : e.task ≠ b := of_decide_eq_true (List.all_eq_true.mp hqb e he)
    have h2 : e.seq < s.seqCtr := of_decide_eq_true (List.all_eq_true.mp hqseq e he)
    unfold qOk3
    rw [if_neg h1, if_neg (by omega : ¬ e.seq = s.seqCtr)]
    rfl
  have hInv : Inv3 a b s.seqCtr (s.seqCtr + 1)
      (scheduleSt b vb (some dl) none (scheduleSt a va (some dl) none s)) := by
    refine Or.inr (Or.inr ⟨?_, ?_, ?_, ?_, ?_, ?_, ?_, ?_⟩)
    · rw [scheduleSt_trace_none, scheduleSt_trace_none]
      rw [List.append_assoc]
      exact firstOf_none_ext a b _ _ htr rfl
    · rw [hq2]
      exact aBeforeB_double s.seqCtr (s.seqCtr + 1) a b va vb dl (by omega) s.queue h0
    · rw [hq2]
      refine qinsert_all _ _ _ ?_ (qinsert_all _ _ _ ?_ hqok)
      · unfold qOk3
        rw [if_pos rfl, if_neg (by omega : ¬ s.seqCtr + 1 = s.seqCtr)]
        simp
      · unfold qOk3
        rw [if_neg (by exact hab : ¬ a = b), if_pos rfl]
        simp
    · rw [scheduleSt_seqCtr, scheduleSt_seqCtr]; omega
    · rw [scheduleSt_seqCtr, scheduleSt_seqCtr]; omega
    · rw [scheduleSt_paused, scheduleSt_paused]; exact hpz
    · rw [scheduleSt_spawns, scheduleSt_spawns]; exact hsp
    · rw [scheduleSt_stack, scheduleSt_stack, hstk]; rfl
  have hfin := inv3_execOps fuel ops
    (scheduleSt b vb (some dl) none (scheduleSt a va (some dl) none s)) hInv hops
  rcases hfin with hA | ⟨hn, _, _, _⟩ | ⟨hn, _⟩
  · rw [hA]
    exact fun hh => hab (Option.some.inj hh)
  · rw [hn]
    simp
  · rw [hn]
    simp

/-- Witness for C3 at `c3WitSt`: after scheduling task 1 and then task 2 with
the same deadline 100 and running two loop turns, task 2 is not the first of
the two to be stepped. -/
theorem C3_witness :
    firstOf 1 2 (execOps 10
        [.opSchedule 1 .unit (some 100) none, .opSchedule 2 .unit (some 100) none,
         .opTurn .timeout, .opTurn .timeout] c3WitSt).trace ≠ some 2 :=
  C3_theorem c3WitSt 1 2 .unit .unit 100 10 [.opTurn .timeout, .opTurn .timeout]
    (by decide) rfl rfl rfl rfl rfl rfl (by decide)

end TrezorLoop
